import Mathlib

/-!
# BEJ decoder and renderer: a shallow embedding

The definitions below follow `src/include/objects.h`, `src/src/dictionary.c`,
`src/src/bej_parse.c` and the sample data of `src/src/main.c` and
`src/tests/test_bej.c`.

Conventions of the embedding.

* A byte buffer is a `List Byte` (`Byte = Fin 256`, the C `uint8_t`); the C
  pointer `*data` is the index `State.data` into that list.
* The C code never checks a bound.  Every dereference goes through `read`,
  which reports `Fault.out_of_bounds i` when the index `i` is not inside the
  buffer.  A `Fault` is not a value the C function returns: it marks the place
  where the C program leaves defined behaviour.
* Returning `NULL` is the value `none`; `malloc` is taken to succeed.
* The static `last_read_field_length` is the second field of `State`.
* Recursion of `bej_read_value` / `bej_read_object` is bounded by a fuel
  argument; `bej_read_value` supplies `3 * length + 3`, which is shown to be
  enough for every buffer (`bej_read_value_fuel_total`).
-/

namespace BEJ

/-! ## objects.h -/

/-- The C type `uint8_t`. -/
abbrev Byte := Fin 256

/-- Tag `BEJ_SET = 0x00` of `enum BejType`. -/
def BEJ_SET : Nat := 0x00
/-- Tag `BEJ_ARRAY = 0x01` of `enum BejType`. -/
def BEJ_ARRAY : Nat := 0x01
/-- Tag `BEJ_NULL = 0x02` of `enum BejType`. -/
def BEJ_NULL : Nat := 0x02
/-- Tag `BEJ_INTEGER = 0x03` of `enum BejType`. -/
def BEJ_INTEGER : Nat := 0x03
/-- Tag `BEJ_ENUM = 0x04` of `enum BejType`. -/
def BEJ_ENUM : Nat := 0x04
/-- Tag `BEJ_STRING = 0x05` of `enum BejType`. -/
def BEJ_STRING : Nat := 0x05

/-- Capacity of a Set's `pairs` array (`#define PAIR_BUFFER 32` in bej_parse.h). -/
def PAIR_BUFFER : Nat := 32

/-- The tree node `struct BejSet`: the discriminant `type` with the active
union field.  `integer` is `type = BEJ_INTEGER` with `integer_value` (an
`int32_t`), `string` is `type = BEJ_STRING` with the bytes of `string_value`
before its terminating NUL slot, `set` is `type = BEJ_SET` with the first
`count` entries of `pairs`, each the `uint8_t id` of the `JsonPair` union and
its `value`.  `other` stands for a node whose discriminant is any other tag. -/
inductive BejSet where
  | integer (integer_value : Int)
  | string (string_value : List Byte)
  | set (pairs : List (Nat × BejSet))
  | other (type : Nat)

/-- The discriminant `val->type` of a node. -/
def BejSet.type : BejSet → Nat
  | .integer _ => BEJ_INTEGER
  | .string _ => BEJ_STRING
  | .set _ => BEJ_SET
  | .other t => t

/-- One row `struct BejDictionary` of a dictionary table; `name = none` is the
`NULL` name of the sentinel row. -/
structure BejDictionary where
  id : Nat
  name : Option String
  type : Nat
deriving DecidableEq, Repr

/-! ## Undefined behaviour -/

/-- The places where the C code leaves defined behaviour (or, for
`out_of_fuel`, where the bounded recursion of the embedding stops). -/
inductive Fault where
  /-- A read of `buffer[index]` with `index` not inside the buffer. -/
  | out_of_bounds (index : Nat)
  /-- A shift `<< count` of a `uint32_t` with `count >= 32`. -/
  | shift_too_wide (count : Nat)
  /-- A store to `pairs[index]` with `index >= PAIR_BUFFER`. -/
  | pairs_overflow (index : Nat)
  /-- A dictionary scan that leaves the table without meeting a sentinel. -/
  | no_sentinel
  /-- The fuel of the embedding ran out. -/
  | out_of_fuel
deriving DecidableEq, Repr

/-- The cursor `*data` (an index into the buffer) and the static
`last_read_field_length`. -/
structure State where
  data : Nat
  last_read_field_length : Nat
deriving DecidableEq, Repr

/-- A dereference `buf[i]`, bounds made explicit. -/
def read (buf : List Byte) (i : Nat) : Except Fault Nat :=
  match buf[i]? with
  | some b => .ok b.val
  | none => .error (.out_of_bounds i)

/-- Conversion of a `uint32_t` to `int32_t` (two's complement). -/
def toInt32 (n : Nat) : Int :=
  if n % 2 ^ 32 < 2 ^ 31 then ((n % 2 ^ 32 : Nat) : Int)
  else ((n % 2 ^ 32 : Nat) : Int) - 2 ^ 32

/-! ## dictionary.c -/

/-- The root table `main_dictionary`, sentinel row included. -/
def main_dictionary : List BejDictionary :=
  [ ⟨0, some "root", BEJ_SET⟩,
    ⟨1, some "CapacityMiB", BEJ_INTEGER⟩,
    ⟨2, some "DataWidthBits", BEJ_INTEGER⟩,
    ⟨3, some "ErrorCorrection", BEJ_STRING⟩,
    ⟨4, some "MemoryLocation", BEJ_SET⟩,
    ⟨255, none, 0⟩ ]

/-- The nested table `child_dictionary`, sentinel row included. -/
def child_dictionary : List BejDictionary :=
  [ ⟨1, some "Channel", BEJ_INTEGER⟩,
    ⟨2, some "Slot", BEJ_INTEGER⟩,
    ⟨255, none, 0⟩ ]

/-- The function `bej_get_child_dictionary`: parent identifier 4 selects
`child_dictionary`, every other one `main_dictionary`. -/
def bej_get_child_dictionary (parent_id : Nat) : List BejDictionary :=
  if parent_id = 4 then child_dictionary else main_dictionary

/-- The function `bej_find_in_dictionary`.  The loop `for (i = 0; dict[i].name
!= NULL; i++)` walks the rows; the argument `type` is `none` for a `NULL`
out-parameter and `some t` for a location currently holding `t`.  The result
is the returned name (`none` for `NULL`) and the final content of the
out-parameter location.  A table without a sentinel row is left by the scan:
`Fault.no_sentinel`. -/
def bej_find_in_dictionary : List BejDictionary → Nat → Option Nat →
    Except Fault (Option String × Option Nat)
  | [], _, _ => .error .no_sentinel
  | row :: rest, id, type =>
    match row.name with
    | none => .ok (none, type)
    | some name =>
      if row.id = id then
        .ok (some name, match type with | none => none | some _ => some row.type)
      else bej_find_in_dictionary rest id type

/-! ## bej_parse.c: the binary decoder -/

/-- The loop of `bej_read_integer`: `k` iterations remain, `i` is the loop
counter, `data` the cursor, `res` the `uint32_t` accumulator.  Each turn reads
`*(++(*data))` and ors it in, shifted by `8 * i`. -/
def bej_read_integer_loop (buf : List Byte) :
    Nat → Nat → Nat → Nat → Except Fault (Nat × Nat)
  | 0, _, data, res => .ok (res, data)
  | k + 1, i, data, res =>
    match read buf (data + 1) with
    | .error e => .error e
    | .ok b =>
      if 32 ≤ 8 * i then .error (.shift_too_wide (8 * i))
      else bej_read_integer_loop buf k (i + 1) (data + 1)
        ((res ||| (b <<< (8 * i))) % 2 ^ 32)

/-- The function `bej_read_integer`: entered with the cursor on the type byte,
it reads the length byte, records it in `last_read_field_length` and
accumulates that many bytes.  It returns the `uint32_t` and leaves the cursor
on the last byte read. -/
def bej_read_integer (buf : List Byte) (s : State) : Except Fault (Nat × State) :=
  match read buf (s.data + 1) with
  | .error e => .error e
  | .ok length =>
    match bej_read_integer_loop buf length 0 (s.data + 1) 0 with
    | .error e => .error e
    | .ok (res, data) => .ok (res, ⟨data, length⟩)

/-- The loop of `bej_read_string`: `k` iterations remain, `res` holds the
bytes `res[0..i-1]` stored so far. -/
def bej_read_string_loop (buf : List Byte) :
    Nat → Nat → List Byte → Except Fault (List Byte × Nat)
  | 0, data, res => .ok (res, data)
  | k + 1, data, res =>
    match buf[data + 1]? with
    | none => .error (.out_of_bounds (data + 1))
    | some b => bej_read_string_loop buf k (data + 1) (res ++ [b])

/-- The function `bej_read_string`: entered with the cursor on the type byte,
it reads the length byte, records it in `last_read_field_length` and copies
that many bytes; `res[length] = 0` terminates the copy.  The result is the
list of the `length` bytes copied. -/
def bej_read_string (buf : List Byte) (s : State) :
    Except Fault (List Byte × State) :=
  match read buf (s.data + 1) with
  | .error e => .error e
  | .ok length =>
    match bej_read_string_loop buf length (s.data + 1) [] with
    | .error e => .error e
    | .ok (res, data) => .ok (res, ⟨data, length⟩)

/-- The content of a C string held in a buffer of these bytes followed by a
NUL: the bytes before the first NUL (what `strcmp` and `%s` see). -/
def cstring (bytes : List Byte) : List Byte :=
  bytes.takeWhile (fun b => b.val ≠ 0)

mutual
/-- The function `bej_read_value` with bounded recursion.  It reads the
identifier under the cursor and the type tag after it, then dispatches.  An
unrecognised tag returns `NULL` with the cursor on the tag byte. -/
def bej_read_value_fuel (buf : List Byte) :
    Nat → State → List BejDictionary → Except Fault (Option BejSet × State)
  | 0, _, _ => .error .out_of_fuel
  | fuel + 1, s, dict =>
    match read buf s.data with
    | .error e => .error e
    | .ok id =>
      match read buf (s.data + 1) with
      | .error e => .error e
      | .ok type =>
        let s1 : State := ⟨s.data + 1, s.last_read_field_length⟩
        if type = BEJ_INTEGER then
          match bej_read_integer buf s1 with
          | .error e => .error e
          | .ok (v, s2) => .ok (some (.integer (toInt32 v)), s2)
        else if type = BEJ_STRING then
          match bej_read_string buf s1 with
          | .error e => .error e
          | .ok (v, s2) => .ok (some (.string v), s2)
        else if type = BEJ_SET then
          bej_read_object_fuel buf fuel s1 id dict
        else .ok (none, s1)

/-- The function `bej_read_object` with bounded recursion: entered with the
cursor on the type byte, it reads `bytes_len`, selects the child table from
`parent_id`, steps the cursor once more and runs the member loop with
`object_val_id = 1` and no pair stored.  The parameter `dict` is not used by
the C function. -/
def bej_read_object_fuel (buf : List Byte) :
    Nat → State → Nat → List BejDictionary → Except Fault (Option BejSet × State)
  | 0, _, _, _ => .error .out_of_fuel
  | fuel + 1, s, parent_id, _dict =>
    match read buf (s.data + 1) with
    | .error e => .error e
    | .ok bytes_len =>
      bej_read_object_loop buf fuel ⟨s.data + 2, s.last_read_field_length⟩
        (bej_get_child_dictionary parent_id) bytes_len 1 []

/-- The loop `while (bytes_len > 0)` of `bej_read_object`.  `bytes_len` is a
`uint8_t`, `object_val_id` a `uint16_t`, `pairs` the entries stored so far.
Each turn decodes one value, steps the cursor, leaves the loop on `NULL`,
otherwise stores the pair under the low byte of `object_val_id` and subtracts
`last_read_field_length` from `bytes_len` (modulo 256). -/
def bej_read_object_loop (buf : List Byte) :
    Nat → State → List BejDictionary → Nat → Nat → List (Nat × BejSet) →
    Except Fault (Option BejSet × State)
  | 0, _, _, _, _, _ => .error .out_of_fuel
  | fuel + 1, s, child_dict, bytes_len, object_val_id, pairs =>
    if 0 < bytes_len then
      match bej_read_value_fuel buf fuel s child_dict with
      | .error e => .error e
      | .ok (value, s1) =>
        let s2 : State := ⟨s1.data + 1, s1.last_read_field_length⟩
        match value with
        | none => .ok (some (.set pairs), s2)
        | some v =>
          if PAIR_BUFFER ≤ pairs.length then .error (.pairs_overflow pairs.length)
          else
            bej_read_object_loop buf fuel s2 child_dict
              ((bytes_len + 256 - s2.last_read_field_length % 256) % 256)
              ((object_val_id + 1) % 65536)
              (pairs ++ [(object_val_id % 256, v)])
    else .ok (some (.set pairs), s)
end

/-- The function `bej_read_value` on a buffer, with fuel enough for any
buffer of that length. -/
def bej_read_value (buf : List Byte) (s : State) (dict : List BejDictionary) :
    Except Fault (Option BejSet × State) :=
  bej_read_value_fuel buf (3 * buf.length + 3) s dict

/-- The function `bej_read_object` on a buffer, with fuel enough for any
buffer of that length. -/
def bej_read_object (buf : List Byte) (s : State) (parent_id : Nat)
    (dict : List BejDictionary) : Except Fault (Option BejSet × State) :=
  bej_read_object_fuel buf (3 * buf.length + 3) s parent_id dict

/-! ## bej_parse.c: the renderer -/

/-- Text written by `for (j = 0; j < n; j++) fprintf(f, "  ")`. -/
def indent : Nat → String
  | 0 => ""
  | n + 1 => "  " ++ indent n

/-- Text written by `fprintf(f, "%s", p)` for a C string with these bytes: one
character per byte, up to the first NUL. -/
def text (bytes : List Byte) : String :=
  String.mk ((cstring bytes).map (fun b => Char.ofNat b.val))

mutual
/-- The function `bej_to_json_val` for a non-`NULL` node and an open file: the
text it writes.  A node whose tag is none of Integer, String, Set writes
nothing. -/
def bej_to_json_val : BejSet → List BejDictionary → Nat → Except Fault String
  | .integer integer_value, _, _ => .ok (toString integer_value)
  | .string string_value, _, _ => .ok ("\"" ++ text string_value ++ "\"")
  | .set pairs, dict, depth =>
    match bej_to_json_pairs pairs dict depth with
    | .error e => .error e
    | .ok body => .ok ("\x7b\n" ++ body ++ indent depth ++ "\x7d")
  | .other _, _, _ => .ok ""

/-- The loop `for (i = 0; i < count; i++)` of `bej_to_json_val` over the pairs
from index `i` on: name lookup with the `UNKNOWN` fallback, indentation, the
child rendered with `bej_get_child_dictionary(id)`, a comma when `i < count -
1`, a newline. -/
def bej_to_json_pairs : List (Nat × BejSet) → List BejDictionary → Nat →
    Except Fault String
  | [], _, _ => .ok ""
  | (id, value) :: rest, dict, depth =>
    match bej_find_in_dictionary dict (id % 256) none with
    | .error e => .error e
    | .ok (found, _) =>
      let name := match found with | some n => n | none => "UNKNOWN"
      match bej_to_json_val value (bej_get_child_dictionary (id % 256)) (depth + 1) with
      | .error e => .error e
      | .ok child =>
        match bej_to_json_pairs rest dict depth with
        | .error e => .error e
        | .ok more =>
          .ok (indent (depth + 1) ++ "\"" ++ name ++ "\": " ++ child ++
            (if rest.isEmpty then "" else ",") ++ "\n" ++ more)
end

/-- The function `bej_to_json_file`, as the content of the file it writes
(the file is taken to open): the root rendered with `main_dictionary` at depth
0, then a newline.  A `NULL` root makes `bej_to_json_val` return at once. -/
def bej_to_json_file (root : Option BejSet) : Except Fault String :=
  match root with
  | none => .ok "\n"
  | some r =>
    match bej_to_json_val r main_dictionary 0 with
    | .error e => .error e
    | .ok out => .ok (out ++ "\n")

/-- The program of main.c from the bytes loaded to the file content written:
decode with `bej_read_value`, render with `bej_to_json_file`. -/
def main (bin_data : List Byte) : Except Fault String :=
  match bej_read_value bin_data ⟨0, 0⟩ main_dictionary with
  | .error e => .error e
  | .ok (root, _) => bej_to_json_file root

/-! ## json_parse.c: the text decoder -/

/-- Capacity of a Set's `pairs` array in json_parse.c (`#define PAIR_BUFFER
20` there). -/
def JSON_PAIR_BUFFER : Nat := 20

/-- The tree node `struct BejSet` as the text decoder builds it: in each
`JsonPair` the member `key` of the union is active, an owned C string given by
its bytes before the terminator. -/
inductive JsonBejSet where
  | integer (integer_value : Int)
  | string (string_value : List Byte)
  | set (pairs : List (List Byte × JsonBejSet))

/-- A dereference `**text` at index `i` of a NUL-terminated text.  `text` holds
the characters loaded; `json_load_file` stores a NUL right behind them, so
index `text.length` reads 0 and any index beyond is outside the buffer. -/
def char_at (text : List Byte) (i : Nat) : Except Fault Nat :=
  match text[i]? with
  | some c => .ok c.val
  | none => if i = text.length then .ok 0 else .error (.out_of_bounds i)

/-- A loop `while (p(**text)) (*text)++`: the index where it stops. -/
def scan_while (p : Nat → Bool) (text : List Byte) : Nat → Nat → Except Fault Nat
  | 0, _ => .error .out_of_fuel
  | fuel + 1, i =>
    match char_at text i with
    | .error e => .error e
    | .ok c => if p c then scan_while p text fuel (i + 1) else .ok i

/-- The test of `json_skip_spaces`: space, newline or tab. -/
def is_json_space (c : Nat) : Bool :=
  c == 0x20 || c == 0x0A || c == 0x09

/-- The C library test `isdigit`. -/
def isdigit (c : Nat) : Bool :=
  0x30 ≤ c && c ≤ 0x39

/-- The C library test `isspace` (C locale): space, `\t`, `\n`, `\v`, `\f`,
`\r`. -/
def isspace (c : Nat) : Bool :=
  c == 0x20 || (0x09 ≤ c && c ≤ 0x0D)

/-- The function `json_skip_spaces`. -/
def json_skip_spaces (text : List Byte) (i : Nat) : Except Fault Nat :=
  scan_while is_json_space text (text.length + 1) i

/-- The function `json_read_string`: `NULL` with the cursor unmoved when the
character under it is not a double quote; otherwise the cursor runs to the
next double quote or NUL; `NULL` when that is not a double quote; otherwise the
characters between the quotes are copied and the cursor steps over the closing
quote. -/
def json_read_string (text : List Byte) (i : Nat) : Except Fault (Option (List Byte) × Nat) :=
  match char_at text i with
  | .error e => .error e
  | .ok c =>
    if c ≠ 0x22 then .ok (none, i)
    else
      match scan_while (fun c => c != 0x22 && c != 0) text (text.length + 1) (i + 1) with
      | .error e => .error e
      | .ok j =>
        match char_at text j with
        | .error e => .error e
        | .ok c' =>
          if c' ≠ 0x22 then .ok (none, j)
          else .ok (some ((text.drop (i + 1)).take (j - (i + 1))), j + 1)

/-- The largest `long` of the C library (`LONG_MAX`), for a 64-bit `long`. -/
def LONG_MAX : Nat := 2 ^ 63 - 1

/-- The number written by decimal digit characters, most significant first. -/
def decimal (digits : List Byte) : Nat :=
  digits.foldl (fun acc c => 10 * acc + (c.val - 0x30)) 0

/-- The C library call `strtol(p, &end, 10)` at index `i`, as the C standard
describes it: white space is skipped, a sign is optional, the longest run of
digits is converted and clamped to the range of `long`; without a digit the
result is 0 and `end` is `p`.  The result is the `long` and the index `end`. -/
def strtol (text : List Byte) (i : Nat) : Except Fault (Int × Nat) :=
  match scan_while isspace text (text.length + 1) i with
  | .error e => .error e
  | .ok i1 =>
    match char_at text i1 with
    | .error e => .error e
    | .ok c =>
      let i2 := if c = 0x2D ∨ c = 0x2B then i1 + 1 else i1
      match scan_while isdigit text (text.length + 1) i2 with
      | .error e => .error e
      | .ok i3 =>
        if i3 = i2 then .ok (0, i)
        else
          let n := decimal ((text.drop i2).take (i3 - i2))
          if c = 0x2D then .ok (- (Int.ofNat (min n (LONG_MAX + 1))), i3)
          else .ok (Int.ofNat (min n LONG_MAX), i3)

/-- The function `json_read_integer`: the `long` of `strtol` converted to
`int32_t`; 0 with the cursor unmoved when nothing was parsed. -/
def json_read_integer (text : List Byte) (i : Nat) : Except Fault (Int × Nat) :=
  match strtol text i with
  | .error e => .error e
  | .ok (num, end_) =>
    if end_ = i then .ok (0, i)
    else .ok (toInt32 (num % 2 ^ 32).toNat, end_)

mutual
/-- The function `json_read_value` with bounded recursion. -/
def json_read_value_fuel (text : List Byte) :
    Nat → Nat → Except Fault (Option JsonBejSet × Nat)
  | 0, _ => .error .out_of_fuel
  | fuel + 1, i =>
    match json_skip_spaces text i with
    | .error e => .error e
    | .ok i1 =>
      match char_at text i1 with
      | .error e => .error e
      | .ok c =>
        if c = 0x22 then
          match json_read_string text i1 with
          | .error e => .error e
          | .ok (none, i2) => .ok (none, i2)
          | .ok (some s, i2) => .ok (some (.string s), i2)
        else if isdigit c then
          match json_read_integer text i1 with
          | .error e => .error e
          | .ok (n, i2) => .ok (some (.integer n), i2)
        else if c = 0x7B then json_read_object_fuel text fuel i1
        else .ok (none, i1)

/-- The function `json_read_object` with bounded recursion: the cursor steps
over the opening brace, spaces are skipped and the member loop runs with no
pair stored. -/
def json_read_object_fuel (text : List Byte) :
    Nat → Nat → Except Fault (Option JsonBejSet × Nat)
  | 0, _ => .error .out_of_fuel
  | fuel + 1, i =>
    match json_skip_spaces text (i + 1) with
    | .error e => .error e
    | .ok i1 => json_read_object_loop text fuel i1 []

/-- The loop `while (**text != '}' && **text != '\0')` of `json_read_object`
and what follows it.  A turn skips spaces, reads the key, skips spaces, steps
over a colon if there is one, skips spaces, reads the value, stores the pair,
skips spaces and, when a comma follows, steps over it and skips spaces.  A key
or value that fails makes the function return `NULL`.  After the loop the
cursor steps over a closing brace if there is one. -/
def json_read_object_loop (text : List Byte) :
    Nat → Nat → List (List Byte × JsonBejSet) → Except Fault (Option JsonBejSet × Nat)
  | 0, _, _ => .error .out_of_fuel
  | fuel + 1, i, pairs =>
    match char_at text i with
    | .error e => .error e
    | .ok c =>
      if c ≠ 0x7D ∧ c ≠ 0 then
        match json_skip_spaces text i with
        | .error e => .error e
        | .ok i1 =>
          match json_read_string text i1 with
          | .error e => .error e
          | .ok (none, i2) => .ok (none, i2)
          | .ok (some key, i2) =>
            match json_skip_spaces text i2 with
            | .error e => .error e
            | .ok i3 =>
              match char_at text i3 with
              | .error e => .error e
              | .ok c3 =>
                match json_skip_spaces text (if c3 = 0x3A then i3 + 1 else i3) with
                | .error e => .error e
                | .ok i5 =>
                  match json_read_value_fuel text fuel i5 with
                  | .error e => .error e
                  | .ok (none, i6) => .ok (none, i6)
                  | .ok (some value, i6) =>
                    if JSON_PAIR_BUFFER ≤ pairs.length then
                      .error (.pairs_overflow pairs.length)
                    else
                      match json_skip_spaces text i6 with
                      | .error e => .error e
                      | .ok i7 =>
                        match char_at text i7 with
                        | .error e => .error e
                        | .ok c7 =>
                          match (if c7 = 0x2C then json_skip_spaces text (i7 + 1)
                              else .ok i7) with
                          | .error e => .error e
                          | .ok i8 =>
                            json_read_object_loop text fuel i8 (pairs ++ [(key, value)])
      else .ok (some (.set pairs), if c = 0x7D then i + 1 else i)
end

/-- The function `json_read_value` on a text, with fuel enough for any text
of that length. -/
def json_read_value (text : List Byte) (i : Nat) : Except Fault (Option JsonBejSet × Nat) :=
  json_read_value_fuel text (2 * text.length + 3) i

/-- The function `json_read_object` on a text, entered with the cursor on the
opening brace, with fuel enough for any text of that length. -/
def json_read_object (text : List Byte) (i : Nat) : Except Fault (Option JsonBejSet × Nat) :=
  json_read_object_fuel text (2 * text.length + 3) i

/-- The bytes of a text given as a string, one byte per character. -/
def bytes (s : String) : List Byte :=
  s.toList.map (fun c => ⟨c.toNat % 256, Nat.mod_lt _ (by decide)⟩)

/-! ## Sample buffers -/

/-- The 22-byte buffer of `test_parse_complete_structure` (test_bej.c). -/
def test_data : List Byte :=
  [0x00, 0x00, 0x0B,
   0x01, 0x03, 0x04, 0x00, 0x00, 0x01, 0x00,
   0x02, 0x03, 0x01, 0x40,
   0x03, 0x05, 0x05, 0x4E, 0x6F, 0x45, 0x43, 0x43]

/-- The 33-byte sample `bej_data` of main.c. -/
def bej_data : List Byte :=
  [0x00, 0x00, 0x0B,
   0x01, 0x03, 0x04, 0x00, 0x00, 0x01, 0x00,
   0x02, 0x03, 0x01, 0x40,
   0x03, 0x05, 0x05, 0x4E, 0x6F, 0x45, 0x43, 0x43,
   0x04, 0x00, 0x02,
   0x01, 0x03, 0x01, 0x00,
   0x02, 0x03, 0x01, 0x00]

/-! ## Definitions used to state the properties -/

/-- The number written by the bytes `b_0, b_1, ...` read least significant
byte first: `b_0 + 256 * (b_1 + 256 * ...)`. -/
def little_endian : List Byte → Nat
  | [] => 0
  | b :: rest => b.val + 256 * little_endian rest

mutual
/-- Every node of the tree has discriminant Set, Integer or String. -/
def BejSet.tags_ok : BejSet → Bool
  | .integer _ => true
  | .string _ => true
  | .set pairs => tags_ok_pairs pairs
  | .other _ => false
/-- Every node below these pairs has discriminant Set, Integer or String. -/
def tags_ok_pairs : List (Nat × BejSet) → Bool
  | [] => true
  | (_, value) :: rest => value.tags_ok && tags_ok_pairs rest
end

mutual
/-- In every Set of the tree the keys are 1, 2, 3, ... in stored order. -/
def BejSet.keys_sequential : BejSet → Bool
  | .set pairs => keys_from 1 pairs
  | _ => true
/-- The keys of these pairs are `k, k + 1, ...` in stored order, and the same
holds from 1 in every Set below them. -/
def keys_from : Nat → List (Nat × BejSet) → Bool
  | _, [] => true
  | k, (id, value) :: rest => (id == k) && value.keys_sequential && keys_from (k + 1) rest
end

/-- An Integer or String triplet as it stands on the wire: identifier byte,
type tag, payload (the length byte is the payload's length). -/
structure Triplet where
  id : Byte
  tag : Byte
  payload : List Byte

/-- The length byte of a triplet. -/
def Triplet.length_byte (m : Triplet) : Byte :=
  ⟨m.payload.length % 256, Nat.mod_lt _ (by decide)⟩

/-- The bytes of a triplet: identifier, type tag, length, payload. -/
def Triplet.encode (m : Triplet) : List Byte :=
  m.id :: m.tag :: m.length_byte :: m.payload

/-- A triplet is an Integer of at most 4 payload bytes or a String of at most
255 payload bytes. -/
def Triplet.wf (m : Triplet) : Prop :=
  (m.tag.val = BEJ_INTEGER ∧ m.payload.length ≤ 4) ∨
    (m.tag.val = BEJ_STRING ∧ m.payload.length < 256)

instance (m : Triplet) : Decidable m.wf := by
  unfold Triplet.wf; exact inferInstance

/-- The node a well-formed triplet stands for. -/
def Triplet.value (m : Triplet) : BejSet :=
  if m.tag.val = BEJ_INTEGER then .integer (toInt32 (little_endian m.payload))
  else .string m.payload

/-- The bytes of a sequence of triplets, one after the other. -/
def encode_all : List Triplet → List Byte
  | [] => []
  | m :: rest => m.encode ++ encode_all rest

/-- The sum of the payload lengths of a sequence of triplets. -/
def payload_total : List Triplet → Nat
  | [] => 0
  | m :: rest => m.payload.length + payload_total rest

/-- The pairs stored for a sequence of triplets when the first key is `k`. -/
def members_from : Nat → List Triplet → List (Nat × BejSet)
  | _, [] => []
  | k, m :: rest => (k, m.value) :: members_from (k + 1) rest

/-- The value of `last_read_field_length` after the triplets were read, `l`
before them. -/
def last_length : Nat → List Triplet → Nat
  | l, [] => l
  | _, m :: rest => last_length m.payload.length rest

/-- The loop `while (bytes_len > 0)` is entered for each of the triplets when
it starts with `bytes_len`, and the subtraction never wraps. -/
def loop_enters : Nat → List Triplet → Prop
  | _, [] => True
  | bytes_len, m :: rest =>
    0 < bytes_len ∧ m.payload.length ≤ bytes_len ∧
      loop_enters (bytes_len - m.payload.length) rest

/-- The rows of a table that stand before its sentinel (the first row with a
`NULL` name). -/
def rows_before_sentinel (dict : List BejDictionary) : List BejDictionary :=
  dict.takeWhile (fun row => row.name.isSome)

/-- The first row before the sentinel whose identifier is `id`, if any. -/
def first_entry (dict : List BejDictionary) (id : Nat) : Option BejDictionary :=
  (rows_before_sentinel dict).find? (fun row => row.id == id)

/-- The text of `n` space characters. -/
def spaces (n : Nat) : String :=
  String.mk (List.replicate n ' ')

/-- The name written for a key: the name of the first row before the
sentinel with that identifier, the marker `UNKNOWN` when there is none. -/
def name_of (dict : List BejDictionary) (key : Nat) : String :=
  match first_entry dict key with
  | some row => row.name.getD "UNKNOWN"
  | none => "UNKNOWN"

/-- The text of one member at depth `d`: `2 * (d + 1)` spaces, the quoted
name, a colon and a space, the text of the value, a comma unless the member is
the last, a newline. -/
def member_line (d : Nat) (name child : String) (last : Bool) : String :=
  spaces (2 * (d + 1)) ++ "\"" ++ name ++ "\": " ++ child ++ (if last then "" else ",") ++ "\n"

/-- The texts of the members from position `i` (counted from 0) of a Set of
`n` members, given each member's key and the text of its value. -/
def member_lines_from (dict : List BejDictionary) (d n : Nat) :
    Nat → List (Nat × String) → List String
  | _, [] => []
  | i, (key, child) :: rest =>
    member_line d (name_of dict key) child (decide (i + 1 = n)) ::
      member_lines_from dict d n (i + 1) rest

/-- The texts one after the other. -/
def concat : List String → String
  | [] => ""
  | line :: rest => line ++ concat rest

/-- What the specification says of string reading at index `i`: failure when
the character there is not a double quote; otherwise the characters up to the
next double quote or NUL are taken; failure when it is not a double quote that
ends them; otherwise they are the result and the cursor is right behind the
closing quote. -/
def read_string_spec (text : List Byte) (i : Nat) : Option (List Byte) × Nat :=
  if text[i]? = some 0x22 then
    let seg := (text.drop (i + 1)).takeWhile (fun c => c.val != 0x22 && c.val != 0)
    if text[i + 1 + seg.length]? = some 0x22 then (some seg, i + seg.length + 2)
    else (none, i + 1 + seg.length)
  else (none, i)

/-- A run of spaces, tabs and newlines. -/
def is_ws (ws : List Byte) : Prop :=
  ∀ c ∈ ws, is_json_space c.val = true

/-- Characters of a key or string value: no double quote and no NUL. -/
def is_plain (cs : List Byte) : Prop :=
  ∀ c ∈ cs, (c.val != 0x22 && c.val != 0) = true

mutual
/-- A JSON value as the text decoder accepts it: a non-negative decimal
integer, a string, or an object.  The lists `ws` are the white space written
at each place where it may stand. -/
inductive JsonValue where
  | number (digits : List Byte)
  | str (chars : List Byte)
  | object (ws : List Byte) (members : JsonMembers)
/-- The members of an object, each `ws_before "key" ws_key : ws_colon value
ws_value`, separated by commas. -/
inductive JsonMembers where
  | nil
  | cons (ws_before key ws_key ws_colon : List Byte) (value : JsonValue)
      (ws_value : List Byte) (rest : JsonMembers)
end

mutual
/-- The text of a value. -/
def JsonValue.text : JsonValue → List Byte
  | .number digits => digits
  | .str chars => 0x22 :: chars ++ [0x22]
  | .object ws members => 0x7B :: ws ++ members.text true ++ [0x7D]
/-- The text of the members; every member but the first is preceded by a
comma. -/
def JsonMembers.text : JsonMembers → Bool → List Byte
  | .nil, _ => []
  | .cons ws_before key ws_key ws_colon value ws_value rest, first =>
    (if first then [] else [0x2C]) ++ ws_before ++
      (0x22 :: key ++ 0x22 :: ws_key ++ 0x3A :: ws_colon ++ value.text ++ ws_value ++
        rest.text false)
end

/-- The number of members. -/
def JsonMembers.count : JsonMembers → Nat
  | .nil => 0
  | .cons _ _ _ _ _ _ rest => rest.count + 1

/-- The key texts in order. -/
def JsonMembers.keys : JsonMembers → List (List Byte)
  | .nil => []
  | .cons _ key _ _ _ _ rest => key :: rest.keys

/-- The `int32_t` that a run of digits is decoded to. -/
def decoded_integer (digits : List Byte) : Int :=
  toInt32 (min (decimal digits) LONG_MAX)

mutual
/-- The tree a value stands for. -/
def JsonValue.decoded : JsonValue → JsonBejSet
  | .number digits => .integer (decoded_integer digits)
  | .str chars => .string chars
  | .object _ members => .set members.pairs
/-- The pairs the members stand for, in text order. -/
def JsonMembers.pairs : JsonMembers → List (List Byte × JsonBejSet)
  | .nil => []
  | .cons _ key _ _ value _ rest => (key, value.decoded) :: rest.pairs
end

mutual
/-- A value is of the accepted form: digits only and at least one in a number,
plain characters in a string, white space in `ws`, at most 20 members in every
object. -/
def JsonValue.wf : JsonValue → Prop
  | .number digits => digits ≠ [] ∧ ∀ c ∈ digits, isdigit c.val = true
  | .str chars => is_plain chars
  | .object ws members => is_ws ws ∧ members.count ≤ JSON_PAIR_BUFFER ∧ members.wf
/-- The members are of the accepted form. -/
def JsonMembers.wf : JsonMembers → Prop
  | .nil => True
  | .cons ws_before key ws_key ws_colon value ws_value rest =>
    is_ws ws_before ∧ is_plain key ∧ is_ws ws_key ∧ is_ws ws_colon ∧ value.wf ∧
      is_ws ws_value ∧ rest.wf
end

mutual
/-- A bound on the depth of calls that decoding a value takes. -/
def JsonValue.size : JsonValue → Nat
  | .number _ => 1
  | .str _ => 1
  | .object _ members => members.size + 2
/-- A bound on the depth of calls that the member loop takes. -/
def JsonMembers.size : JsonMembers → Nat
  | .nil => 1
  | .cons _ _ _ _ value _ rest => value.size + rest.size + 1
end

/-- The white space before the first key. -/
def JsonMembers.lead : JsonMembers → List Byte
  | .nil => []
  | .cons ws_before _ _ _ _ _ _ => ws_before

/-- The text of the members from the opening quote of the first key on. -/
def JsonMembers.body : JsonMembers → List Byte
  | .nil => []
  | .cons _ key ws_key ws_colon value ws_value rest =>
    0x22 :: key ++ 0x22 :: ws_key ++ 0x3A :: ws_colon ++ value.text ++ ws_value ++
      rest.text false

/-- The number of spaces, tabs and newlines that stand in a row from index `i`
on. -/
def leading_space (text : List Byte) (i : Nat) : Nat :=
  ((text.drop i).takeWhile (fun b => is_json_space b.val)).length

/-- The first character from index `i` on that is not a space, a tab or a
newline; the terminating NUL when the text ends before one. -/
def first_char_after_space (text : List Byte) (i : Nat) : Nat :=
  match (text.drop i).dropWhile (fun b => is_json_space b.val) with
  | [] => 0
  | c :: _ => c.val

/-- The members `"a":1` written `n` times, with no white space. -/
def members_a : Nat → JsonMembers
  | 0 => .nil
  | n + 1 => .cons [] [0x61] [] [] (.number [0x31]) [] (members_a n)

/-- The pairs stored for a sequence of decoded values when the first key is
`k`: the values in order under the keys `k`, `k + 1`, ... -/
def numbered : Nat → List BejSet → List (Nat × BejSet)
  | _, [] => []
  | k, v :: rest => (k, v) :: numbered (k + 1) rest

/-- The members decoded successfully from the wire of a Set.
`member_run buf child s bytes_len values s'` says: with the cursor and
`last_read_field_length` of `s` and `bytes_len` bytes left to account for, the
successive calls `bej_read_value` return the nodes `values`, one after the
other in wire order (each call entered one byte behind the cursor the call
before it returned, `bytes_len` lowered by the `last_read_field_length` it
left), and the run ends in the state `s'`, either because `bytes_len` is 0 or
because a call returned `NULL`. -/
inductive member_run (buf : List Byte) (child : List BejDictionary) :
    State → Nat → List BejSet → State → Prop
  | done (s : State) : member_run buf child s 0 [] s
  | null (s s1 : State) (bytes_len : Nat) :
    0 < bytes_len → bej_read_value buf s child = .ok (none, s1) →
    member_run buf child s bytes_len [] ⟨s1.data + 1, s1.last_read_field_length⟩
  | step (s s1 s' : State) (bytes_len : Nat) (v : BejSet) (values : List BejSet) :
    0 < bytes_len → bej_read_value buf s child = .ok (some v, s1) →
    member_run buf child ⟨s1.data + 1, s1.last_read_field_length⟩
      ((bytes_len + 256 - s1.last_read_field_length % 256) % 256) values s' →
    member_run buf child s bytes_len (v :: values) s'

/-! ## Reading a buffer -/

theorem getElem?_mid (pre post : List Byte) (b : Byte) (i : Nat) (h : i = pre.length) :
    (pre ++ b :: post)[i]? = some b := by
  subst h
  simp [List.getElem?_append_right (le_refl pre.length)]

theorem read_mid (pre post : List Byte) (b : Byte) (i : Nat) (h : i = pre.length) :
    read (pre ++ b :: post) i = .ok b.val := by
  simp [read, getElem?_mid pre post b i h]

theorem read_end (buf : List Byte) (i : Nat) (h : buf.length ≤ i) :
    read buf i = .error (.out_of_bounds i) := by
  simp [read, List.getElem?_eq_none h]

theorem read_ok_iff (buf : List Byte) (i v : Nat) :
    read buf i = .ok v ↔ ∃ b : Byte, buf[i]? = some b ∧ b.val = v := by
  unfold read
  cases h : buf[i]? with
  | none => simp
  | some b => simp

theorem read_ok_lt (buf : List Byte) (i v : Nat) (h : read buf i = .ok v) :
    i < buf.length ∧ v < 256 := by
  obtain ⟨b, hb, hv⟩ := (read_ok_iff buf i v).mp h
  refine ⟨?_, hv ▸ b.isLt⟩
  by_contra hlt
  rw [List.getElem?_eq_none (Nat.le_of_not_lt hlt)] at hb
  cases hb

/-! ## Integers -/

theorem little_endian_lt (bs : List Byte) : little_endian bs < 2 ^ (8 * bs.length) := by
  induction bs with
  | nil => simp [little_endian]
  | cons b r ih =>
    have hb := b.isLt
    have : 2 ^ (8 * (r.length + 1)) = 256 * 2 ^ (8 * r.length) := by
      rw [Nat.mul_add, pow_add]; norm_num; ring
    simp only [little_endian, List.length_cons, this]
    omega

theorem little_endian_eq_sum (bs : List Byte) :
    little_endian bs = ∑ i : Fin bs.length, (bs.get i).val * 256 ^ (i : Nat) := by
  induction bs with
  | nil => simp [little_endian]
  | cons b r ih =>
    simp only [little_endian, List.length_cons, Fin.sum_univ_succ, List.get_cons_zero,
      Fin.val_zero, pow_zero, Nat.mul_one, List.get_cons_succ, Fin.val_succ, ih, Finset.mul_sum]
    congr 1
    apply Finset.sum_congr rfl
    intro i _
    rw [show (b :: r).get i.succ = r.get i from rfl]
    ring

theorem or_shift_eq (acc b i : Nat) (hacc : acc < 2 ^ (8 * i)) :
    acc ||| (b <<< (8 * i)) = acc + 2 ^ (8 * i) * b := by
  rw [Nat.shiftLeft_eq, Nat.mul_comm b, Nat.add_comm, Nat.mul_add_lt_is_or hacc, Nat.lor_comm]

theorem bej_read_integer_loop_spec (bs post : List Byte) :
    ∀ (pre : List Byte) (i res data : Nat), data + 1 = pre.length → i + bs.length ≤ 4 →
      res < 2 ^ (8 * i) →
      bej_read_integer_loop (pre ++ bs ++ post) bs.length i data res
        = .ok (res + 2 ^ (8 * i) * little_endian bs, data + bs.length) := by
  induction bs with
  | nil => intro pre i res data _ _ _; simp [bej_read_integer_loop, little_endian]
  | cons b r ih =>
    intro pre i res data hd hi hres
    have hb := b.isLt
    have hpow : 2 ^ (8 * (i + 1)) = 2 ^ (8 * i) * 256 := by
      rw [Nat.mul_add, pow_add]; norm_num
    have hi4 : 8 * i < 32 := by simp at hi; omega
    have hstep : res + 2 ^ (8 * i) * b.val < 2 ^ (8 * (i + 1)) := by
      rw [hpow]
      calc res + 2 ^ (8 * i) * b.val < 2 ^ (8 * i) + 2 ^ (8 * i) * b.val := by omega
        _ = 2 ^ (8 * i) * (b.val + 1) := by ring
        _ ≤ 2 ^ (8 * i) * 256 := Nat.mul_le_mul_left _ (by omega)
    have hle : 2 ^ (8 * (i + 1)) ≤ 2 ^ 32 :=
      Nat.pow_le_pow_right (by norm_num) (by simp at hi; omega)
    have hmod : (res + 2 ^ (8 * i) * b.val) % 2 ^ 32 = res + 2 ^ (8 * i) * b.val :=
      Nat.mod_eq_of_lt (lt_of_lt_of_le hstep hle)
    simp only [List.length_cons, bej_read_integer_loop]
    rw [show pre ++ b :: r ++ post = pre ++ b :: (r ++ post) by simp,
      read_mid pre (r ++ post) b (data + 1) hd]
    simp only [Nat.not_le.mpr hi4, if_false, or_shift_eq res b.val i hres, hmod]
    rw [show pre ++ b :: (r ++ post) = (pre ++ [b]) ++ r ++ post by simp]
    rw [ih (pre ++ [b]) (i + 1) _ (data + 1) (by simp [hd]) (by simp at hi; omega) hstep]
    simp only [little_endian, hpow]
    congr 2
    · ring
    · omega

theorem bej_read_integer_spec (pre bs post : List Byte) (tag n : Byte) (l0 : Nat)
    (hn : n.val = bs.length) (h4 : bs.length ≤ 4) :
    bej_read_integer (pre ++ tag :: n :: bs ++ post) ⟨pre.length, l0⟩
      = .ok (little_endian bs, ⟨pre.length + 1 + bs.length, bs.length⟩) := by
  unfold bej_read_integer
  simp only
  rw [show pre ++ tag :: n :: bs ++ post = (pre ++ [tag]) ++ n :: (bs ++ post) by simp,
    read_mid (pre ++ [tag]) (bs ++ post) n (pre.length + 1) (by simp)]
  simp only [hn]
  rw [show (pre ++ [tag]) ++ n :: (bs ++ post) = (pre ++ [tag, n]) ++ bs ++ post by simp,
    bej_read_integer_loop_spec bs post (pre ++ [tag, n]) 0 0 (pre.length + 1) (by simp)
      (by omega) (by norm_num)]
  simp

/-! ## Strings -/

theorem bej_read_string_loop_spec (cs post : List Byte) :
    ∀ (pre res : List Byte) (data : Nat), data + 1 = pre.length →
      bej_read_string_loop (pre ++ cs ++ post) cs.length data res
        = .ok (res ++ cs, data + cs.length) := by
  induction cs with
  | nil => intro pre res data _; simp [bej_read_string_loop]
  | cons c r ih =>
    intro pre res data hd
    simp only [List.length_cons, bej_read_string_loop]
    rw [show pre ++ c :: r ++ post = pre ++ c :: (r ++ post) by simp,
      getElem?_mid pre (r ++ post) c (data + 1) hd]
    simp only
    rw [show pre ++ c :: (r ++ post) = (pre ++ [c]) ++ r ++ post by simp,
      ih (pre ++ [c]) (res ++ [c]) (data + 1) (by simp [hd])]
    simp
    omega

theorem bej_read_string_spec (pre cs post : List Byte) (tag n : Byte) (l0 : Nat)
    (hn : n.val = cs.length) :
    bej_read_string (pre ++ tag :: n :: cs ++ post) ⟨pre.length, l0⟩
      = .ok (cs, ⟨pre.length + 1 + cs.length, cs.length⟩) := by
  unfold bej_read_string
  simp only
  rw [show pre ++ tag :: n :: cs ++ post = (pre ++ [tag]) ++ n :: (cs ++ post) by simp,
    read_mid (pre ++ [tag]) (cs ++ post) n (pre.length + 1) (by simp)]
  simp only [hn]
  rw [show (pre ++ [tag]) ++ n :: (cs ++ post) = (pre ++ [tag, n]) ++ cs ++ post by simp,
    bej_read_string_loop_spec cs post (pre ++ [tag, n]) [] (pre.length + 1) (by simp)]
  simp

theorem cstring_of_nonzero (cs : List Byte) (h : ∀ c ∈ cs, c.val ≠ 0) : cstring cs = cs := by
  unfold cstring
  rw [List.takeWhile_eq_self_iff]
  intro c hc
  simpa using h c hc

/-! ## Unfolding the decoder -/

theorem bej_read_value_fuel_succ (buf : List Byte) (fuel : Nat) (s : State)
    (dict : List BejDictionary) :
    bej_read_value_fuel buf (fuel + 1) s dict =
      match read buf s.data with
      | .error e => .error e
      | .ok id =>
        match read buf (s.data + 1) with
        | .error e => .error e
        | .ok type =>
          if type = BEJ_INTEGER then
            match bej_read_integer buf ⟨s.data + 1, s.last_read_field_length⟩ with
            | .error e => .error e
            | .ok (v, s2) => .ok (some (.integer (toInt32 v)), s2)
          else if type = BEJ_STRING then
            match bej_read_string buf ⟨s.data + 1, s.last_read_field_length⟩ with
            | .error e => .error e
            | .ok (v, s2) => .ok (some (.string v), s2)
          else if type = BEJ_SET then
            bej_read_object_fuel buf fuel ⟨s.data + 1, s.last_read_field_length⟩ id dict
          else .ok (none, ⟨s.data + 1, s.last_read_field_length⟩) := by
  rw [bej_read_value_fuel]

theorem bej_read_object_fuel_succ (buf : List Byte) (fuel : Nat) (s : State) (parent_id : Nat)
    (dict : List BejDictionary) :
    bej_read_object_fuel buf (fuel + 1) s parent_id dict =
      match read buf (s.data + 1) with
      | .error e => .error e
      | .ok bytes_len =>
        bej_read_object_loop buf fuel ⟨s.data + 2, s.last_read_field_length⟩
          (bej_get_child_dictionary parent_id) bytes_len 1 [] := by
  rw [bej_read_object_fuel]

theorem bej_read_object_loop_succ (buf : List Byte) (fuel : Nat) (s : State)
    (child_dict : List BejDictionary) (bytes_len object_val_id : Nat)
    (pairs : List (Nat × BejSet)) :
    bej_read_object_loop buf (fuel + 1) s child_dict bytes_len object_val_id pairs =
      if 0 < bytes_len then
        match bej_read_value_fuel buf fuel s child_dict with
        | .error e => .error e
        | .ok (value, s1) =>
          match value with
          | none => .ok (some (.set pairs), ⟨s1.data + 1, s1.last_read_field_length⟩)
          | some v =>
            if PAIR_BUFFER ≤ pairs.length then .error (.pairs_overflow pairs.length)
            else
              bej_read_object_loop buf fuel ⟨s1.data + 1, s1.last_read_field_length⟩ child_dict
                ((bytes_len + 256 - s1.last_read_field_length % 256) % 256)
                ((object_val_id + 1) % 65536)
                (pairs ++ [(object_val_id % 256, v)])
      else .ok (some (.set pairs), s) := by
  rw [bej_read_object_loop]

/-! ## The cursor only moves forward -/

theorem bej_read_integer_loop_data (buf : List Byte) :
    ∀ (k i data res r d : Nat), bej_read_integer_loop buf k i data res = .ok (r, d) →
      d = data + k := by
  intro k
  induction k with
  | zero =>
    intro i data res r d h
    simp [bej_read_integer_loop] at h
    simp [h.2]
  | succ k ih =>
    intro i data res r d h
    rw [bej_read_integer_loop] at h
    cases hr : read buf (data + 1) with
    | error e => simp [hr] at h
    | ok b =>
      simp only [hr] at h
      split at h
      · cases h
      · have := ih _ _ _ _ _ h
        omega

theorem bej_read_string_loop_data (buf : List Byte) :
    ∀ (k data : Nat) (res r : List Byte) (d : Nat),
      bej_read_string_loop buf k data res = .ok (r, d) → d = data + k := by
  intro k
  induction k with
  | zero =>
    intro data res r d h
    simp [bej_read_string_loop] at h
    simp [h.2]
  | succ k ih =>
    intro data res r d h
    rw [bej_read_string_loop] at h
    cases hr : buf[data + 1]? with
    | none => simp [hr] at h
    | some b =>
      simp only [hr] at h
      have := ih _ _ _ _ h
      omega

theorem bej_read_integer_data (buf : List Byte) (s s2 : State) (v : Nat)
    (h : bej_read_integer buf s = .ok (v, s2)) :
    s.data + 1 ≤ s2.data ∧ s.data + 1 < buf.length ∧ s2.last_read_field_length < 256 := by
  unfold bej_read_integer at h
  cases hr : read buf (s.data + 1) with
  | error e => simp [hr] at h
  | ok len =>
    simp only [hr] at h
    have hlt := read_ok_lt buf _ _ hr
    cases hl : bej_read_integer_loop buf len 0 (s.data + 1) 0 with
    | error e => simp [hl] at h
    | ok p =>
      obtain ⟨r, d⟩ := p
      simp only [hl, Except.ok.injEq, Prod.mk.injEq] at h
      have := bej_read_integer_loop_data buf _ _ _ _ _ _ hl
      obtain ⟨_, rfl⟩ := h
      simp only
      omega

theorem bej_read_string_data (buf : List Byte) (s s2 : State) (v : List Byte)
    (h : bej_read_string buf s = .ok (v, s2)) :
    s.data + 1 ≤ s2.data ∧ s.data + 1 < buf.length ∧ s2.last_read_field_length < 256 := by
  unfold bej_read_string at h
  cases hr : read buf (s.data + 1) with
  | error e => simp [hr] at h
  | ok len =>
    simp only [hr] at h
    have hlt := read_ok_lt buf _ _ hr
    cases hl : bej_read_string_loop buf len (s.data + 1) [] with
    | error e => simp [hl] at h
    | ok p =>
      obtain ⟨r, d⟩ := p
      simp only [hl, Except.ok.injEq, Prod.mk.injEq] at h
      have := bej_read_string_loop_data buf _ _ _ _ _ hl
      obtain ⟨_, rfl⟩ := h
      simp only
      omega

/-! ## Invariants of the decoded tree -/

theorem tags_ok_pairs_append (ps : List (Nat × BejSet)) (id : Nat) (v : BejSet) :
    tags_ok_pairs (ps ++ [(id, v)]) = (tags_ok_pairs ps && v.tags_ok) := by
  induction ps with
  | nil => simp [tags_ok_pairs]
  | cons p r ih =>
    obtain ⟨i, w⟩ := p
    simp [tags_ok_pairs, ih, Bool.and_assoc]

theorem keys_from_append (ps : List (Nat × BejSet)) (id : Nat) (v : BejSet) :
    ∀ k, keys_from k (ps ++ [(id, v)])
      = (keys_from k ps && ((id == k + ps.length) && v.keys_sequential)) := by
  induction ps with
  | nil => intro k; simp [keys_from]
  | cons p r ih =>
    intro k
    obtain ⟨i, w⟩ := p
    simp [keys_from, ih, Bool.and_assoc, Nat.add_assoc, Nat.add_comm 1]

theorem keys_from_get (ps : List (Nat × BejSet)) :
    ∀ k, keys_from k ps = true → ∀ (i : Nat) (h : i < ps.length), (ps.get ⟨i, h⟩).1 = k + i := by
  induction ps with
  | nil => intro k _ i h; simp at h
  | cons p r ih =>
    intro k hk i h
    obtain ⟨id, w⟩ := p
    simp [keys_from] at hk
    cases i with
    | zero => simp [hk.1.1]
    | succ j =>
      have := ih (k + 1) hk.2 j (by simpa using h)
      simp only [List.get_cons_succ] at *
      omega

/-- The invariant carried through the decoder: tags and keys of what has been
built, and the cursor. -/
theorem decode_invariant (buf : List Byte) : ∀ fuel : Nat,
    (∀ s dict r s', bej_read_value_fuel buf fuel s dict = .ok (r, s') →
      (∀ v, r = some v → v.tags_ok = true ∧ v.keys_sequential = true) ∧
        s.data + 1 ≤ s'.data ∧ s.data + 1 < buf.length) ∧
    (∀ s pid dict r s', bej_read_object_fuel buf fuel s pid dict = .ok (r, s') →
      (∃ pairs, r = some (.set pairs) ∧ pairs.length ≤ PAIR_BUFFER ∧
        tags_ok_pairs pairs = true ∧ keys_from 1 pairs = true) ∧
        s.data + 2 ≤ s'.data ∧ s.data + 1 < buf.length) ∧
    (∀ s cd bl oid pairs r s', bej_read_object_loop buf fuel s cd bl oid pairs = .ok (r, s') →
      pairs.length ≤ PAIR_BUFFER → oid = pairs.length + 1 →
      tags_ok_pairs pairs = true → keys_from 1 pairs = true →
      (∃ pairs', r = some (.set pairs') ∧ pairs'.length ≤ PAIR_BUFFER ∧
        tags_ok_pairs pairs' = true ∧ keys_from 1 pairs' = true) ∧ s.data ≤ s'.data) := by
  intro fuel
  induction fuel with
  | zero =>
    refine ⟨?_, ?_, ?_⟩
    · intro s dict r s' h; simp [bej_read_value_fuel] at h
    · intro s pid dict r s' h; simp [bej_read_object_fuel] at h
    · intro s cd bl oid pairs r s' h; simp [bej_read_object_loop] at h
  | succ f ih =>
    obtain ⟨ihv, iho, ihl⟩ := ih
    refine ⟨?_, ?_, ?_⟩
    · intro s dict r s' h
      rw [bej_read_value_fuel_succ] at h
      cases hid : read buf s.data with
      | error e => simp [hid] at h
      | ok id =>
        cases hty : read buf (s.data + 1) with
        | error e => simp [hid, hty] at h
        | ok type =>
          have hlt := (read_ok_lt buf _ _ hty).1
          simp only [hid, hty] at h
          split at h
          · cases hi : bej_read_integer buf ⟨s.data + 1, s.last_read_field_length⟩ with
            | error e => simp [hi] at h
            | ok p =>
              obtain ⟨v, s2⟩ := p
              simp only [hi, Except.ok.injEq, Prod.mk.injEq] at h
              have hd := bej_read_integer_data buf _ _ _ hi
              obtain ⟨rfl, rfl⟩ := h
              refine ⟨?_, ?_, hlt⟩
              · intro v' hv'
                cases hv'
                simp [BejSet.tags_ok, BejSet.keys_sequential]
              · simp only at hd; omega
          · split at h
            · cases hi : bej_read_string buf ⟨s.data + 1, s.last_read_field_length⟩ with
              | error e => simp [hi] at h
              | ok p =>
                obtain ⟨v, s2⟩ := p
                simp only [hi, Except.ok.injEq, Prod.mk.injEq] at h
                have hd := bej_read_string_data buf _ _ _ hi
                obtain ⟨rfl, rfl⟩ := h
                refine ⟨?_, ?_, hlt⟩
                · intro v' hv'
                  cases hv'
                  simp [BejSet.tags_ok, BejSet.keys_sequential]
                · simp only at hd; omega
            · split at h
              · obtain ⟨⟨pairs, hr, hlen, htag, hkey⟩, hd, _⟩ := iho _ _ _ _ _ h
                refine ⟨?_, ?_, hlt⟩
                · intro v' hv'
                  rw [hr] at hv'
                  cases hv'
                  simp [BejSet.tags_ok, BejSet.keys_sequential, htag, hkey]
                · simp only at hd; omega
              · simp only [Except.ok.injEq, Prod.mk.injEq] at h
                obtain ⟨rfl, rfl⟩ := h
                refine ⟨?_, ?_, hlt⟩
                · intro v' hv'; cases hv'
                · simp
    · intro s pid dict r s' h
      rw [bej_read_object_fuel_succ] at h
      cases hb : read buf (s.data + 1) with
      | error e => simp [hb] at h
      | ok bl =>
        have hlt := (read_ok_lt buf _ _ hb).1
        simp only [hb] at h
        obtain ⟨hex, hd⟩ := ihl _ _ _ _ _ _ _ h (by simp) (by simp) (by simp [tags_ok_pairs])
          (by simp [keys_from])
        exact ⟨hex, by simp only at hd; omega, hlt⟩
    · intro s cd bl oid pairs r s' h hlen hoid htag hkey
      rw [bej_read_object_loop_succ] at h
      split at h
      · cases hv : bej_read_value_fuel buf f s cd with
        | error e => simp [hv] at h
        | ok p =>
          obtain ⟨value, s1⟩ := p
          obtain ⟨hval, hd1, _⟩ := ihv _ _ _ _ hv
          simp only [hv] at h
          cases value with
          | none =>
            simp only [Except.ok.injEq, Prod.mk.injEq] at h
            obtain ⟨rfl, rfl⟩ := h
            exact ⟨⟨pairs, rfl, hlen, htag, hkey⟩, by simp only; omega⟩
          | some v =>
            simp only at h
            split at h
            · cases h
            · rename_i hcap
              obtain ⟨hvt, hvk⟩ := hval v rfl
              have hcap' : pairs.length < PAIR_BUFFER := Nat.lt_of_not_le hcap
              have h32 : PAIR_BUFFER = 32 := rfl
              obtain ⟨hex, hd⟩ := ihl _ _ _ _ _ _ _ h
                (by simp; omega)
                (by simp; omega)
                (by rw [tags_ok_pairs_append]; simp [htag, hvt])
                (by
                  rw [keys_from_append]
                  simp only [hkey, hvk, Bool.and_true, Bool.true_and, beq_iff_eq]
                  omega)
              exact ⟨hex, by simp only at hd; omega⟩
      · simp only [Except.ok.injEq, Prod.mk.injEq] at h
        obtain ⟨rfl, rfl⟩ := h
        exact ⟨⟨pairs, rfl, hlen, htag, hkey⟩, le_refl _⟩

/-! ## The fuel is enough -/

theorem bej_read_integer_loop_ne_fuel (buf : List Byte) :
    ∀ (k i data res : Nat), bej_read_integer_loop buf k i data res ≠ .error .out_of_fuel := by
  intro k
  induction k with
  | zero => intro i data res; simp [bej_read_integer_loop]
  | succ k ih =>
    intro i data res
    rw [bej_read_integer_loop]
    unfold read
    cases buf[data + 1]? with
    | none => simp
    | some b =>
      simp only
      split
      · simp
      · exact ih _ _ _

theorem bej_read_string_loop_ne_fuel (buf : List Byte) :
    ∀ (k data : Nat) (res : List Byte),
      bej_read_string_loop buf k data res ≠ .error .out_of_fuel := by
  intro k
  induction k with
  | zero => intro data res; simp [bej_read_string_loop]
  | succ k ih =>
    intro data res
    rw [bej_read_string_loop]
    cases buf[data + 1]? with
    | none => simp
    | some b => exact ih _ _

theorem bej_read_integer_ne_fuel (buf : List Byte) (s : State) :
    bej_read_integer buf s ≠ .error .out_of_fuel := by
  unfold bej_read_integer read
  cases buf[s.data + 1]? with
  | none => simp
  | some b =>
    simp only
    have := bej_read_integer_loop_ne_fuel buf b.val 0 (s.data + 1) 0
    cases hl : bej_read_integer_loop buf b.val 0 (s.data + 1) 0 with
    | error e => intro h; simp only [Except.error.injEq] at h; exact this (by rw [hl, h])
    | ok p => simp

theorem bej_read_string_ne_fuel (buf : List Byte) (s : State) :
    bej_read_string buf s ≠ .error .out_of_fuel := by
  unfold bej_read_string read
  cases buf[s.data + 1]? with
  | none => simp
  | some b =>
    simp only
    have := bej_read_string_loop_ne_fuel buf b.val (s.data + 1) []
    cases hl : bej_read_string_loop buf b.val (s.data + 1) [] with
    | error e => intro h; simp only [Except.error.injEq] at h; exact this (by rw [hl, h])
    | ok p => simp

/-- With fuel `3 * (bytes left) + c` no call of the decoder runs out of fuel. -/
theorem fuel_enough (buf : List Byte) : ∀ fuel : Nat,
    (∀ s dict, 3 * (buf.length - s.data) + 1 ≤ fuel →
      bej_read_value_fuel buf fuel s dict ≠ .error .out_of_fuel) ∧
    (∀ s pid dict, 3 * (buf.length - (s.data + 2)) + 3 ≤ fuel →
      bej_read_object_fuel buf fuel s pid dict ≠ .error .out_of_fuel) ∧
    (∀ s cd bl oid pairs, 3 * (buf.length - s.data) + 2 ≤ fuel →
      bej_read_object_loop buf fuel s cd bl oid pairs ≠ .error .out_of_fuel) := by
  intro fuel
  induction fuel with
  | zero =>
    refine ⟨?_, ?_, ?_⟩
    · intro s dict h; omega
    · intro s pid dict h; omega
    · intro s cd bl oid pairs h; omega
  | succ f ih =>
    obtain ⟨ihv, iho, ihl⟩ := ih
    refine ⟨?_, ?_, ?_⟩
    · intro s dict hf
      rw [bej_read_value_fuel_succ]
      cases hid : read buf s.data with
      | error e =>
        simp only
        unfold read at hid
        cases hg : buf[s.data]? with
        | none => simp [hg] at hid; simp [← hid]
        | some b => simp [hg] at hid
      | ok id =>
        cases hty : read buf (s.data + 1) with
        | error e =>
          simp only
          unfold read at hty
          cases hg : buf[s.data + 1]? with
          | none => simp [hg] at hty; simp [← hty]
          | some b => simp [hg] at hty
        | ok type =>
          have hlt := (read_ok_lt buf _ _ hty).1
          simp only
          split
          · have := bej_read_integer_ne_fuel buf ⟨s.data + 1, s.last_read_field_length⟩
            cases hi : bej_read_integer buf ⟨s.data + 1, s.last_read_field_length⟩ with
            | error e => intro h; simp only [Except.error.injEq] at h; exact this (by rw [hi, h])
            | ok p => simp
          · split
            · have := bej_read_string_ne_fuel buf ⟨s.data + 1, s.last_read_field_length⟩
              cases hi : bej_read_string buf ⟨s.data + 1, s.last_read_field_length⟩ with
              | error e => intro h; simp only [Except.error.injEq] at h; exact this (by rw [hi, h])
              | ok p => simp
            · split
              · apply iho
                simp only
                omega
              · simp
    · intro s pid dict hf
      rw [bej_read_object_fuel_succ]
      cases hb : read buf (s.data + 1) with
      | error e =>
        simp only
        unfold read at hb
        cases hg : buf[s.data + 1]? with
        | none => simp [hg] at hb; simp [← hb]
        | some b => simp [hg] at hb
      | ok bl =>
        simp only
        apply ihl
        simp only
        omega
    · intro s cd bl oid pairs hf
      rw [bej_read_object_loop_succ]
      split
      · have hv0 := ihv s cd (by omega)
        cases hv : bej_read_value_fuel buf f s cd with
        | error e => intro h; simp only [Except.error.injEq] at h; exact hv0 (by rw [hv, h])
        | ok p =>
          obtain ⟨value, s1⟩ := p
          obtain ⟨_, hd1, hlt⟩ := (decode_invariant buf f).1 _ _ _ _ hv
          cases value with
          | none => simp
          | some v =>
            simp only
            split
            · simp
            · apply ihl
              simp only
              omega
      · simp

/-- The decoder `bej_read_value` never stops for lack of fuel. -/
theorem bej_read_value_fuel_total (buf : List Byte) (s : State) (dict : List BejDictionary) :
    bej_read_value buf s dict ≠ .error .out_of_fuel := by
  unfold bej_read_value
  apply (fuel_enough buf _).1
  omega

/-- The decoder `bej_read_object` never stops for lack of fuel. -/
theorem bej_read_object_fuel_total (buf : List Byte) (s : State) (pid : Nat)
    (dict : List BejDictionary) :
    bej_read_object buf s pid dict ≠ .error .out_of_fuel := by
  unfold bej_read_object
  apply (fuel_enough buf _).2.1
  omega

/-- More fuel does not change a result that was reached. -/
theorem fuel_mono (buf : List Byte) : ∀ fuel : Nat,
    (∀ s dict, bej_read_value_fuel buf fuel s dict ≠ .error .out_of_fuel →
      bej_read_value_fuel buf (fuel + 1) s dict = bej_read_value_fuel buf fuel s dict) ∧
    (∀ s pid dict, bej_read_object_fuel buf fuel s pid dict ≠ .error .out_of_fuel →
      bej_read_object_fuel buf (fuel + 1) s pid dict = bej_read_object_fuel buf fuel s pid dict) ∧
    (∀ s cd bl oid pairs, bej_read_object_loop buf fuel s cd bl oid pairs ≠ .error .out_of_fuel →
      bej_read_object_loop buf (fuel + 1) s cd bl oid pairs
        = bej_read_object_loop buf fuel s cd bl oid pairs) := by
  intro fuel
  induction fuel with
  | zero =>
    refine ⟨?_, ?_, ?_⟩
    · intro s dict h; simp [bej_read_value_fuel] at h
    · intro s pid dict h; simp [bej_read_object_fuel] at h
    · intro s cd bl oid pairs h; simp [bej_read_object_loop] at h
  | succ f ih =>
    obtain ⟨ihv, iho, ihl⟩ := ih
    refine ⟨?_, ?_, ?_⟩
    · intro s dict h
      rw [bej_read_value_fuel_succ] at h
      rw [bej_read_value_fuel_succ buf (f + 1), bej_read_value_fuel_succ buf f]
      cases hid : read buf s.data with
      | error e => rfl
      | ok id =>
        cases hty : read buf (s.data + 1) with
        | error e => rfl
        | ok type =>
          simp only [hid, hty] at h ⊢
          split
          · rfl
          · split
            · rfl
            · split
              · rename_i h1 h2 h3
                simp only [h1, h2, h3, if_false, if_true] at h
                exact iho _ _ _ h
              · rfl
    · intro s pid dict h
      rw [bej_read_object_fuel_succ] at h
      rw [bej_read_object_fuel_succ buf (f + 1), bej_read_object_fuel_succ buf f]
      cases hb : read buf (s.data + 1) with
      | error e => rfl
      | ok bl =>
        simp only [hb] at h ⊢
        exact ihl _ _ _ _ _ h
    · intro s cd bl oid pairs h
      rw [bej_read_object_loop_succ] at h
      rw [bej_read_object_loop_succ buf (f + 1), bej_read_object_loop_succ buf f]
      split
      · rename_i hpos
        simp only [hpos, if_true] at h
        have hv0 : bej_read_value_fuel buf f s cd ≠ .error .out_of_fuel := by
          intro hc; rw [hc] at h; exact h rfl
        rw [ihv _ _ hv0]
        cases hv : bej_read_value_fuel buf f s cd with
        | error e => rfl
        | ok p =>
          obtain ⟨value, s1⟩ := p
          simp only [hv] at h ⊢
          cases value with
          | none => rfl
          | some v =>
            simp only at h ⊢
            split
            · rfl
            · rename_i hcap
              simp only [hcap, if_false] at h
              exact ihl _ _ _ _ _ h
      · rfl

/-- A result reached with some fuel is reached with any larger fuel. -/
theorem fuel_mono_add (buf : List Byte) (fuel : Nat) : ∀ k : Nat,
    (∀ s dict, bej_read_value_fuel buf fuel s dict ≠ .error .out_of_fuel →
      bej_read_value_fuel buf (fuel + k) s dict = bej_read_value_fuel buf fuel s dict) ∧
    (∀ s pid dict, bej_read_object_fuel buf fuel s pid dict ≠ .error .out_of_fuel →
      bej_read_object_fuel buf (fuel + k) s pid dict
        = bej_read_object_fuel buf fuel s pid dict) := by
  intro k
  induction k with
  | zero => exact ⟨fun _ _ _ => rfl, fun _ _ _ _ => rfl⟩
  | succ k ih =>
    refine ⟨?_, ?_⟩
    · intro s dict h
      have h1 := ih.1 s dict h
      rw [← Nat.add_assoc, (fuel_mono buf (fuel + k)).1 s dict (by rw [h1]; exact h), h1]
    · intro s pid dict h
      have h1 := ih.2 s pid dict h
      rw [← Nat.add_assoc, (fuel_mono buf (fuel + k)).2.1 s pid dict (by rw [h1]; exact h), h1]

/-- A result of `bej_read_value_fuel` is the result of `bej_read_value`. -/
theorem bej_read_value_of_fuel (buf : List Byte) (fuel : Nat) (s : State)
    (dict : List BejDictionary) (r : Option BejSet × State)
    (h : bej_read_value_fuel buf fuel s dict = .ok r) :
    bej_read_value buf s dict = .ok r := by
  unfold bej_read_value
  rcases Nat.le_total fuel (3 * buf.length + 3) with hle | hle
  · obtain ⟨k, hk⟩ := Nat.exists_eq_add_of_le hle
    rw [hk, (fuel_mono_add buf fuel k).1 s dict (by rw [h]; simp), h]
  · obtain ⟨k, hk⟩ := Nat.exists_eq_add_of_le hle
    have := (fuel_mono_add buf (3 * buf.length + 3) k).1 s dict
      (bej_read_value_fuel_total buf s dict)
    rw [← hk, h] at this
    exact this.symm

/-- A result of `bej_read_object_fuel` is the result of `bej_read_object`. -/
theorem bej_read_object_of_fuel (buf : List Byte) (fuel : Nat) (s : State) (pid : Nat)
    (dict : List BejDictionary) (r : Option BejSet × State)
    (h : bej_read_object_fuel buf fuel s pid dict = .ok r) :
    bej_read_object buf s pid dict = .ok r := by
  unfold bej_read_object
  rcases Nat.le_total fuel (3 * buf.length + 3) with hle | hle
  · obtain ⟨k, hk⟩ := Nat.exists_eq_add_of_le hle
    rw [hk, (fuel_mono_add buf fuel k).2 s pid dict (by rw [h]; simp), h]
  · obtain ⟨k, hk⟩ := Nat.exists_eq_add_of_le hle
    have := (fuel_mono_add buf (3 * buf.length + 3) k).2 s pid dict
      (bej_read_object_fuel_total buf s pid dict)
    rw [← hk, h] at this
    exact this.symm

/-! ## Decoding Integer and String triplets -/

theorem Triplet.length_byte_val (m : Triplet) (h : m.wf) :
    m.length_byte.val = m.payload.length := by
  unfold Triplet.wf at h
  unfold Triplet.length_byte
  simp only
  apply Nat.mod_eq_of_lt
  rcases h with h | h <;> omega

theorem Triplet.encode_length (m : Triplet) : m.encode.length = m.payload.length + 3 := by
  simp [Triplet.encode]

/-- One well-formed triplet under the cursor is decoded to its value; the
cursor is left on the last payload byte. -/
theorem bej_read_value_fuel_triplet (pre post : List Byte) (m : Triplet) (hm : m.wf)
    (fuel l0 : Nat) (dict : List BejDictionary) :
    bej_read_value_fuel (pre ++ m.encode ++ post) (fuel + 1) ⟨pre.length, l0⟩ dict
      = .ok (some m.value, ⟨pre.length + 2 + m.payload.length, m.payload.length⟩) := by
  have hlen := m.length_byte_val hm
  rw [bej_read_value_fuel_succ]
  have hbuf : pre ++ m.encode ++ post
      = pre ++ m.id :: ((m.tag :: m.length_byte :: m.payload) ++ post) := by
    simp [Triplet.encode]
  have hbuf2 : pre ++ m.encode ++ post
      = (pre ++ [m.id]) ++ m.tag :: ((m.length_byte :: m.payload) ++ post) := by
    simp [Triplet.encode]
  have hbuf3 : pre ++ m.encode ++ post
      = (pre ++ [m.id]) ++ m.tag :: m.length_byte :: m.payload ++ post := by
    simp [Triplet.encode]
  have h1 : read (pre ++ m.encode ++ post) pre.length = .ok m.id.val := by
    rw [hbuf]; exact read_mid _ _ _ _ rfl
  have h2 : read (pre ++ m.encode ++ post) (pre.length + 1) = .ok m.tag.val := by
    rw [hbuf2]; exact read_mid _ _ _ _ (by simp)
  simp only [h1, h2]
  rcases hm with ⟨ht, hp⟩ | ⟨ht, hp⟩
  · have hi := bej_read_integer_spec (pre ++ [m.id]) m.payload post m.tag m.length_byte l0 hlen hp
    rw [← hbuf3] at hi
    simp only [List.length_append, List.length_singleton] at hi
    simp only [ht, if_true, hi, Triplet.value]
  · have hi := bej_read_string_spec (pre ++ [m.id]) m.payload post m.tag m.length_byte l0 hlen
    rw [← hbuf3] at hi
    simp only [List.length_append, List.length_singleton] at hi
    have hne : ¬ (BEJ_STRING = BEJ_INTEGER) := by decide
    simp only [ht, hne, if_false, if_true, hi, Triplet.value]

/-! ## The member loop over Integer and String triplets -/

theorem encode_all_length (ms : List Triplet) :
    (encode_all ms).length = payload_total ms + 3 * ms.length := by
  induction ms with
  | nil => simp [encode_all, payload_total]
  | cons m r ih =>
    simp [encode_all, payload_total, Triplet.encode_length, ih]
    omega

theorem members_from_length (ms : List Triplet) : ∀ k, (members_from k ms).length = ms.length := by
  induction ms with
  | nil => intro k; simp [members_from]
  | cons m r ih => intro k; simp [members_from, ih]

/-- The loop walks through a run of well-formed triplets: each turn stores one
pair and subtracts the payload length from `bytes_len`. -/
theorem bej_read_object_loop_triplets (post : List Byte) (cd : List BejDictionary) :
    ∀ (ms : List Triplet) (pre : List Byte) (fuel l0 bl oid : Nat) (pairs : List (Nat × BejSet)),
      (∀ m ∈ ms, m.wf) → loop_enters bl ms → bl < 256 →
      pairs.length + ms.length ≤ PAIR_BUFFER → oid = pairs.length + 1 →
      bej_read_object_loop (pre ++ encode_all ms ++ post) (fuel + 1 + ms.length)
          ⟨pre.length, l0⟩ cd bl oid pairs
        = bej_read_object_loop (pre ++ encode_all ms ++ post) (fuel + 1)
            ⟨pre.length + (encode_all ms).length, last_length l0 ms⟩ cd
            (bl - payload_total ms) (oid + ms.length) (pairs ++ members_from oid ms) := by
  intro ms
  induction ms with
  | nil =>
    intro pre fuel l0 bl oid pairs _ _ _ _ _
    simp [encode_all, last_length, payload_total, members_from]
  | cons m r ih =>
    intro pre fuel l0 bl oid pairs hwf henter hbl hcap hoid
    have h32 : PAIR_BUFFER = 32 := rfl
    obtain ⟨hpos, hle, hrest⟩ := henter
    have hm : m.wf := hwf m (List.mem_cons_self _ _)
    have hbuf : pre ++ encode_all (m :: r) ++ post
        = pre ++ m.encode ++ (encode_all r ++ post) := by
      simp [encode_all]
    have hbuf' : pre ++ encode_all (m :: r) ++ post
        = (pre ++ m.encode) ++ encode_all r ++ post := by
      simp [encode_all]
    have hfuel : fuel + 1 + (m :: r).length = (fuel + 1 + r.length) + 1 := by
      simp only [List.length_cons]; omega
    rw [hfuel, bej_read_object_loop_succ]
    simp only [hpos, if_true]
    have hv := bej_read_value_fuel_triplet pre (encode_all r ++ post) m hm (fuel + r.length) l0 cd
    rw [← hbuf] at hv
    rw [show fuel + 1 + r.length = fuel + r.length + 1 by omega, hv]
    simp only [List.length_cons] at hcap
    have hnc : ¬ (PAIR_BUFFER ≤ pairs.length) := by omega
    simp only [hnc, if_false]
    have hbl' : (bl + 256 - m.payload.length % 256) % 256 = bl - m.payload.length := by
      rw [Nat.mod_eq_of_lt (by omega : m.payload.length < 256)]
      omega
    have hoid1 : (oid + 1) % 65536 = oid + 1 := Nat.mod_eq_of_lt (by omega)
    have hoid2 : oid % 256 = oid := Nat.mod_eq_of_lt (by omega)
    rw [hbl', hoid1, hoid2]
    have hih := ih (pre ++ m.encode) fuel m.payload.length (bl - m.payload.length) (oid + 1)
      (pairs ++ [(oid, m.value)]) (fun x hx => hwf x (List.mem_cons_of_mem _ hx)) hrest
      (by omega) (by simp; omega) (by simp; omega)
    rw [← hbuf'] at hih
    have hpl : (pre ++ m.encode).length = pre.length + 2 + m.payload.length + 1 := by
      simp [Triplet.encode_length]; omega
    rw [hpl] at hih
    rw [show fuel + r.length + 1 = fuel + 1 + r.length by omega, hih]
    have e1 : pre.length + 2 + m.payload.length + 1 + (encode_all r).length
        = pre.length + (encode_all (m :: r)).length := by
      simp only [encode_all, List.length_append, Triplet.encode_length]; omega
    have e2 : bl - m.payload.length - payload_total r = bl - payload_total (m :: r) := by
      simp only [payload_total]; omega
    have e3 : oid + 1 + r.length = oid + (m :: r).length := by
      simp only [List.length_cons]; omega
    have e4 : pairs ++ [(oid, m.value)] ++ members_from (oid + 1) r
        = pairs ++ members_from oid (m :: r) := by
      simp [members_from]
    have e5 : last_length m.payload.length r = last_length l0 (m :: r) := rfl
    rw [e1, e2, e3, e4, e5]

theorem payload_total_pos (ms : List Triplet) :
    ∀ m, ms.getLast? = some m → m.payload ≠ [] → 0 < payload_total ms := by
  induction ms with
  | nil => intro m h; simp at h
  | cons a r ih =>
    intro m h hne
    cases r with
    | nil =>
      simp at h
      subst h
      simp only [payload_total]
      have : 0 < a.payload.length := List.length_pos.mpr hne
      omega
    | cons b r' =>
      rw [List.getLast?_cons_cons] at h
      have := ih m h hne
      simp only [payload_total] at this ⊢
      omega

/-- When `bytes_len` is the sum of the payload lengths and the last payload is
not empty, the loop is entered for every triplet. -/
theorem loop_enters_of_exact (ms : List Triplet) :
    ∀ bl, payload_total ms = bl → (∀ m, ms.getLast? = some m → m.payload ≠ []) →
      loop_enters bl ms := by
  induction ms with
  | nil => intro bl _ _; trivial
  | cons a r ih =>
    intro bl hsum hlast
    have hpos : 0 < payload_total (a :: r) := by
      cases hl : (a :: r).getLast? with
      | none => simp at hl
      | some m => exact payload_total_pos _ m hl (hlast m hl)
    simp only [payload_total] at hsum hpos
    refine ⟨by omega, by omega, ih _ (by omega) ?_⟩
    intro m hm
    cases r with
    | nil => simp at hm
    | cons b r' =>
      apply hlast
      rw [List.getLast?_cons_cons]
      exact hm

/-- When `bytes_len` exceeds the sum of the payload lengths, the loop is
entered for every triplet. -/
theorem loop_enters_of_lt (ms : List Triplet) :
    ∀ bl, payload_total ms < bl → loop_enters bl ms := by
  induction ms with
  | nil => intro bl _; trivial
  | cons a r ih =>
    intro bl hsum
    simp only [payload_total] at hsum
    exact ⟨by omega, by omega, ih _ (by omega)⟩

/-! ## The sample buffers -/

/-- The tree decoded from `bej_data`, with the final cursor and
`last_read_field_length`. -/
theorem bej_read_value_bej_data :
    bej_read_value bej_data ⟨0, 0⟩ main_dictionary
      = .ok (some (.set [(1, .integer 65536), (2, .integer 64),
          (3, .string [0x4E, 0x6F, 0x45, 0x43, 0x43]),
          (4, .set [(1, .integer 0), (2, .integer 0)])]), ⟨34, 1⟩) := by
  rfl

/-- Claim C1, evaluated on the code.  On the 22-byte buffer of
`test_parse_complete_structure` the decoder does not return a Set of 3
members: after the third member `bytes_len` is `11 - 4 - 1 - 5 = 1`, the loop
runs again and `bej_read_value` reads index 22, one past the buffer.  What
comes back then depends on the bytes that follow the array in memory: with an
unrecognised tag there it is the Set of 3 members, with the triplet `09 03 01
07` there it is a Set of 4 members.  The three names of the claim are found
in the root table. -/
theorem test_parse_complete_structure_reads_out_of_bounds :
    test_data.length = 22 ∧
    bej_read_value test_data ⟨0, 0⟩ main_dictionary = .error (.out_of_bounds 22) ∧
    bej_read_value (test_data ++ [0x09, 0x01]) ⟨0, 0⟩ main_dictionary
      = .ok (some (.set [(1, .integer 65536), (2, .integer 64),
          (3, .string [0x4E, 0x6F, 0x45, 0x43, 0x43])]), ⟨24, 5⟩) ∧
    bej_read_value (test_data ++ [0x09, 0x03, 0x01, 0x07]) ⟨0, 0⟩ main_dictionary
      = .ok (some (.set [(1, .integer 65536), (2, .integer 64),
          (3, .string [0x4E, 0x6F, 0x45, 0x43, 0x43]), (4, .integer 7)]), ⟨26, 1⟩) ∧
    bej_find_in_dictionary main_dictionary 1 none = .ok (some "CapacityMiB", none) ∧
    bej_find_in_dictionary main_dictionary 2 none = .ok (some "DataWidthBits", none) ∧
    bej_find_in_dictionary main_dictionary 3 none = .ok (some "ErrorCorrection", none) := by
  refine ⟨rfl, ?_, ?_, ?_, rfl, rfl, rfl⟩ <;> rfl

/-- Claim C2.  Decoding the 33-byte sample `bej_data` with `bej_read_value`
and the root table gives a tree whose rendering by `bej_to_json_val` at depth
0 is the documented JSON text, and `bej_to_json_file` (so the program of
main.c) writes that text followed by a newline. -/
theorem bej_data_renders_documented_json :
    ∃ root s, bej_read_value bej_data ⟨0, 0⟩ main_dictionary = .ok (some root, s) ∧
      bej_to_json_val root main_dictionary 0
        = .ok "\x7b\n  \"CapacityMiB\": 65536,\n  \"DataWidthBits\": 64,\n  \"ErrorCorrection\": \"NoECC\",\n  \"MemoryLocation\": \x7b\n    \"Channel\": 0,\n    \"Slot\": 0\n  \x7d\n\x7d" ∧
      bej_to_json_file (some root)
        = .ok "\x7b\n  \"CapacityMiB\": 65536,\n  \"DataWidthBits\": 64,\n  \"ErrorCorrection\": \"NoECC\",\n  \"MemoryLocation\": \x7b\n    \"Channel\": 0,\n    \"Slot\": 0\n  \x7d\n\x7d\n" ∧
      main bej_data
        = .ok "\x7b\n  \"CapacityMiB\": 65536,\n  \"DataWidthBits\": 64,\n  \"ErrorCorrection\": \"NoECC\",\n  \"MemoryLocation\": \x7b\n    \"Channel\": 0,\n    \"Slot\": 0\n  \x7d\n\x7d\n" := by
  refine ⟨_, _, bej_read_value_bej_data, ?_, ?_, ?_⟩
  · rfl
  · rfl
  · simp only [main, bej_read_value_bej_data]
    rfl

/-! ## Integer and String triplets -/

/-- Claim C3.  Integer decoding is little-endian.  For a length byte `n` of
value at most 4 followed by the bytes `bs` (`bs.length = n`),
`bej_read_integer`, entered with the cursor on the tag byte, returns the sum of
`b_i * 256 ^ i`, leaves the cursor on the last payload byte and records `n`;
`bej_read_value` on the triplet `(id, 0x03, n, bs)` returns the Integer node
holding that sum converted to a signed 32-bit integer. -/
theorem bej_read_integer_little_endian (pre bs post : List Byte) (id tag n : Byte) (l0 : Nat)
    (dict : List BejDictionary) (hn : n.val = bs.length) (h4 : bs.length ≤ 4) :
    bej_read_integer (pre ++ tag :: n :: bs ++ post) ⟨pre.length, l0⟩
      = .ok (∑ i : Fin bs.length, (bs.get i).val * 256 ^ (i : Nat),
          ⟨pre.length + 1 + bs.length, bs.length⟩) ∧
    bej_read_value (pre ++ id :: 0x03 :: n :: bs ++ post) ⟨pre.length, l0⟩ dict
      = .ok (some (.integer (toInt32 (∑ i : Fin bs.length, (bs.get i).val * 256 ^ (i : Nat)))),
          ⟨pre.length + 2 + bs.length, bs.length⟩) := by
  rw [← little_endian_eq_sum]
  refine ⟨bej_read_integer_spec pre bs post tag n l0 hn h4, ?_⟩
  apply bej_read_value_of_fuel _ 1
  have hm : (Triplet.mk id 0x03 bs).wf := Or.inl ⟨rfl, h4⟩
  have hb : (Triplet.mk id 0x03 bs).length_byte = n := by
    apply Fin.ext
    rw [Triplet.length_byte_val _ hm]
    exact hn.symm
  have h := bej_read_value_fuel_triplet pre post ⟨id, 0x03, bs⟩ hm 0 l0 dict
  simp only [Triplet.encode, hb, Triplet.value] at h
  rw [show pre ++ id :: 0x03 :: n :: bs ++ post = pre ++ id :: 0x03 :: n :: bs ++ post from rfl]
  simpa using h

/-- The two documented cases of claim C3: `01 03 04 00 00 01 00` gives 65536
and `01 03 01 40` gives 64. -/
theorem bej_read_integer_little_endian_witness :
    bej_read_integer [0x01, 0x03, 0x04, 0x00, 0x00, 0x01, 0x00] ⟨1, 0⟩
      = .ok (65536, ⟨6, 4⟩) ∧
    bej_read_value [0x01, 0x03, 0x04, 0x00, 0x00, 0x01, 0x00] ⟨0, 0⟩ main_dictionary
      = .ok (some (.integer 65536), ⟨6, 4⟩) ∧
    bej_read_value [0x01, 0x03, 0x01, 0x40] ⟨0, 0⟩ main_dictionary
      = .ok (some (.integer 64), ⟨3, 1⟩) := by
  have h1 := bej_read_integer_little_endian [0x01] [0x00, 0x00, 0x01, 0x00] [] 0x01 0x03 0x04 0
    main_dictionary (by decide) (by decide)
  have h2 := bej_read_integer_little_endian [] [0x00, 0x00, 0x01, 0x00] [] 0x01 0x03 0x04 0
    main_dictionary (by decide) (by decide)
  have h3 := bej_read_integer_little_endian [] [0x40] [] 0x02 0x03 0x01 0
    main_dictionary (by decide) (by decide)
  exact ⟨h1.1.trans (by rfl), h2.2.trans (by rfl), h3.2.trans (by rfl)⟩

/-- Claim C4.  String decoding copies the payload verbatim.  For a length byte
`n` followed by the bytes `cs` (`cs.length = n`, none of them zero),
`bej_read_string`, entered with the cursor on the tag byte, returns exactly the
bytes `cs` in order, which is also the content of the C string up to its
terminator; the cursor is left on the last payload byte and `n` is recorded.
`bej_read_value` on the triplet `(id, 0x05, n, cs)` returns the String node
holding `cs`. -/
theorem bej_read_string_verbatim (pre cs post : List Byte) (id tag n : Byte) (l0 : Nat)
    (dict : List BejDictionary) (hn : n.val = cs.length) (hnz : ∀ c ∈ cs, c.val ≠ 0) :
    bej_read_string (pre ++ tag :: n :: cs ++ post) ⟨pre.length, l0⟩
      = .ok (cs, ⟨pre.length + 1 + cs.length, cs.length⟩) ∧
    cstring cs = cs ∧
    bej_read_value (pre ++ id :: 0x05 :: n :: cs ++ post) ⟨pre.length, l0⟩ dict
      = .ok (some (.string cs), ⟨pre.length + 2 + cs.length, cs.length⟩) := by
  refine ⟨bej_read_string_spec pre cs post tag n l0 hn, cstring_of_nonzero cs hnz, ?_⟩
  apply bej_read_value_of_fuel _ 1
  have hm : (Triplet.mk id 0x05 cs).wf := Or.inr ⟨rfl, by have := n.isLt; simp only; omega⟩
  have hb : (Triplet.mk id 0x05 cs).length_byte = n := by
    apply Fin.ext
    rw [Triplet.length_byte_val _ hm]
    exact hn.symm
  have h := bej_read_value_fuel_triplet pre post ⟨id, 0x05, cs⟩ hm 0 l0 dict
  simp only [Triplet.encode, hb, Triplet.value] at h
  simpa using h

/-- The documented case of claim C4: `03 05 05 'N' 'o' 'E' 'C' 'C'` gives the
string `NoECC`. -/
theorem bej_read_string_verbatim_witness :
    bej_read_string [0x03, 0x05, 0x05, 0x4E, 0x6F, 0x45, 0x43, 0x43] ⟨1, 0⟩
      = .ok ([0x4E, 0x6F, 0x45, 0x43, 0x43], ⟨7, 5⟩) ∧
    text [0x4E, 0x6F, 0x45, 0x43, 0x43] = "NoECC" ∧
    bej_read_value [0x03, 0x05, 0x05, 0x4E, 0x6F, 0x45, 0x43, 0x43] ⟨0, 0⟩ main_dictionary
      = .ok (some (.string [0x4E, 0x6F, 0x45, 0x43, 0x43]), ⟨7, 5⟩) := by
  have h1 := bej_read_string_verbatim [0x03] [0x4E, 0x6F, 0x45, 0x43, 0x43] [] 0x03 0x05 0x05 0
    main_dictionary (by decide) (by simp; decide)
  have h2 := bej_read_string_verbatim [] [0x4E, 0x6F, 0x45, 0x43, 0x43] [] 0x03 0x05 0x05 0
    main_dictionary (by decide) (by simp; decide)
  exact ⟨h1.1, by rfl, h2.2.2⟩

/-! ## A Set of Integer and String triplets -/

/-- After the header of a Set the loop walks through the triplets that
follow it; what is left is the loop at the first byte after them. -/
theorem bej_read_object_fuel_triplets (pre post : List Byte) (ms : List Triplet)
    (id0 tag0 L : Byte) (fuel l0 pid : Nat) (dict : List BejDictionary)
    (hwf : ∀ m ∈ ms, m.wf) (henter : loop_enters L.val ms) (hcap : ms.length ≤ PAIR_BUFFER) :
    bej_read_object_fuel (pre ++ id0 :: tag0 :: L :: encode_all ms ++ post)
        (fuel + 2 + ms.length) ⟨pre.length + 1, l0⟩ pid dict
      = bej_read_object_loop (pre ++ id0 :: tag0 :: L :: encode_all ms ++ post) (fuel + 1)
          ⟨pre.length + 3 + (encode_all ms).length, last_length l0 ms⟩
          (bej_get_child_dictionary pid) (L.val - payload_total ms) (1 + ms.length)
          (members_from 1 ms) := by
  have hbuf : pre ++ id0 :: tag0 :: L :: encode_all ms ++ post
      = (pre ++ [id0, tag0]) ++ L :: (encode_all ms ++ post) := by simp
  have hbuf' : pre ++ id0 :: tag0 :: L :: encode_all ms ++ post
      = (pre ++ [id0, tag0, L]) ++ encode_all ms ++ post := by simp
  rw [show fuel + 2 + ms.length = (fuel + 1 + ms.length) + 1 by omega,
    bej_read_object_fuel_succ]
  have hr : read (pre ++ id0 :: tag0 :: L :: encode_all ms ++ post) (pre.length + 1 + 1)
      = .ok L.val := by
    rw [hbuf]; exact read_mid _ _ _ _ (by simp)
  simp only [hr]
  have h := bej_read_object_loop_triplets post (bej_get_child_dictionary pid) ms
    (pre ++ [id0, tag0, L]) fuel l0 L.val 1 [] hwf henter L.isLt (by simpa using hcap) (by simp)
  rw [← hbuf'] at h
  simp only [List.length_append, List.length_cons, List.length_nil, List.nil_append] at h
  rw [show pre.length + 1 + 2 = pre.length + (0 + 1 + 1 + 1) by omega, h]

/-- The same from `bej_read_value` on the Set triplet. -/
theorem bej_read_value_fuel_triplets (pre post : List Byte) (ms : List Triplet)
    (id0 L : Byte) (fuel l0 : Nat) (dict : List BejDictionary)
    (hwf : ∀ m ∈ ms, m.wf) (henter : loop_enters L.val ms) (hcap : ms.length ≤ PAIR_BUFFER) :
    bej_read_value_fuel (pre ++ id0 :: 0x00 :: L :: encode_all ms ++ post)
        (fuel + 3 + ms.length) ⟨pre.length, l0⟩ dict
      = bej_read_object_loop (pre ++ id0 :: 0x00 :: L :: encode_all ms ++ post) (fuel + 1)
          ⟨pre.length + 3 + (encode_all ms).length, last_length l0 ms⟩
          (bej_get_child_dictionary id0.val) (L.val - payload_total ms) (1 + ms.length)
          (members_from 1 ms) := by
  have hbuf : pre ++ id0 :: 0x00 :: L :: encode_all ms ++ post
      = pre ++ id0 :: ((0x00 :: L :: encode_all ms) ++ post) := by simp
  have hbuf2 : pre ++ id0 :: 0x00 :: L :: encode_all ms ++ post
      = (pre ++ [id0]) ++ 0x00 :: ((L :: encode_all ms) ++ post) := by simp
  rw [show fuel + 3 + ms.length = (fuel + 2 + ms.length) + 1 by omega,
    bej_read_value_fuel_succ]
  have h1 : read (pre ++ id0 :: 0x00 :: L :: encode_all ms ++ post) pre.length
      = .ok id0.val := by
    rw [hbuf]; exact read_mid _ _ _ _ rfl
  have h2 : read (pre ++ id0 :: 0x00 :: L :: encode_all ms ++ post) (pre.length + 1)
      = .ok (0x00 : Byte).val := by
    rw [hbuf2]; exact read_mid _ _ _ _ (by simp)
  simp only [h1, h2]
  have e1 : ¬ ((0x00 : Byte).val = BEJ_INTEGER) := by decide
  have e2 : ¬ ((0x00 : Byte).val = BEJ_STRING) := by decide
  have e3 : (0x00 : Byte).val = BEJ_SET := by decide
  simp only [e1, e2, e3, if_false, if_true]
  exact bej_read_object_fuel_triplets pre post ms id0 0x00 L fuel l0 id0.val dict hwf henter hcap

/-! ## A buffer that ends inside a field -/

theorem bej_read_integer_loop_truncated (bs : List Byte) :
    ∀ (pre : List Byte) (k i data res : Nat), data + 1 = pre.length → bs.length < k →
      i + bs.length ≤ 4 →
      bej_read_integer_loop (pre ++ bs) k i data res
        = .error (.out_of_bounds (pre ++ bs).length) := by
  induction bs with
  | nil =>
    intro pre k i data res hd hk _
    obtain ⟨k', rfl⟩ : ∃ k', k = k' + 1 := ⟨k - 1, by simp at hk; omega⟩
    rw [bej_read_integer_loop, read_end _ _ (by simp [hd])]
    simp [hd]
  | cons b r ih =>
    intro pre k i data res hd hk hi
    obtain ⟨k', rfl⟩ : ∃ k', k = k' + 1 := ⟨k - 1, by simp at hk; omega⟩
    simp only [List.length_cons] at hk hi
    rw [bej_read_integer_loop, read_mid pre r b (data + 1) hd]
    have hi4 : ¬ (32 ≤ 8 * i) := by omega
    simp only [hi4, if_false]
    rw [show pre ++ b :: r = (pre ++ [b]) ++ r by simp,
      ih (pre ++ [b]) k' (i + 1) (data + 1) _ (by simp [hd]) (by omega) (by omega)]

theorem bej_read_string_loop_truncated (cs : List Byte) :
    ∀ (pre res : List Byte) (k data : Nat), data + 1 = pre.length → cs.length < k →
      bej_read_string_loop (pre ++ cs) k data res
        = .error (.out_of_bounds (pre ++ cs).length) := by
  induction cs with
  | nil =>
    intro pre res k data hd hk
    obtain ⟨k', rfl⟩ : ∃ k', k = k' + 1 := ⟨k - 1, by simp at hk; omega⟩
    rw [bej_read_string_loop, List.getElem?_eq_none (by simp [hd])]
    simp [hd]
  | cons c r ih =>
    intro pre res k data hd hk
    obtain ⟨k', rfl⟩ : ∃ k', k = k' + 1 := ⟨k - 1, by simp at hk; omega⟩
    simp only [List.length_cons] at hk
    rw [bej_read_string_loop, getElem?_mid pre r c (data + 1) hd]
    simp only
    rw [show pre ++ c :: r = (pre ++ [c]) ++ r by simp,
      ih (pre ++ [c]) _ k' (data + 1) (by simp [hd]) (by omega)]

/-- An Integer or String triplet whose payload is cut short: the decoder reads
at the index equal to the length of the buffer. -/
theorem bej_read_value_fuel_truncated (pre payload : List Byte) (id tag n : Byte)
    (fuel l0 : Nat) (dict : List BejDictionary)
    (ht : (tag.val = BEJ_INTEGER ∧ n.val ≤ 4) ∨ tag.val = BEJ_STRING)
    (hlen : payload.length < n.val) :
    bej_read_value_fuel (pre ++ id :: tag :: n :: payload) (fuel + 1) ⟨pre.length, l0⟩ dict
      = .error (.out_of_bounds (pre ++ id :: tag :: n :: payload).length) := by
  have hbuf2 : pre ++ id :: tag :: n :: payload = (pre ++ [id]) ++ tag :: (n :: payload) := by
    simp
  have hbuf3 : pre ++ id :: tag :: n :: payload = (pre ++ [id, tag]) ++ n :: payload := by simp
  have hbuf4 : pre ++ id :: tag :: n :: payload = (pre ++ [id, tag, n]) ++ payload := by simp
  rw [bej_read_value_fuel_succ]
  have h1 : read (pre ++ id :: tag :: n :: payload) pre.length = .ok id.val :=
    read_mid _ _ _ _ rfl
  have h2 : read (pre ++ id :: tag :: n :: payload) (pre.length + 1) = .ok tag.val := by
    rw [hbuf2]; exact read_mid _ _ _ _ (by simp)
  have h3 : read (pre ++ id :: tag :: n :: payload) (pre.length + 1 + 1) = .ok n.val := by
    rw [hbuf3]; exact read_mid _ _ _ _ (by simp)
  simp only [h1, h2]
  rcases ht with ⟨ht, hn4⟩ | ht
  · simp only [ht, if_true, bej_read_integer, h3]
    have hl := bej_read_integer_loop_truncated payload (pre ++ [id, tag, n]) n.val 0
      (pre.length + 1 + 1) 0 (by simp) hlen (by omega)
    rw [← hbuf4] at hl
    rw [hl]
  · have hne : ¬ (BEJ_STRING = BEJ_INTEGER) := by decide
    simp only [ht, hne, if_false, if_true, bej_read_string, h3]
    have hl := bej_read_string_loop_truncated payload (pre ++ [id, tag, n]) [] n.val
      (pre.length + 1 + 1) (by simp) hlen
    rw [← hbuf4] at hl
    rw [hl]

/-- A result of `bej_read_value_fuel` that is not `out_of_fuel` is the result
of `bej_read_value`. -/
theorem bej_read_value_of_fuel_error (buf : List Byte) (fuel : Nat) (s : State)
    (dict : List BejDictionary) (e : Fault) (he : e ≠ .out_of_fuel)
    (h : bej_read_value_fuel buf fuel s dict = .error e) :
    bej_read_value buf s dict = .error e := by
  unfold bej_read_value
  rcases Nat.le_total fuel (3 * buf.length + 3) with hle | hle
  · obtain ⟨k, hk⟩ := Nat.exists_eq_add_of_le hle
    rw [hk, (fuel_mono_add buf fuel k).1 s dict (by rw [h]; simpa using he), h]
  · obtain ⟨k, hk⟩ := Nat.exists_eq_add_of_le hle
    have := (fuel_mono_add buf (3 * buf.length + 3) k).1 s dict
      (bej_read_value_fuel_total buf s dict)
    rw [← hk, h] at this
    exact this.symm

/-- A result of `bej_read_object_fuel` that is not `out_of_fuel` is the result
of `bej_read_object`. -/
theorem bej_read_object_of_fuel_error (buf : List Byte) (fuel : Nat) (s : State) (pid : Nat)
    (dict : List BejDictionary) (e : Fault) (he : e ≠ .out_of_fuel)
    (h : bej_read_object_fuel buf fuel s pid dict = .error e) :
    bej_read_object buf s pid dict = .error e := by
  unfold bej_read_object
  rcases Nat.le_total fuel (3 * buf.length + 3) with hle | hle
  · obtain ⟨k, hk⟩ := Nat.exists_eq_add_of_le hle
    rw [hk, (fuel_mono_add buf fuel k).2 s pid dict (by rw [h]; simpa using he), h]
  · obtain ⟨k, hk⟩ := Nat.exists_eq_add_of_le hle
    have := (fuel_mono_add buf (3 * buf.length + 3) k).2 s pid dict
      (bej_read_object_fuel_total buf s pid dict)
    rw [← hk, h] at this
    exact this.symm

/-- The member loop entered with the cursor at the end of the buffer reads
there. -/
theorem bej_read_object_loop_at_end (buf : List Byte) (fuel : Nat) (s : State)
    (cd : List BejDictionary) (bl oid : Nat) (pairs : List (Nat × BejSet))
    (hbl : 0 < bl) (hs : buf.length ≤ s.data) :
    bej_read_object_loop buf (fuel + 2) s cd bl oid pairs
      = .error (.out_of_bounds s.data) := by
  rw [bej_read_object_loop_succ, bej_read_value_fuel_succ, read_end buf s.data hs]
  simp [hbl]

/-! ## Set framing -/

/-- Claim C5 fails as stated.  In the Set `00 00 04 | 01 03 01 40` the declared
byte-length 4 is the footprint of the only member; `bej_read_object` (and so
`bej_read_value`) subtracts 1, the payload length, goes on with `bytes_len =
3` and reads index 7, past the member sequence.  With more bytes behind it
decodes them as further members.  In `00 00 01 | 01 03 01 40` the declared
length 1 is not the footprint consumed and the Set is returned, no error. -/
theorem set_footprint_accounting_fails :
    bej_read_object [0x00, 0x00, 0x04, 0x01, 0x03, 0x01, 0x40] ⟨1, 0⟩ 0 main_dictionary
      = .error (.out_of_bounds 7) ∧
    bej_read_value [0x00, 0x00, 0x04, 0x01, 0x03, 0x01, 0x40] ⟨0, 0⟩ main_dictionary
      = .error (.out_of_bounds 7) ∧
    bej_read_value [0x00, 0x00, 0x04, 0x01, 0x03, 0x01, 0x40,
        0x02, 0x03, 0x01, 0x41, 0x09, 0x09] ⟨0, 0⟩ main_dictionary
      = .ok (some (.set [(1, .integer 64), (2, .integer 65)]), ⟨13, 1⟩) ∧
    bej_read_value [0x00, 0x00, 0x01, 0x01, 0x03, 0x01, 0x40] ⟨0, 0⟩ main_dictionary
      = .ok (some (.set [(1, .integer 64)]), ⟨7, 1⟩) := by
  refine ⟨?_, ?_, ?_, ?_⟩ <;> rfl

/-- Claim C5 as amended.  The Set loop counts payload bytes only.  For a Set
triplet whose members are at most 32 well-formed Integer or String triplets,
the last of them with a non-empty payload, and whose declared byte-length is
the sum of the members' payload lengths, `bej_read_object` (entered on the tag
byte) and `bej_read_value` (entered on the identifier) return exactly those
members in wire order under the keys 1, 2, ..., with the cursor on the first
byte after the member sequence; nothing behind it is read (`post` may be
empty) and no error is signalled although the footprint consumed is larger
than the declared length. -/
theorem set_payload_accounting (pre post : List Byte) (ms : List Triplet) (id0 L : Byte)
    (l0 pid : Nat) (dict : List BejDictionary)
    (hwf : ∀ m ∈ ms, m.wf) (hcap : ms.length ≤ PAIR_BUFFER)
    (hL : L.val = payload_total ms)
    (hlast : ∀ m, ms.getLast? = some m → m.payload ≠ []) :
    bej_read_object (pre ++ id0 :: 0x00 :: L :: encode_all ms ++ post)
        ⟨pre.length + 1, l0⟩ pid dict
      = .ok (some (.set (members_from 1 ms)),
          ⟨pre.length + 3 + (encode_all ms).length, last_length l0 ms⟩) ∧
    bej_read_value (pre ++ id0 :: 0x00 :: L :: encode_all ms ++ post) ⟨pre.length, l0⟩ dict
      = .ok (some (.set (members_from 1 ms)),
          ⟨pre.length + 3 + (encode_all ms).length, last_length l0 ms⟩) := by
  have henter := loop_enters_of_exact ms L.val hL.symm hlast
  constructor
  · apply bej_read_object_of_fuel _ (0 + 2 + ms.length)
    rw [bej_read_object_fuel_triplets pre post ms id0 0x00 L 0 l0 pid dict hwf henter hcap,
      bej_read_object_loop_succ]
    simp [hL]
  · apply bej_read_value_of_fuel _ (0 + 3 + ms.length)
    rw [bej_read_value_fuel_triplets pre post ms id0 L 0 l0 dict hwf henter hcap,
      bej_read_object_loop_succ]
    simp [hL]

/-- Claim C5 as amended, on the Set `00 00 06 | 09 03 01 40 | 07 05 05 NoECC`:
declared length 6 = 1 + 5, footprint 12. -/
theorem set_payload_accounting_witness :
    bej_read_object [0x00, 0x00, 0x06, 0x09, 0x03, 0x01, 0x40,
        0x07, 0x05, 0x05, 0x4E, 0x6F, 0x45, 0x43, 0x43] ⟨1, 0⟩ 0 main_dictionary
      = .ok (some (.set [(1, .integer 64), (2, .string [0x4E, 0x6F, 0x45, 0x43, 0x43])]),
          ⟨15, 5⟩) ∧
    bej_read_value [0x00, 0x00, 0x06, 0x09, 0x03, 0x01, 0x40,
        0x07, 0x05, 0x05, 0x4E, 0x6F, 0x45, 0x43, 0x43] ⟨0, 0⟩ main_dictionary
      = .ok (some (.set [(1, .integer 64), (2, .string [0x4E, 0x6F, 0x45, 0x43, 0x43])]),
          ⟨15, 5⟩) := by
  have h := set_payload_accounting [] []
    [⟨0x09, 0x03, [0x40]⟩, ⟨0x07, 0x05, [0x4E, 0x6F, 0x45, 0x43, 0x43]⟩] 0x00 0x06 0 0
    main_dictionary (by simp; decide) (by decide) (by decide) (by simp)
  exact ⟨h.1.trans (by rfl), h.2.trans (by rfl)⟩

/-! ## Truncated buffers -/

/-- Claim C6 fails as stated.  The decoder has no bounds check: on a String
triplet that declares 5 bytes and holds 2, on an Integer triplet that declares
4 bytes and holds 2, and on a Set that declares 5 bytes and holds one member
of payload length 1, `bej_read_value` signals no failure and reads the byte at
the index equal to the length of the buffer. -/
theorem truncated_buffer_read_out_of_bounds :
    bej_read_value [0x03, 0x05, 0x05, 0x4E, 0x6F] ⟨0, 0⟩ main_dictionary
      = .error (.out_of_bounds 5) ∧
    bej_read_value [0x01, 0x03, 0x04, 0x00, 0x00] ⟨0, 0⟩ main_dictionary
      = .error (.out_of_bounds 5) ∧
    bej_read_value [0x00, 0x00, 0x05, 0x01, 0x03, 0x01, 0x40] ⟨0, 0⟩ main_dictionary
      = .error (.out_of_bounds 7) := by
  refine ⟨?_, ?_, ?_⟩ <;> rfl

/-- Claim C6 as amended.  For every buffer that ends inside an Integer triplet
(declared length at most 4) or a String triplet, the declared length being
larger than the payload bytes present, and for every buffer that ends behind
the members of a Set of at most 32 members (`PAIR_BUFFER`), each an Integer
triplet with a payload of at most 4 bytes or a String triplet, whose declared
byte-length is larger than the sum of their payload lengths, `bej_read_value`
checks no bound: it returns neither a node nor `NULL` but reads at the index
equal to the length of the buffer. -/
theorem truncated_field_read_at_buffer_end :
    (∀ (pre payload : List Byte) (id tag n : Byte) (l0 : Nat) (dict : List BejDictionary),
      ((tag.val = BEJ_INTEGER ∧ n.val ≤ 4) ∨ tag.val = BEJ_STRING) →
      payload.length < n.val →
      bej_read_value (pre ++ id :: tag :: n :: payload) ⟨pre.length, l0⟩ dict
        = .error (.out_of_bounds (pre ++ id :: tag :: n :: payload).length)) ∧
    (∀ (pre : List Byte) (ms : List Triplet) (id0 L : Byte) (l0 : Nat)
      (dict : List BejDictionary),
      (∀ m ∈ ms, m.wf) → ms.length ≤ PAIR_BUFFER → payload_total ms < L.val →
      bej_read_value (pre ++ id0 :: 0x00 :: L :: encode_all ms) ⟨pre.length, l0⟩ dict
        = .error (.out_of_bounds (pre ++ id0 :: 0x00 :: L :: encode_all ms).length)) := by
  constructor
  · intro pre payload id tag n l0 dict ht hlen
    apply bej_read_value_of_fuel_error _ 1 _ _ _ (by simp)
    exact bej_read_value_fuel_truncated pre payload id tag n 0 l0 dict ht hlen
  · intro pre ms id0 L l0 dict hwf hcap hL
    apply bej_read_value_of_fuel_error _ (1 + 3 + ms.length) _ _ _ (by simp)
    have h := bej_read_value_fuel_triplets pre [] ms id0 L 1 l0 dict hwf
      (loop_enters_of_lt ms L.val hL) hcap
    simp only [List.append_nil] at h
    rw [h, bej_read_object_loop_at_end _ _ _ _ _ _ _ (by omega) (by simp; omega)]
    simp
    omega

/-- Claim C6 as amended, on the String triplet `03 05 05 'N' 'o'` and on the
Set `00 00 05 | 01 03 01 40`. -/
theorem truncated_field_read_at_buffer_end_witness :
    bej_read_value [0x03, 0x05, 0x05, 0x4E, 0x6F] ⟨0, 0⟩ main_dictionary
      = .error (.out_of_bounds [0x03, 0x05, 0x05, 0x4E, 0x6F].length) ∧
    bej_read_value [0x00, 0x00, 0x05, 0x01, 0x03, 0x01, 0x40] ⟨0, 0⟩ main_dictionary
      = .error (.out_of_bounds [0x00, 0x00, 0x05, 0x01, 0x03, 0x01, 0x40].length) :=
  ⟨truncated_field_read_at_buffer_end.1 [] [0x4E, 0x6F] 0x03 0x05 0x05 0 main_dictionary
      (Or.inr (by decide)) (by decide),
    truncated_field_read_at_buffer_end.2 [] [⟨0x01, 0x03, [0x40]⟩] 0x00 0x05 0 main_dictionary
      (by simp; decide) (by decide) (by decide)⟩

/-! ## A member with an unrecognised tag -/

/-- Claim C8, evaluated on the code.  In the Set `00 00 02 | 01 03 01 40 | 02
01 00` the second member carries the tag `0x01`.  `bej_read_value` returns
`NULL` for that member alone, but `bej_read_object` leaves its loop and returns
the Set holding the member decoded before it; `bej_read_value` on the Set
triplet hands that Set to its caller.  No failure is signalled. -/
theorem unknown_member_tag_returns_shortened_set :
    bej_read_value [0x00, 0x00, 0x02, 0x01, 0x03, 0x01, 0x40, 0x02, 0x01, 0x00] ⟨7, 1⟩
        main_dictionary
      = .ok (none, ⟨8, 1⟩) ∧
    bej_read_object [0x00, 0x00, 0x02, 0x01, 0x03, 0x01, 0x40, 0x02, 0x01, 0x00] ⟨1, 0⟩ 0
        main_dictionary
      = .ok (some (.set [(1, .integer 64)]), ⟨9, 1⟩) ∧
    bej_read_value [0x00, 0x00, 0x02, 0x01, 0x03, 0x01, 0x40, 0x02, 0x01, 0x00] ⟨0, 0⟩
        main_dictionary
      = .ok (some (.set [(1, .integer 64)]), ⟨9, 1⟩) := by
  refine ⟨?_, ?_, ?_⟩ <;> rfl

/-! ## Type tags -/

/-- Claim C7.  `bej_read_value` returns `NULL` exactly when the byte after the
identifier byte can be read and is none of the tags Set (0x00), Integer (0x03)
and String (0x05); in particular the tags Array (0x01), Null (0x02) and Enum
(0x04) give `NULL`, the cursor left on the tag byte; and every node of a tree
that `bej_read_value` returns has discriminant Set, Integer or String. -/
theorem bej_read_value_null_iff_unknown_tag (buf : List Byte) (s : State)
    (dict : List BejDictionary) :
    ((∃ s', bej_read_value buf s dict = .ok (none, s')) ↔
      ∃ t : Byte, buf[s.data + 1]? = some t ∧
        t.val ≠ BEJ_SET ∧ t.val ≠ BEJ_INTEGER ∧ t.val ≠ BEJ_STRING) ∧
    (∀ t : Byte, buf[s.data + 1]? = some t →
      (t.val = BEJ_ARRAY ∨ t.val = BEJ_NULL ∨ t.val = BEJ_ENUM) →
      bej_read_value buf s dict = .ok (none, ⟨s.data + 1, s.last_read_field_length⟩)) ∧
    (∀ v s', bej_read_value buf s dict = .ok (some v, s') → v.tags_ok = true) := by
  have hunk : ∀ t : Byte, buf[s.data + 1]? = some t →
      t.val ≠ BEJ_SET → t.val ≠ BEJ_INTEGER → t.val ≠ BEJ_STRING →
      bej_read_value buf s dict = .ok (none, ⟨s.data + 1, s.last_read_field_length⟩) := by
    intro t ht h0 h3 h5
    unfold bej_read_value
    rw [bej_read_value_fuel_succ]
    have hty : read buf (s.data + 1) = .ok t.val := (read_ok_iff _ _ _).mpr ⟨t, ht, rfl⟩
    have hlt := (read_ok_lt _ _ _ hty).1
    have hid : ∃ b : Byte, buf[s.data]? = some b := by
      refine ⟨buf.get ⟨s.data, by omega⟩, ?_⟩
      simp [List.getElem?_eq_getElem (show s.data < buf.length by omega)]
    obtain ⟨b, hb⟩ := hid
    have hid' : read buf s.data = .ok b.val := (read_ok_iff _ _ _).mpr ⟨b, hb, rfl⟩
    simp only [hid', hty, h0, h3, h5, if_false]
  refine ⟨⟨?_, ?_⟩, ?_, ?_⟩
  · rintro ⟨s', h⟩
    unfold bej_read_value at h
    rw [bej_read_value_fuel_succ] at h
    cases hid : read buf s.data with
    | error e => simp [hid] at h
    | ok id =>
      cases hty : read buf (s.data + 1) with
      | error e => simp [hid, hty] at h
      | ok type =>
        obtain ⟨t, ht, htv⟩ := (read_ok_iff _ _ _).mp hty
        simp only [hid, hty] at h
        refine ⟨t, ht, ?_⟩
        rw [htv]
        split at h
        · cases hi : bej_read_integer buf ⟨s.data + 1, s.last_read_field_length⟩ with
          | error e => simp [hi] at h
          | ok p => simp [hi] at h
        · split at h
          · cases hi : bej_read_string buf ⟨s.data + 1, s.last_read_field_length⟩ with
            | error e => simp [hi] at h
            | ok p => simp [hi] at h
          · split at h
            · obtain ⟨⟨pairs, hr, _⟩, _⟩ := (decode_invariant buf _).2.1 _ _ _ _ _ h
              cases hr
            · rename_i h3 h5 h0
              exact ⟨h0, h3, h5⟩
  · rintro ⟨t, ht, h0, h3, h5⟩
    exact ⟨_, hunk t ht h0 h3 h5⟩
  · intro t ht hres
    have e1 : BEJ_ARRAY = 1 := rfl
    have e2 : BEJ_NULL = 2 := rfl
    have e4 : BEJ_ENUM = 4 := rfl
    have e0 : BEJ_SET = 0 := rfl
    have e3 : BEJ_INTEGER = 3 := rfl
    have e5 : BEJ_STRING = 5 := rfl
    apply hunk t ht <;> omega
  · intro v s' h
    exact ((decode_invariant buf _).1 _ _ _ _ h).1 v rfl |>.1

/-- Claim C7 on the triplet head `01 04` (tag Enum), which gives `NULL`, and on
the sample `bej_data`, whose tree has only Set, Integer and String nodes. -/
theorem bej_read_value_null_iff_unknown_tag_witness :
    bej_read_value [0x01, 0x04] ⟨0, 0⟩ main_dictionary = .ok (none, ⟨1, 0⟩) ∧
    (BejSet.set [(1, .integer 65536), (2, .integer 64),
      (3, .string [0x4E, 0x6F, 0x45, 0x43, 0x43]),
      (4, .set [(1, .integer 0), (2, .integer 0)])]).tags_ok = true :=
  ⟨(bej_read_value_null_iff_unknown_tag [0x01, 0x04] ⟨0, 0⟩ main_dictionary).2.1 0x04 rfl
      (Or.inr (Or.inr rfl)),
    (bej_read_value_null_iff_unknown_tag bej_data ⟨0, 0⟩ main_dictionary).2.2 _ _
      bej_read_value_bej_data⟩

/-! ## Dictionary lookup -/

theorem bej_find_in_dictionary_cons (row : BejDictionary) (rest : List BejDictionary)
    (id : Nat) (type : Option Nat) :
    bej_find_in_dictionary (row :: rest) id type =
      match row.name with
      | none => .ok (none, type)
      | some name =>
        if row.id = id then
          .ok (some name, match type with | none => none | some _ => some row.type)
        else bej_find_in_dictionary rest id type := rfl

theorem first_entry_name (dict : List BejDictionary) (id : Nat) (row : BejDictionary)
    (h : first_entry dict id = some row) : row.name.isSome = true ∧ row.id = id := by
  unfold first_entry rows_before_sentinel at h
  have hmem := List.mem_of_find?_eq_some h
  have hp := List.find?_some h
  have hq := List.mem_takeWhile_imp hmem
  exact ⟨by simpa using hq, by simpa using hp⟩

/-- Claim C10.  On a table that holds a sentinel row, `bej_find_in_dictionary`
returns the name of the first row before the sentinel whose identifier is the
argument and, when a type location is supplied, stores that row's declared
type there; it returns `NULL`, the location untouched, when there is no such
row; and it returns `NULL` exactly when no row before the sentinel has the
identifier. -/
theorem bej_find_in_dictionary_first_match (dict : List BejDictionary) (id : Nat)
    (type : Option Nat) (hs : ∃ row ∈ dict, row.name = none) :
    bej_find_in_dictionary dict id type
      = .ok (match first_entry dict id with
          | some row => (row.name, type.map (fun _ => row.type))
          | none => (none, type)) ∧
    ((∃ t, bej_find_in_dictionary dict id type = .ok (none, t)) ↔
      ∀ row ∈ rows_before_sentinel dict, row.id ≠ id) := by
  have heq : bej_find_in_dictionary dict id type
      = .ok (match first_entry dict id with
          | some row => (row.name, type.map (fun _ => row.type))
          | none => (none, type)) := by
    induction dict with
    | nil => obtain ⟨row, hmem, _⟩ := hs; cases hmem
    | cons row rest ih =>
      rw [bej_find_in_dictionary_cons]
      cases hn : row.name with
      | none => simp [first_entry, rows_before_sentinel, List.takeWhile, hn]
      | some name =>
        by_cases hid : row.id = id
        · cases type <;>
            simp [first_entry, rows_before_sentinel, List.takeWhile, hn, hid, List.find?]
        · have hs' : ∃ r ∈ rest, r.name = none := by
            obtain ⟨r, hmem, hr⟩ := hs
            rcases List.mem_cons.mp hmem with rfl | hmem
            · rw [hn] at hr; cases hr
            · exact ⟨r, hmem, hr⟩
          have := ih hs'
          simp only [hid, if_false, this]
          simp [first_entry, rows_before_sentinel, List.takeWhile, hn, hid, List.find?]
  refine ⟨heq, ?_⟩
  rw [heq]
  cases hf : first_entry dict id with
  | none =>
    simp only [Except.ok.injEq, Prod.mk.injEq, true_and, exists_eq', true_iff]
    intro row hrow hid
    unfold first_entry at hf
    have := List.find?_eq_none.mp hf row hrow
    simp [hid] at this
  | some row =>
    obtain ⟨hname, hid⟩ := first_entry_name dict id row hf
    have hmem : row ∈ rows_before_sentinel dict := List.mem_of_find?_eq_some hf
    constructor
    · rintro ⟨t, ht⟩
      simp only [Except.ok.injEq, Prod.mk.injEq] at ht
      rw [ht.1] at hname
      cases hname
    · intro hall
      exact absurd hid (hall row hmem)

/-- Claim C10 on the root table: identifier 1 gives `CapacityMiB`; identifier
3 with a type location gives `ErrorCorrection` and the type String; identifier
7 is not found. -/
theorem bej_find_in_dictionary_first_match_witness :
    bej_find_in_dictionary main_dictionary 1 none = .ok (some "CapacityMiB", none) ∧
    bej_find_in_dictionary main_dictionary 3 (some 0)
      = .ok (some "ErrorCorrection", some BEJ_STRING) ∧
    bej_find_in_dictionary main_dictionary 7 (some 0) = .ok (none, some 0) :=
  ⟨(bej_find_in_dictionary_first_match main_dictionary 1 none
      ⟨⟨255, none, 0⟩, by simp [main_dictionary], rfl⟩).1.trans (by rfl),
    (bej_find_in_dictionary_first_match main_dictionary 3 (some 0)
      ⟨⟨255, none, 0⟩, by simp [main_dictionary], rfl⟩).1.trans (by rfl),
    (bej_find_in_dictionary_first_match main_dictionary 7 (some 0)
      ⟨⟨255, none, 0⟩, by simp [main_dictionary], rfl⟩).1.trans (by rfl)⟩

/-! ## The renderer -/

theorem bej_get_child_dictionary_sentinel (id : Nat) :
    ∃ row ∈ bej_get_child_dictionary id, row.name = none := by
  unfold bej_get_child_dictionary
  split
  · exact ⟨⟨255, none, 0⟩, by simp [child_dictionary], rfl⟩
  · exact ⟨⟨255, none, 0⟩, by simp [main_dictionary], rfl⟩

/-- On a table with a sentinel the scan of `bej_find_in_dictionary` with a
`NULL` type location gives the name of the first entry, if any. -/
theorem bej_find_in_dictionary_eq_first_entry (dict : List BejDictionary) (id : Nat)
    (hs : ∃ row ∈ dict, row.name = none) :
    bej_find_in_dictionary dict id none
      = .ok (match first_entry dict id with
          | some row => (row.name, none)
          | none => (none, none)) := by
  induction dict with
  | nil => obtain ⟨row, hmem, _⟩ := hs; cases hmem
  | cons row rest ih =>
    rw [bej_find_in_dictionary_cons]
    cases hn : row.name with
    | none => simp [first_entry, rows_before_sentinel, List.takeWhile, hn]
    | some name =>
      by_cases hid : row.id = id
      · simp [first_entry, rows_before_sentinel, List.takeWhile, hn, hid, List.find?]
      · have hs' : ∃ r ∈ rest, r.name = none := by
          obtain ⟨r, hmem, hr⟩ := hs
          rcases List.mem_cons.mp hmem with rfl | hmem
          · rw [hn] at hr; cases hr
          · exact ⟨r, hmem, hr⟩
        have := ih hs'
        simp only [hid, if_false, this]
        simp [first_entry, rows_before_sentinel, List.takeWhile, hn, hid, List.find?]

/-- The name the renderer writes for a key is `name_of`. -/
theorem bej_find_in_dictionary_name (dict : List BejDictionary) (id : Nat)
    (hs : ∃ row ∈ dict, row.name = none) :
    ∃ found t, bej_find_in_dictionary dict id none = .ok (found, t) ∧
      (match found with | some n => n | none => "UNKNOWN") = name_of dict id := by
  rw [bej_find_in_dictionary_eq_first_entry dict id hs]
  unfold name_of
  cases hf : first_entry dict id with
  | none => exact ⟨none, none, rfl, rfl⟩
  | some row =>
    refine ⟨row.name, none, rfl, ?_⟩
    cases hn : row.name with
    | none => simp [hn]
    | some n => simp [hn]

theorem indent_eq_spaces (n : Nat) : indent n = spaces (2 * n) := by
  induction n with
  | zero => rfl
  | succ k ih =>
    rw [indent, ih]
    unfold spaces
    rw [show 2 * (k + 1) = 2 * k + 1 + 1 by omega, List.replicate_succ, List.replicate_succ]
    rfl

theorem bej_to_json_val_set (pairs : List (Nat × BejSet)) (dict : List BejDictionary)
    (depth : Nat) :
    bej_to_json_val (.set pairs) dict depth =
      match bej_to_json_pairs pairs dict depth with
      | .error e => .error e
      | .ok body => .ok ("\x7b\n" ++ body ++ indent depth ++ "\x7d") := by
  rw [bej_to_json_val]

theorem bej_to_json_pairs_cons (id : Nat) (value : BejSet) (rest : List (Nat × BejSet))
    (dict : List BejDictionary) (depth : Nat) :
    bej_to_json_pairs ((id, value) :: rest) dict depth =
      match bej_find_in_dictionary dict (id % 256) none with
      | .error e => .error e
      | .ok (found, _) =>
        match bej_to_json_val value (bej_get_child_dictionary (id % 256)) (depth + 1) with
        | .error e => .error e
        | .ok child =>
          match bej_to_json_pairs rest dict depth with
          | .error e => .error e
          | .ok more =>
            .ok (indent (depth + 1) ++ "\"" ++
              (match found with | some n => n | none => "UNKNOWN") ++ "\": " ++ child ++
              (if rest.isEmpty then "" else ",") ++ "\n" ++ more) := by
  rw [bej_to_json_pairs]

/-- One turn of the member loop, in the words of the layout. -/
theorem bej_to_json_pairs_step (id : Nat) (value : BejSet) (rest : List (Nat × BejSet))
    (dict : List BejDictionary) (depth : Nat) (child more : String)
    (hs : ∃ row ∈ dict, row.name = none)
    (hc : bej_to_json_val value (bej_get_child_dictionary (id % 256)) (depth + 1) = .ok child)
    (hm : bej_to_json_pairs rest dict depth = .ok more) :
    bej_to_json_pairs ((id, value) :: rest) dict depth
      = .ok (member_line depth (name_of dict (id % 256)) child rest.isEmpty ++ more) := by
  obtain ⟨found, t, hf, hname⟩ := bej_find_in_dictionary_name dict (id % 256) hs
  rw [bej_to_json_pairs_cons, hf]
  simp only [hc, hm, hname, member_line, indent_eq_spaces]

mutual
/-- Rendering with a table that holds a sentinel writes a text: it does not
fail and does not stop early. -/
theorem bej_to_json_val_ok : ∀ (v : BejSet) (dict : List BejDictionary) (depth : Nat),
    (∃ row ∈ dict, row.name = none) → ∃ out, bej_to_json_val v dict depth = .ok out
  | .integer _, _, _, _ => ⟨_, by rw [bej_to_json_val]⟩
  | .string _, _, _, _ => ⟨_, by rw [bej_to_json_val]⟩
  | .other _, _, _, _ => ⟨_, by rw [bej_to_json_val]⟩
  | .set pairs, dict, depth, hs => by
    obtain ⟨body, hb⟩ := bej_to_json_pairs_ok pairs dict depth hs
    exact ⟨_, by rw [bej_to_json_val_set, hb]⟩
/-- The member loop with a table that holds a sentinel writes a text. -/
theorem bej_to_json_pairs_ok : ∀ (pairs : List (Nat × BejSet)) (dict : List BejDictionary)
    (depth : Nat), (∃ row ∈ dict, row.name = none) →
    ∃ out, bej_to_json_pairs pairs dict depth = .ok out
  | [], _, _, _ => ⟨_, by rw [bej_to_json_pairs]⟩
  | (id, value) :: rest, dict, depth, hs => by
    obtain ⟨child, hc⟩ := bej_to_json_val_ok value (bej_get_child_dictionary (id % 256))
      (depth + 1) (bej_get_child_dictionary_sentinel _)
    obtain ⟨more, hm⟩ := bej_to_json_pairs_ok rest dict depth hs
    exact ⟨_, bej_to_json_pairs_step id value rest dict depth child more hs hc hm⟩
end

/-- The members before a non-empty rest are written first, each with its
comma; the text of the rest follows unchanged. -/
theorem bej_to_json_pairs_append (dict : List BejDictionary) (depth : Nat)
    (hs : ∃ row ∈ dict, row.name = none) :
    ∀ before : List (Nat × BejSet), ∃ front : String,
      ∀ (rest : List (Nat × BejSet)) (out : String), rest ≠ [] →
        bej_to_json_pairs rest dict depth = .ok out →
        bej_to_json_pairs (before ++ rest) dict depth = .ok (front ++ out) := by
  intro before
  induction before with
  | nil => exact ⟨"", fun rest out _ h => by simpa using h⟩
  | cons p b ih =>
    obtain ⟨id, v⟩ := p
    obtain ⟨front, hfront⟩ := ih
    obtain ⟨child, hc⟩ := bej_to_json_val_ok v (bej_get_child_dictionary (id % 256))
      (depth + 1) (bej_get_child_dictionary_sentinel _)
    refine ⟨member_line depth (name_of dict (id % 256)) child false ++ front, ?_⟩
    intro rest out hne hout
    have hmore := hfront rest out hne hout
    have hstep := bej_to_json_pairs_step id v (b ++ rest) dict depth child _ hs hc hmore
    have hemp : (b ++ rest).isEmpty = false := by
      cases b with
      | nil => cases rest with
        | nil => exact absurd rfl hne
        | cons _ _ => rfl
      | cons _ _ => rfl
    rw [hemp] at hstep
    rw [List.cons_append, hstep, String.append_assoc]

/-- The text of the member loop, line by line: the members from position `i`
of a Set of `n` members. -/
theorem bej_to_json_pairs_layout (dict : List BejDictionary) (depth n : Nat)
    (hs : ∃ row ∈ dict, row.name = none) :
    ∀ (pairs : List (Nat × BejSet)) (i : Nat), i + pairs.length = n →
      ∃ children : List String, children.length = pairs.length ∧
        (∀ (j : Nat) (h1 : j < pairs.length) (h2 : j < children.length),
          bej_to_json_val (pairs.get ⟨j, h1⟩).2
            (bej_get_child_dictionary ((pairs.get ⟨j, h1⟩).1 % 256)) (depth + 1)
            = .ok (children.get ⟨j, h2⟩)) ∧
        bej_to_json_pairs pairs dict depth
          = .ok (concat (member_lines_from dict depth n i
              ((pairs.map (fun p => p.1 % 256)).zip children))) := by
  intro pairs
  induction pairs with
  | nil =>
    intro i _
    exact ⟨[], rfl, fun j h1 _ => absurd h1 (by simp), by
      rw [bej_to_json_pairs]; rfl⟩
  | cons p rest ih =>
    intro i hi
    obtain ⟨id, v⟩ := p
    simp only [List.length_cons] at hi
    obtain ⟨children, hlen, hch, hout⟩ := ih (i + 1) (by omega)
    obtain ⟨child, hc⟩ := bej_to_json_val_ok v (bej_get_child_dictionary (id % 256))
      (depth + 1) (bej_get_child_dictionary_sentinel _)
    refine ⟨child :: children, by simp [hlen], ?_, ?_⟩
    · intro j h1 h2
      cases j with
      | zero => exact hc
      | succ k =>
        exact hch k (by simpa using h1) (by simpa using h2)
    · have hstep := bej_to_json_pairs_step id v rest dict depth child _ hs hc hout
      rw [hstep]
      have hlast : rest.isEmpty = decide (i + 1 = n) := by
        cases rest with
        | nil => simp at hi; simp [hi]
        | cons _ _ =>
          simp only [List.length_cons] at hi
          simp only [List.isEmpty_cons]
          symm
          simp only [decide_eq_false_iff_not]
          omega
      rw [hlast]
      rfl

theorem keys_from_map_fst (pairs : List (Nat × BejSet)) :
    ∀ k, keys_from k pairs = true → pairs.map (fun p => p.1) = List.range' k pairs.length := by
  induction pairs with
  | nil => intro k _; rfl
  | cons p r ih =>
    intro k hk
    obtain ⟨id, w⟩ := p
    simp [keys_from] at hk
    simp [List.range', hk.1.1, ih (k + 1) hk.2]

/-- A Set that `bej_read_value` returns has at most 32 members, keyed 1, 2,
3, ... in stored order. -/
theorem bej_read_value_set_keys (buf : List Byte) (s s' : State) (dict : List BejDictionary)
    (pairs : List (Nat × BejSet))
    (h : bej_read_value buf s dict = .ok (some (.set pairs), s')) :
    pairs.length ≤ PAIR_BUFFER ∧ keys_from 1 pairs = true := by
  have hk := ((decode_invariant buf _).1 _ _ _ _ h).1 _ rfl |>.2
  refine ⟨?_, by simpa [BejSet.keys_sequential] using hk⟩
  unfold bej_read_value at h
  rw [bej_read_value_fuel_succ] at h
  cases hid : read buf s.data with
  | error e => simp [hid] at h
  | ok id =>
    cases hty : read buf (s.data + 1) with
    | error e => simp [hid, hty] at h
    | ok type =>
      simp only [hid, hty] at h
      split at h
      · cases hi : bej_read_integer buf ⟨s.data + 1, s.last_read_field_length⟩ with
        | error e => simp [hi] at h
        | ok p => simp [hi] at h
      · split at h
        · cases hi : bej_read_string buf ⟨s.data + 1, s.last_read_field_length⟩ with
          | error e => simp [hi] at h
          | ok p => simp [hi] at h
        · split at h
          · obtain ⟨⟨pairs', hr, hlen, _⟩, _⟩ := (decode_invariant buf _).2.1 _ _ _ _ _ h
            cases hr
            exact hlen
          · simp at h

/-! ## Renderer layout -/

/-- Claim C11.  Renderer layout.  A Set of `n` members (`n ≥ 1` in the claim;
`n = 0` is covered too), the keys being `uint8_t` values, rendered at depth `d`
with a table `T` that holds a sentinel is written as an opening brace and a newline, then one text per member in
stored order (`2 * (d + 1)` spaces, the quoted name found for the key in `T`,
colon and space, the value rendered at depth `d + 1` with
`bej_get_child_dictionary key`, a comma unless the member is the last, a
newline), then `2 * d` spaces and a closing brace.  An Integer node is written
as the decimal text of its value and a String node as its content between
double quotes, unescaped. -/
theorem renderer_layout (pairs : List (Nat × BejSet)) (T : List BejDictionary) (d : Nat)
    (hs : ∃ row ∈ T, row.name = none) (hk : ∀ p ∈ pairs, p.1 < 256) :
    (∃ children : List String, children.length = pairs.length ∧
      (∀ (i : Nat) (h1 : i < pairs.length) (h2 : i < children.length),
        bej_to_json_val (pairs.get ⟨i, h1⟩).2
          (bej_get_child_dictionary (pairs.get ⟨i, h1⟩).1) (d + 1)
          = .ok (children.get ⟨i, h2⟩)) ∧
      bej_to_json_val (.set pairs) T d
        = .ok ("\x7b\n" ++
            concat (member_lines_from T d pairs.length 0
              ((pairs.map (fun p => p.1)).zip children)) ++
            spaces (2 * d) ++ "\x7d")) ∧
    (∀ (v : Int) (T' : List BejDictionary) (d' : Nat),
      bej_to_json_val (.integer v) T' d' = .ok (toString v)) ∧
    (∀ (s : List Byte) (T' : List BejDictionary) (d' : Nat),
      bej_to_json_val (.string s) T' d' = .ok ("\"" ++ text s ++ "\"")) := by
  refine ⟨?_, fun v T' d' => by rw [bej_to_json_val], fun s T' d' => by rw [bej_to_json_val]⟩
  obtain ⟨children, hlen, hch, hout⟩ :=
    bej_to_json_pairs_layout T d pairs.length hs pairs 0 (by omega)
  have hmap : pairs.map (fun p => p.1 % 256) = pairs.map (fun p => p.1) :=
    List.map_congr_left (fun p hp => Nat.mod_eq_of_lt (hk p hp))
  refine ⟨children, hlen, ?_, ?_⟩
  · intro i h1 h2
    have := hch i h1 h2
    rwa [Nat.mod_eq_of_lt (hk _ (List.get_mem pairs i h1))] at this
  · rw [bej_to_json_val_set, hout, hmap, indent_eq_spaces]

/-- Claim C11 on the tree of the sample `bej_data` at depth 0 with the root
table: the four line texts and the children they contain. -/
theorem renderer_layout_witness :
    ∃ children : List String, children.length = 4 ∧
      bej_to_json_val (.set [(1, .integer 65536), (2, .integer 64),
          (3, .string [0x4E, 0x6F, 0x45, 0x43, 0x43]),
          (4, .set [(1, .integer 0), (2, .integer 0)])]) main_dictionary 0
        = .ok ("\x7b\n" ++
            concat (member_lines_from main_dictionary 0 4 0
              ([1, 2, 3, 4].zip children)) ++
            spaces (2 * 0) ++ "\x7d") := by
  obtain ⟨children, hlen, _, hout⟩ := (renderer_layout
    [(1, .integer 65536), (2, .integer 64), (3, .string [0x4E, 0x6F, 0x45, 0x43, 0x43]),
      (4, .set [(1, .integer 0), (2, .integer 0)])] main_dictionary 0
    ⟨⟨255, none, 0⟩, by simp [main_dictionary], rfl⟩ (by simp)).1
  exact ⟨children, hlen, hout⟩

/-- Claim C12.  A key that no row before the sentinel of the table carries is
written as `UNKNOWN`, and rendering goes on: in a Set rendered with a table
holding a sentinel, the member with such a key is written with the name
`UNKNOWN` and its value rendered as for any member, after the text of the
members before it and followed by the text of the members after it. -/
theorem absent_key_renders_unknown (before after : List (Nat × BejSet)) (key : Nat)
    (v : BejSet) (T : List BejDictionary) (d : Nat)
    (hs : ∃ row ∈ T, row.name = none) (hkey : key < 256)
    (habs : ∀ row ∈ rows_before_sentinel T, row.id ≠ key) :
    bej_find_in_dictionary T key none = .ok (none, none) ∧
    ∃ front child more : String,
      bej_to_json_val v (bej_get_child_dictionary key) (d + 1) = .ok child ∧
      bej_to_json_pairs after T d = .ok more ∧
      bej_to_json_val (.set (before ++ (key, v) :: after)) T d
        = .ok ("\x7b\n" ++ (front ++ (member_line d "UNKNOWN" child after.isEmpty ++ more)) ++
            spaces (2 * d) ++ "\x7d") := by
  have hfe : first_entry T key = none := by
    unfold first_entry
    rw [List.find?_eq_none]
    intro row hrow
    simpa using habs row hrow
  have hname : name_of T key = "UNKNOWN" := by simp [name_of, hfe]
  have hfind := bej_find_in_dictionary_eq_first_entry T key hs
  rw [hfe] at hfind
  refine ⟨hfind, ?_⟩
  obtain ⟨front, hfront⟩ := bej_to_json_pairs_append T d hs before
  obtain ⟨child, hc⟩ := bej_to_json_val_ok v (bej_get_child_dictionary (key % 256)) (d + 1)
    (bej_get_child_dictionary_sentinel _)
  obtain ⟨more, hm⟩ := bej_to_json_pairs_ok after T d hs
  have hstep := bej_to_json_pairs_step key v after T d child more hs hc hm
  rw [Nat.mod_eq_of_lt hkey] at hc hstep
  rw [hname] at hstep
  refine ⟨front, child, more, hc, hm, ?_⟩
  rw [bej_to_json_val_set, hfront _ _ (by simp) hstep, indent_eq_spaces]

/-- Claim C12 on a Set of 5 members rendered with the root table: the fifth
member is named `UNKNOWN` and its value 9 is written. -/
theorem absent_key_renders_unknown_witness :
    bej_to_json_val (.set [(1, .integer 1), (2, .integer 2), (3, .string [0x41]),
        (4, .set []), (5, .integer 9)]) main_dictionary 0
      = .ok "\x7b\n  \"CapacityMiB\": 1,\n  \"DataWidthBits\": 2,\n  \"ErrorCorrection\": \"A\",\n  \"MemoryLocation\": \x7b\n  \x7d,\n  \"UNKNOWN\": 9\n\x7d" ∧
    ∃ front child more : String,
      bej_to_json_val (.integer 9) (bej_get_child_dictionary 5) (0 + 1) = .ok child ∧
      bej_to_json_pairs [] main_dictionary 0 = .ok more ∧
      bej_to_json_val (.set ([(1, .integer 1), (2, .integer 2), (3, .string [0x41]),
          (4, .set [])] ++ (5, .integer 9) :: [])) main_dictionary 0
        = .ok ("\x7b\n" ++ (front ++ (member_line 0 "UNKNOWN" child true ++ more)) ++
            spaces (2 * 0) ++ "\x7d") :=
  ⟨by rfl,
    (absent_key_renders_unknown
      [(1, .integer 1), (2, .integer 2), (3, .string [0x41]), (4, .set [])] [] 5 (.integer 9)
      main_dictionary 0 ⟨⟨255, none, 0⟩, by simp [main_dictionary], rfl⟩ (by decide)
      (by simp [rows_before_sentinel, main_dictionary, List.takeWhile])).2⟩

/-- Claim C14 fails as stated.  A Set without members rendered at depth 0
is the three characters opening brace, newline, closing brace, not the two
characters of the claim; at depth 2 four spaces stand before the closing
brace. -/
theorem empty_set_text_is_not_two_characters :
    bej_to_json_val (.set []) main_dictionary 0 = .ok "\x7b\n\x7d" ∧
    bej_to_json_val (.set []) main_dictionary 0 ≠ .ok "\x7b\x7d" ∧
    bej_to_json_val (.set []) child_dictionary 2 = .ok "\x7b\n    \x7d" := by
  refine ⟨by rfl, ?_, by rfl⟩
  rw [show bej_to_json_val (.set []) main_dictionary 0 = .ok "\x7b\n\x7d" from rfl]
  intro h
  have h' := Except.ok.inj h
  exact absurd h' (by decide)

/-- Claim C14 as amended.  For every depth `d` and every table,
`bej_to_json_val` applied to a Set with an empty member sequence writes an
opening brace, a newline, `2 * d` spaces and a closing brace. -/
theorem empty_set_text (T : List BejDictionary) (d : Nat) :
    bej_to_json_val (.set []) T d = .ok ("\x7b\n" ++ spaces (2 * d) ++ "\x7d") := by
  rw [bej_to_json_val_set, bej_to_json_pairs, indent_eq_spaces]
  simp

/-! ## Which table renders a nested Set -/

/-- Claim C13 fails as stated.  In `00 00 01 | 04 00 01 | 01 03 01 07` the
nested Set carries the identifier 4 and is the first member: it is stored under
key 1 and rendered with the root table (`CapacityMiB`, not `Channel`).  In the
sample `bej_data` with identifier 9 in place of 4 for the nested Set, that Set
is the fourth member: it is stored under key 4 and rendered with
`child_dictionary` (`Channel`, `Slot`). -/
theorem rendering_ignores_wire_identifier :
    bej_read_value [0x00, 0x00, 0x01, 0x04, 0x00, 0x01, 0x01, 0x03, 0x01, 0x07] ⟨0, 0⟩
        main_dictionary
      = .ok (some (.set [(1, .set [(1, .integer 7)])]), ⟨11, 1⟩) ∧
    main [0x00, 0x00, 0x01, 0x04, 0x00, 0x01, 0x01, 0x03, 0x01, 0x07]
      = .ok "\x7b\n  \"CapacityMiB\": \x7b\n    \"CapacityMiB\": 7\n  \x7d\n\x7d\n" ∧
    main [0x00, 0x00, 0x0B,
        0x01, 0x03, 0x04, 0x00, 0x00, 0x01, 0x00,
        0x02, 0x03, 0x01, 0x40,
        0x03, 0x05, 0x05, 0x4E, 0x6F, 0x45, 0x43, 0x43,
        0x09, 0x00, 0x02,
        0x01, 0x03, 0x01, 0x00,
        0x02, 0x03, 0x01, 0x00]
      = .ok "\x7b\n  \"CapacityMiB\": 65536,\n  \"DataWidthBits\": 64,\n  \"ErrorCorrection\": \"NoECC\",\n  \"MemoryLocation\": \x7b\n    \"Channel\": 0,\n    \"Slot\": 0\n  \x7d\n\x7d\n" := by
  have h1 : bej_read_value [0x00, 0x00, 0x01, 0x04, 0x00, 0x01, 0x01, 0x03, 0x01, 0x07] ⟨0, 0⟩
      main_dictionary = .ok (some (.set [(1, .set [(1, .integer 7)])]), ⟨11, 1⟩) := by rfl
  have h2 : bej_read_value [0x00, 0x00, 0x0B,
        0x01, 0x03, 0x04, 0x00, 0x00, 0x01, 0x00,
        0x02, 0x03, 0x01, 0x40,
        0x03, 0x05, 0x05, 0x4E, 0x6F, 0x45, 0x43, 0x43,
        0x09, 0x00, 0x02,
        0x01, 0x03, 0x01, 0x00,
        0x02, 0x03, 0x01, 0x00] ⟨0, 0⟩ main_dictionary
      = .ok (some (.set [(1, .integer 65536), (2, .integer 64),
          (3, .string [0x4E, 0x6F, 0x45, 0x43, 0x43]),
          (4, .set [(1, .integer 0), (2, .integer 0)])]), ⟨34, 1⟩) := by rfl
  refine ⟨h1, ?_, ?_⟩
  · simp only [main, h1]; rfl
  · simp only [main, h2]; rfl

/-- Claim C13 as amended.  For every buffer that `bej_read_value` decodes to a
Set, and every table with a sentinel and depth, the member at 1-based position
`k` has key `k` and its value is rendered with `bej_get_child_dictionary k`:
the table is selected by the member's position, not by the identifier byte it
carried.  So the value of a member is rendered with `child_dictionary` exactly
when the member is the fourth of its Set. -/
theorem rendering_selects_table_by_position (buf : List Byte) (s s' : State)
    (dict T : List BejDictionary) (pairs : List (Nat × BejSet)) (d : Nat)
    (h : bej_read_value buf s dict = .ok (some (.set pairs), s'))
    (hs : ∃ row ∈ T, row.name = none) :
    (∃ children : List String, children.length = pairs.length ∧
      (∀ (i : Nat) (h1 : i < pairs.length) (h2 : i < children.length),
        (pairs.get ⟨i, h1⟩).1 = i + 1 ∧
        bej_to_json_val (pairs.get ⟨i, h1⟩).2 (bej_get_child_dictionary (i + 1)) (d + 1)
          = .ok (children.get ⟨i, h2⟩)) ∧
      bej_to_json_val (.set pairs) T d
        = .ok ("\x7b\n" ++
            concat (member_lines_from T d pairs.length 0
              ((List.range' 1 pairs.length).zip children)) ++
            spaces (2 * d) ++ "\x7d")) ∧
    (∀ k : Nat, bej_get_child_dictionary k = child_dictionary ↔ k = 4) := by
  obtain ⟨hlen, hkeys⟩ := bej_read_value_set_keys buf s s' dict pairs h
  have h32 : PAIR_BUFFER = 32 := rfl
  have hkey : ∀ (i : Nat) (h1 : i < pairs.length), (pairs.get ⟨i, h1⟩).1 = i + 1 := by
    intro i h1
    rw [keys_from_get pairs 1 hkeys i h1, Nat.add_comm]
  constructor
  · obtain ⟨children, hclen, hch, hout⟩ :=
      bej_to_json_pairs_layout T d pairs.length hs pairs 0 (by omega)
    have hmap : pairs.map (fun p => p.1 % 256) = List.range' 1 pairs.length := by
      rw [← keys_from_map_fst pairs 1 hkeys]
      apply List.map_congr_left
      intro p hp
      obtain ⟨i, hi⟩ := List.mem_iff_get.mp hp
      have hpk := hkey i.val i.isLt
      rw [show pairs.get ⟨i.val, i.isLt⟩ = p from hi] at hpk
      rw [hpk]
      have := i.isLt
      exact Nat.mod_eq_of_lt (by omega)
    refine ⟨children, hclen, ?_, ?_⟩
    · intro i h1 h2
      refine ⟨hkey i h1, ?_⟩
      have := hch i h1 h2
      rwa [hkey i h1, Nat.mod_eq_of_lt (by omega)] at this
    · rw [bej_to_json_val_set, hout, hmap, indent_eq_spaces]
  · intro k
    unfold bej_get_child_dictionary
    constructor
    · intro hk
      by_contra hne
      simp only [hne, if_false] at hk
      exact absurd hk (by decide)
    · intro hk
      simp [hk]

/-- Claim C13 as amended, on `00 00 01 | 04 00 01 | 01 03 01 07`: the nested
Set of wire identifier 4 is the first member and is rendered with
`bej_get_child_dictionary 1`, the root table. -/
theorem rendering_selects_table_by_position_witness :
    ∃ children : List String, children.length = 1 ∧
      (∀ (i : Nat) (h1 : i < [(1, BejSet.set [(1, .integer 7)])].length)
        (h2 : i < children.length),
        ([(1, BejSet.set [(1, .integer 7)])].get ⟨i, h1⟩).1 = i + 1 ∧
        bej_to_json_val ([(1, BejSet.set [(1, .integer 7)])].get ⟨i, h1⟩).2
          (bej_get_child_dictionary (i + 1)) (0 + 1) = .ok (children.get ⟨i, h2⟩)) ∧
      bej_to_json_val (.set [(1, BejSet.set [(1, .integer 7)])]) main_dictionary 0
        = .ok ("\x7b\n" ++
            concat (member_lines_from main_dictionary 0
              [(1, BejSet.set [(1, .integer 7)])].length 0
              ((List.range' 1 [(1, BejSet.set [(1, .integer 7)])].length).zip children)) ++
            spaces (2 * 0) ++ "\x7d") :=
  (rendering_selects_table_by_position
    [0x00, 0x00, 0x01, 0x04, 0x00, 0x01, 0x01, 0x03, 0x01, 0x07] ⟨0, 0⟩ ⟨11, 1⟩
    main_dictionary main_dictionary [(1, .set [(1, .integer 7)])] 0 (by rfl)
    ⟨⟨255, none, 0⟩, by simp [main_dictionary], rfl⟩).1

/-- Claim C18 fails as stated.  A Set rendered with `child_dictionary` whose
fourth member is a Set renders that nested Set with `child_dictionary` again
(its member of key 1 is named `Channel`); only a nested Set under another key
is rendered with the root table (`CapacityMiB`). -/
theorem nested_set_under_key_four_uses_child_table :
    bej_to_json_val (.set [(1, .integer 1), (2, .integer 2), (3, .integer 3),
        (4, .set [(1, .integer 7)])]) child_dictionary 1
      = .ok "\x7b\n    \"Channel\": 1,\n    \"Slot\": 2,\n    \"UNKNOWN\": 3,\n    \"UNKNOWN\": \x7b\n      \"Channel\": 7\n    \x7d\n  \x7d" ∧
    bej_to_json_val (.set [(1, .set [(1, .integer 7)])]) child_dictionary 1
      = .ok "\x7b\n    \"Channel\": \x7b\n      \"CapacityMiB\": 7\n    \x7d\n  \x7d" := by
  constructor <;> rfl

/-- Claim C18 as amended.  When `bej_to_json_val` renders a Set with
`child_dictionary`, a value nested directly inside it under the key `key` is
rendered with `main_dictionary` when `key` is not 4 and with
`child_dictionary` when `key` is 4, whatever its position: the table depends
on the key alone, not on the depth. -/
theorem nested_table_depends_on_key (before after : List (Nat × BejSet)) (key : Nat)
    (v : BejSet) (d : Nat) (hkey : key < 256) :
    ∃ front child more : String,
      bej_to_json_val v (if key = 4 then child_dictionary else main_dictionary) (d + 1)
        = .ok child ∧
      bej_to_json_pairs after child_dictionary d = .ok more ∧
      bej_to_json_val (.set (before ++ (key, v) :: after)) child_dictionary d
        = .ok ("\x7b\n" ++
            (front ++ (member_line d (name_of child_dictionary key) child after.isEmpty ++
              more)) ++ spaces (2 * d) ++ "\x7d") := by
  have hs : ∃ row ∈ child_dictionary, row.name = none :=
    ⟨⟨255, none, 0⟩, by simp [child_dictionary], rfl⟩
  obtain ⟨front, hfront⟩ := bej_to_json_pairs_append child_dictionary d hs before
  obtain ⟨child, hc⟩ := bej_to_json_val_ok v (bej_get_child_dictionary (key % 256)) (d + 1)
    (bej_get_child_dictionary_sentinel _)
  obtain ⟨more, hm⟩ := bej_to_json_pairs_ok after child_dictionary d hs
  have hstep := bej_to_json_pairs_step key v after child_dictionary d child more hs hc hm
  rw [Nat.mod_eq_of_lt hkey] at hc hstep
  refine ⟨front, child, more, hc, hm, ?_⟩
  rw [bej_to_json_val_set, hfront _ _ (by simp) hstep, indent_eq_spaces]

/-- Claim C18 as amended, on a Set whose fourth member is a Set: rendered with
`child_dictionary`, the nested Set is rendered with `child_dictionary`. -/
theorem nested_table_depends_on_key_witness :
    ∃ front child more : String,
      bej_to_json_val (.set [(1, .integer 7)])
        (if 4 = 4 then child_dictionary else main_dictionary) (1 + 1) = .ok child ∧
      bej_to_json_pairs [] child_dictionary 1 = .ok more ∧
      bej_to_json_val (.set ([(1, .integer 1), (2, .integer 2), (3, .integer 3)] ++
          (4, .set [(1, .integer 7)]) :: [])) child_dictionary 1
        = .ok ("\x7b\n" ++
            (front ++ (member_line 1 (name_of child_dictionary 4) child true ++ more)) ++
            spaces (2 * 1) ++ "\x7d") :=
  nested_table_depends_on_key [(1, .integer 1), (2, .integer 2), (3, .integer 3)] [] 4
    (.set [(1, .integer 7)]) 1 (by decide)

/-! ## The cursor after a nested Set -/

/-- Claim C17, evaluated on the code.  In `00 00 02 | 04 00 01 | 01 03 01 00 |
02 03 01 40` a nested Set is followed by the Integer member `02 03 01 40`.
`bej_read_object` leaves the nested Set with the cursor on index 10, the
identifier byte of that member, and the loop of the enclosing Set steps once
more: the next `bej_read_value` starts on index 11 and takes the tag `03` for
an identifier and the length `01` for a tag, returns `NULL`, and the Integer
member is lost.  With one more byte between the two members the Integer is
decoded.  After an Integer member no byte is skipped. -/
theorem sibling_after_nested_set_is_skipped :
    bej_read_value [0x00, 0x00, 0x02, 0x04, 0x00, 0x01, 0x01, 0x03, 0x01, 0x00,
        0x02, 0x03, 0x01, 0x40] ⟨3, 0⟩ main_dictionary
      = .ok (some (.set [(1, .integer 0)]), ⟨10, 1⟩) ∧
    bej_read_value [0x00, 0x00, 0x02, 0x04, 0x00, 0x01, 0x01, 0x03, 0x01, 0x00,
        0x02, 0x03, 0x01, 0x40] ⟨11, 1⟩ main_dictionary
      = .ok (none, ⟨12, 1⟩) ∧
    bej_read_value [0x00, 0x00, 0x02, 0x04, 0x00, 0x01, 0x01, 0x03, 0x01, 0x00,
        0x02, 0x03, 0x01, 0x40] ⟨0, 0⟩ main_dictionary
      = .ok (some (.set [(1, .set [(1, .integer 0)])]), ⟨13, 1⟩) ∧
    bej_read_value [0x00, 0x00, 0x02, 0x04, 0x00, 0x01, 0x01, 0x03, 0x01, 0x00,
        0xEE, 0x02, 0x03, 0x01, 0x40] ⟨0, 0⟩ main_dictionary
      = .ok (some (.set [(1, .set [(1, .integer 0)]), (2, .integer 64)]), ⟨15, 1⟩) ∧
    bej_read_value [0x00, 0x00, 0x02, 0x01, 0x03, 0x01, 0x41, 0x02, 0x03, 0x01, 0x40] ⟨0, 0⟩
        main_dictionary
      = .ok (some (.set [(1, .integer 65), (2, .integer 64)]), ⟨11, 1⟩) := by
  refine ⟨?_, ?_, ?_, ?_, ?_⟩ <;> rfl

/-! ## What the Set loop accounts -/

theorem members_from_get (ms : List Triplet) :
    ∀ (k i : Nat) (h1 : i < (members_from k ms).length) (h2 : i < ms.length),
      (members_from k ms).get ⟨i, h1⟩ = (k + i, (ms.get ⟨i, h2⟩).value) := by
  induction ms with
  | nil => intro k i _ h2; simp at h2
  | cons m r ih =>
    intro k i h1 h2
    cases i with
    | zero => rfl
    | succ j =>
      have := ih (k + 1) j (by simpa [members_from] using h1) (by simpa using h2)
      simp only [members_from, List.get_cons_succ] at this ⊢
      rw [this]
      congr 1
      omega

theorem last_length_getLast (ms : List Triplet) :
    ∀ (l0 : Nat) (m : Triplet), ms.getLast? = some m → last_length l0 ms = m.payload.length := by
  induction ms with
  | nil => intro l0 m h; simp at h
  | cons a r ih =>
    intro l0 m h
    cases r with
    | nil =>
      simp at h
      subst h
      rfl
    | cons b r' =>
      rw [List.getLast?_cons_cons] at h
      exact ih a.payload.length m h

/-- Claim C20 as amended.  What the Set loop accounts.  For a Set whose
members are `n` triplets, each an Integer with a payload of at most 4 bytes or
a String, `1 ≤ n ≤ 32` (there is a last member `mlast`), the last payload not
empty, and whose declared byte-length is the sum of the payload lengths,
`bej_read_object` returns `n` pairs, the pair at position `i` (from 0) being
key `i + 1` with the value of the `i`-th triplet; the cursor ends on the index
right after the last payload byte, `last_read_field_length` is the last
payload length, and the result is the same whatever bytes follow, none
included, so no byte after the last payload byte is read.  For a declared
byte-length of 0, `bej_read_object` returns a Set with 0 members, the cursor
right after the length byte, reading nothing more. -/
theorem set_loop_accounting (pre : List Byte) (ms : List Triplet) (id0 L : Byte)
    (l0 pid : Nat) (dict : List BejDictionary) (mlast : Triplet)
    (hwf : ∀ m ∈ ms, m.wf) (hn32 : ms.length ≤ PAIR_BUFFER)
    (hL : L.val = payload_total ms)
    (hlast : ms.getLast? = some mlast) (hne : mlast.payload ≠ []) :
    (∃ pairs : List (Nat × BejSet), pairs.length = ms.length ∧
      (∀ (i : Nat) (h1 : i < pairs.length) (h2 : i < ms.length),
        pairs.get ⟨i, h1⟩ = (i + 1, (ms.get ⟨i, h2⟩).value)) ∧
      ∀ post : List Byte,
        bej_read_object (pre ++ id0 :: 0x00 :: L :: encode_all ms ++ post)
            ⟨pre.length + 1, l0⟩ pid dict
          = .ok (some (.set pairs),
              ⟨pre.length + 3 + payload_total ms + 3 * ms.length, mlast.payload.length⟩)) ∧
    (∀ (pre' post : List Byte) (id' tag' : Byte) (l' pid' : Nat) (dict' : List BejDictionary),
      bej_read_object (pre' ++ id' :: tag' :: 0x00 :: post) ⟨pre'.length + 1, l'⟩ pid' dict'
        = .ok (some (.set []), ⟨pre'.length + 3, l'⟩)) := by
  constructor
  · have hlast' : ∀ m, ms.getLast? = some m → m.payload ≠ [] := by
      intro m hm
      rw [hlast] at hm
      cases hm
      exact hne
    have henter := loop_enters_of_exact ms L.val hL.symm hlast'
    refine ⟨members_from 1 ms, members_from_length ms 1, ?_, ?_⟩
    · intro i h1 h2
      rw [members_from_get ms 1 i h1 h2, Nat.add_comm]
    · intro post
      apply bej_read_object_of_fuel _ (0 + 2 + ms.length)
      rw [bej_read_object_fuel_triplets pre post ms id0 0x00 L 0 l0 pid dict hwf henter hn32,
        bej_read_object_loop_succ, encode_all_length, last_length_getLast ms l0 mlast hlast]
      simp [hL, Nat.add_assoc]
  · intro pre' post id' tag' l' pid' dict'
    apply bej_read_object_of_fuel _ 2
    rw [bej_read_object_fuel_succ]
    have hr : read (pre' ++ id' :: tag' :: 0x00 :: post) (pre'.length + 1 + 1)
        = .ok (0x00 : Byte).val := by
      rw [show pre' ++ id' :: tag' :: 0x00 :: post
        = (pre' ++ [id', tag']) ++ 0x00 :: post by simp]
      exact read_mid _ _ _ _ (by simp)
    simp only [hr]
    rw [bej_read_object_loop_succ]
    simp

/-- Claim C20 as amended, on the Set `00 00 06 | 09 03 01 40 | 07 05 05 NoECC` (declared
length 6 = 1 + 5) with nothing behind it, and on the empty Set `04 00 00`. -/
theorem set_loop_accounting_witness :
    (∃ pairs : List (Nat × BejSet), pairs.length = 2 ∧
      bej_read_object [0x00, 0x00, 0x06, 0x09, 0x03, 0x01, 0x40,
          0x07, 0x05, 0x05, 0x4E, 0x6F, 0x45, 0x43, 0x43] ⟨1, 0⟩ 0 main_dictionary
        = .ok (some (.set pairs), ⟨15, 5⟩)) ∧
    bej_read_object [0x04, 0x00, 0x00] ⟨1, 7⟩ 4 main_dictionary
      = .ok (some (.set []), ⟨3, 7⟩) := by
  have h := set_loop_accounting [] [⟨0x09, 0x03, [0x40]⟩, ⟨0x07, 0x05, [0x4E, 0x6F, 0x45, 0x43, 0x43]⟩]
    0x00 0x06 0 0 main_dictionary ⟨0x07, 0x05, [0x4E, 0x6F, 0x45, 0x43, 0x43]⟩
    (by simp; decide) (by decide) (by decide) (by rfl) (by simp)
  obtain ⟨⟨pairs, hlen, _, hres⟩, hzero⟩ := h
  exact ⟨⟨pairs, hlen, hres []⟩, hzero [] [] 0x04 0x00 7 4 main_dictionary⟩

/-! ## Reading a text -/

theorem char_at_mid (pre post : List Byte) (c : Byte) (i : Nat) (h : i = pre.length) :
    char_at (pre ++ c :: post) i = .ok c.val := by
  simp [char_at, getElem?_mid pre post c i h]

theorem char_at_end (text : List Byte) (i : Nat) (h : i = text.length) :
    char_at text i = .ok 0 := by
  subst h
  simp [char_at]

/-- The character a text shows at the index behind `pre`: the head of what
follows, NUL when nothing follows. -/
theorem char_at_head (pre rest : List Byte) (i : Nat) (h : i = pre.length) :
    char_at (pre ++ rest) i = .ok (match rest.head? with | some c => c.val | none => 0) := by
  cases rest with
  | nil => simpa using char_at_end pre i h
  | cons c r => simpa using char_at_mid pre r c i h

/-- A loop `while (p(**text)) (*text)++` runs over a run of characters that
satisfy `p` and stops on the first that does not. -/
theorem scan_while_run (p : Nat → Bool) (hp0 : p 0 = false) (run : List Byte) :
    ∀ (pre rest : List Byte) (fuel : Nat), (∀ c ∈ run, p c.val = true) →
      (∀ c, rest.head? = some c → p c.val = false) → run.length + 1 ≤ fuel →
      scan_while p (pre ++ run ++ rest) fuel pre.length = .ok (pre.length + run.length) := by
  induction run with
  | nil =>
    intro pre rest fuel _ hstop hfuel
    obtain ⟨f, rfl⟩ : ∃ f, fuel = f + 1 := ⟨fuel - 1, by simp at hfuel; omega⟩
    rw [scan_while, List.append_nil, char_at_head pre rest _ rfl]
    cases hr : rest.head? with
    | none => simp [hp0]
    | some c => simp [hstop c hr]
  | cons c r ih =>
    intro pre rest fuel hrun hstop hfuel
    obtain ⟨f, rfl⟩ : ∃ f, fuel = f + 1 := ⟨fuel - 1, by simp at hfuel; omega⟩
    simp only [List.length_cons] at hfuel
    rw [scan_while, show pre ++ c :: r ++ rest = pre ++ c :: (r ++ rest) by simp,
      char_at_mid pre (r ++ rest) c _ rfl]
    simp only [hrun c (List.mem_cons_self _ _), if_true]
    rw [show pre ++ c :: (r ++ rest) = (pre ++ [c]) ++ r ++ rest by simp]
    have := ih (pre ++ [c]) rest f (fun x hx => hrun x (List.mem_cons_of_mem _ hx)) hstop
      (by omega)
    simp only [List.length_append, List.length_singleton] at this
    rw [this]
    simp only [List.length_cons]
    congr 1
    omega

/-- The function `json_skip_spaces` runs over white space up to a character
that is none. -/
theorem json_skip_spaces_run (pre ws rest : List Byte) (hws : is_ws ws)
    (hstop : ∀ c, rest.head? = some c → is_json_space c.val = false) :
    json_skip_spaces (pre ++ ws ++ rest) pre.length = .ok (pre.length + ws.length) := by
  unfold json_skip_spaces
  exact scan_while_run is_json_space (by decide) ws pre rest _ hws hstop
    (by simp only [List.length_append]; omega)

/-- The function `json_skip_spaces` stays on a character that is no space. -/
theorem json_skip_spaces_stay (pre rest : List Byte)
    (hstop : ∀ c, rest.head? = some c → is_json_space c.val = false) :
    json_skip_spaces (pre ++ rest) pre.length = .ok pre.length := by
  have := json_skip_spaces_run pre [] rest (fun c hc => by cases hc) hstop
  simpa using this

/-- The function `json_read_string` on a quoted run of plain characters. -/
theorem json_read_string_quoted (pre seg rest : List Byte) (hseg : is_plain seg) :
    json_read_string (pre ++ 0x22 :: seg ++ 0x22 :: rest) pre.length
      = .ok (some seg, pre.length + seg.length + 2) := by
  unfold json_read_string
  have hbuf : pre ++ 0x22 :: seg ++ 0x22 :: rest = pre ++ 0x22 :: (seg ++ 0x22 :: rest) := by
    simp
  have hbuf2 : pre ++ 0x22 :: seg ++ 0x22 :: rest = (pre ++ [0x22]) ++ seg ++ 0x22 :: rest := by
    simp
  have hbuf3 : pre ++ 0x22 :: seg ++ 0x22 :: rest = (pre ++ 0x22 :: seg) ++ 0x22 :: rest := by
    simp
  have h1 : char_at (pre ++ 0x22 :: seg ++ 0x22 :: rest) pre.length = .ok (0x22 : Byte).val := by
    rw [hbuf]; exact char_at_mid _ _ _ _ rfl
  have h2 : scan_while (fun c => c != 0x22 && c != 0) (pre ++ 0x22 :: seg ++ 0x22 :: rest)
      ((pre ++ 0x22 :: seg ++ 0x22 :: rest).length + 1) (pre.length + 1)
      = .ok (pre.length + 1 + seg.length) := by
    have := scan_while_run (fun c => c != 0x22 && c != 0) (by decide) seg (pre ++ [0x22])
      (0x22 :: rest) ((pre ++ 0x22 :: seg ++ 0x22 :: rest).length + 1) hseg
      (by intro c hc; simp at hc; subst hc; decide)
      (by simp only [List.length_append, List.length_cons]; omega)
    rw [← hbuf2] at this
    simpa using this
  have h3 : char_at (pre ++ 0x22 :: seg ++ 0x22 :: rest) (pre.length + 1 + seg.length)
      = .ok (0x22 : Byte).val := by
    rw [hbuf3]; exact char_at_mid _ _ _ _ (by simp; omega)
  have h4 : ((pre ++ 0x22 :: seg ++ 0x22 :: rest).drop (pre.length + 1)).take
      (pre.length + 1 + seg.length - (pre.length + 1)) = seg := by
    rw [hbuf2, List.append_assoc, List.drop_left' (by simp)]
    simp
  have hv : ((0x22 : Byte) : Nat) = 0x22 := rfl
  simp only [h1, h2, h3, h4, hv, ne_eq, not_true_eq_false, if_false]
  rw [show pre.length + 1 + seg.length + 1 = pre.length + seg.length + 2 by omega]

/-- The function `json_read_string` fails, the cursor unmoved, when the
character under the cursor is not a double quote. -/
theorem json_read_string_no_quote (text : List Byte) (i : Nat) (hi : i ≤ text.length)
    (h : text[i]? ≠ some 0x22) :
    json_read_string text i = .ok (none, i) := by
  unfold json_read_string char_at
  cases hc : text[i]? with
  | none =>
    have : i = text.length := by
      have := List.getElem?_eq_none_iff.mp hc
      omega
    simp [this]
  | some c =>
    have hne : c.val ≠ 0x22 := by
      intro hv
      apply h
      rw [hc]
      congr 1
      exact Fin.ext hv
    simp [hne]

/-- The function `json_read_string` on an opening quote followed by plain
characters and then a character that is not plain: a closing quote gives the
characters, anything else (a NUL, the end of the text) gives `NULL`. -/
theorem json_read_string_scan (pre seg rest : List Byte) (hseg : is_plain seg)
    (hstop : ∀ c, rest.head? = some c → (c.val != 0x22 && c.val != 0) = false) :
    json_read_string (pre ++ 0x22 :: seg ++ rest) pre.length
      = .ok (if rest.head? = some 0x22 then (some seg, pre.length + seg.length + 2)
          else (none, pre.length + 1 + seg.length)) := by
  cases rest with
  | nil =>
    unfold json_read_string
    have h1 : char_at (pre ++ 0x22 :: seg ++ []) pre.length = .ok (0x22 : Byte).val := by
      rw [show pre ++ 0x22 :: seg ++ [] = pre ++ 0x22 :: (seg ++ []) by simp]
      exact char_at_mid _ _ _ _ rfl
    have h2 : scan_while (fun c => c != 0x22 && c != 0) (pre ++ 0x22 :: seg ++ [])
        ((pre ++ 0x22 :: seg ++ []).length + 1) (pre.length + 1)
        = .ok (pre.length + 1 + seg.length) := by
      have := scan_while_run (fun c => c != 0x22 && c != 0) (by decide) seg (pre ++ [0x22])
        [] ((pre ++ 0x22 :: seg ++ []).length + 1) hseg (by intro c hc; cases hc)
        (by simp only [List.length_append, List.length_cons]; omega)
      rw [show pre ++ [0x22] ++ seg ++ [] = pre ++ 0x22 :: seg ++ [] by simp] at this
      simpa using this
    have h3 : char_at (pre ++ 0x22 :: seg ++ []) (pre.length + 1 + seg.length) = .ok 0 :=
      char_at_end _ _ (by simp; omega)
    have hv : ((0x22 : Byte) : Nat) = 0x22 := rfl
    simp only [h1, h2, h3, hv, ne_eq, not_true_eq_false, if_false]
    simp
  | cons c r =>
    by_cases hc : c = 0x22
    · subst hc
      simpa using json_read_string_quoted pre seg r hseg
    · have hcv : c.val ≠ 0x22 := fun h => hc (Fin.ext h)
      unfold json_read_string
      have h1 : char_at (pre ++ 0x22 :: seg ++ c :: r) pre.length = .ok (0x22 : Byte).val := by
        rw [show pre ++ 0x22 :: seg ++ c :: r = pre ++ 0x22 :: (seg ++ c :: r) by simp]
        exact char_at_mid _ _ _ _ rfl
      have h2 : scan_while (fun c => c != 0x22 && c != 0) (pre ++ 0x22 :: seg ++ c :: r)
          ((pre ++ 0x22 :: seg ++ c :: r).length + 1) (pre.length + 1)
          = .ok (pre.length + 1 + seg.length) := by
        have := scan_while_run (fun c => c != 0x22 && c != 0) (by decide) seg (pre ++ [0x22])
          (c :: r) ((pre ++ 0x22 :: seg ++ c :: r).length + 1) hseg hstop
          (by simp only [List.length_append, List.length_cons]; omega)
        rw [show pre ++ [0x22] ++ seg ++ c :: r = pre ++ 0x22 :: seg ++ c :: r by simp] at this
        simpa using this
      have h3 : char_at (pre ++ 0x22 :: seg ++ c :: r) (pre.length + 1 + seg.length)
          = .ok c.val := by
        rw [show pre ++ 0x22 :: seg ++ c :: r = (pre ++ 0x22 :: seg) ++ c :: r by simp]
        exact char_at_mid _ _ _ _ (by simp; omega)
      have hv : ((0x22 : Byte) : Nat) = 0x22 := rfl
      simp only [h1, h2, h3, hv, ne_eq, not_true_eq_false, if_false, hcv, not_false_eq_true,
        if_true]
      simp [hc]

/-- Claim C16.  For every NUL-terminated text and every cursor inside it,
`json_read_string` does what the specification says (`read_string_spec`): it
fails, the cursor unmoved, when the character under the cursor is not a double
quote; it fails when no further double quote stands before the end of the
input (a NUL); otherwise it returns exactly the characters between the opening
quote and the next double quote, a backslash being an ordinary character, and
leaves the cursor right behind that closing quote. -/
theorem json_read_string_spec_eq (text : List Byte) (i : Nat) (hi : i ≤ text.length) :
    json_read_string text i = .ok (read_string_spec text i) := by
  unfold read_string_spec
  by_cases hq : text[i]? = some 0x22
  · have hlt : i < text.length := by
      by_contra hge
      rw [List.getElem?_eq_none (Nat.le_of_not_lt hge)] at hq
      cases hq
    have hget : text[i] = 0x22 := by
      rw [List.getElem?_eq_getElem hlt] at hq
      exact Option.some.inj hq
    have htext : text = text.take i ++ 0x22 ::
        ((text.drop (i + 1)).takeWhile (fun c => c.val != 0x22 && c.val != 0) ++
          (text.drop (i + 1)).dropWhile (fun c => c.val != 0x22 && c.val != 0)) := by
      rw [List.takeWhile_append_dropWhile, ← hget, ← List.drop_eq_getElem_cons hlt,
        List.take_append_drop]
    have hplen : (text.take i).length = i := by
      rw [List.length_take]; omega
    have hstop : ∀ c, ((text.drop (i + 1)).dropWhile
        (fun c => c.val != 0x22 && c.val != 0)).head? = some c →
        (c.val != 0x22 && c.val != 0) = false := by
      intro c hc
      have := List.head?_dropWhile_not (fun c : Byte => c.val != 0x22 && c.val != 0)
        (text.drop (i + 1))
      rw [hc] at this
      simpa using this
    have hscan := json_read_string_scan (text.take i)
      ((text.drop (i + 1)).takeWhile (fun c => c.val != 0x22 && c.val != 0))
      ((text.drop (i + 1)).dropWhile (fun c => c.val != 0x22 && c.val != 0))
      (fun c hc => by
        have hp := List.mem_takeWhile_imp hc
        exact hp) hstop
    rw [show text.take i ++ 0x22 ::
        (text.drop (i + 1)).takeWhile (fun c => c.val != 0x22 && c.val != 0) ++
        (text.drop (i + 1)).dropWhile (fun c => c.val != 0x22 && c.val != 0)
        = text from by
          simp only [List.append_assoc, List.cons_append]; exact htext.symm, hplen] at hscan
    rw [hscan]
    have hhead : text[i + 1 +
        ((text.drop (i + 1)).takeWhile (fun c => c.val != 0x22 && c.val != 0)).length]?
        = ((text.drop (i + 1)).dropWhile (fun c => c.val != 0x22 && c.val != 0)).head? := by
      rw [← List.getElem?_drop, List.head?_eq_getElem?]
      have h : ((text.drop (i + 1)).takeWhile (fun c => c.val != 0x22 && c.val != 0) ++
          (text.drop (i + 1)).dropWhile (fun c => c.val != 0x22 && c.val != 0))[
            ((text.drop (i + 1)).takeWhile (fun c => c.val != 0x22 && c.val != 0)).length]?
          = ((text.drop (i + 1)).dropWhile (fun c => c.val != 0x22 && c.val != 0))[
            ((text.drop (i + 1)).takeWhile (fun c => c.val != 0x22 && c.val != 0)).length -
            ((text.drop (i + 1)).takeWhile (fun c => c.val != 0x22 && c.val != 0)).length]? :=
        List.getElem?_append_right (le_refl _)
      rw [List.takeWhile_append_dropWhile, Nat.sub_self] at h
      exact h
    simp only [hq, if_true, hhead]
  · rw [json_read_string_no_quote text i hi hq]
    simp [hq]

/-- Claim C16 on three texts: a quoted text with a backslash in it, a text
without a closing quote, and a text that does not start with a quote. -/
theorem json_read_string_spec_eq_witness :
    json_read_string (bytes "\"a\\b\" rest") 0 = .ok (some (bytes "a\\b"), 5) ∧
    json_read_string (bytes "\"abc") 0 = .ok (none, 4) ∧
    json_read_string (bytes "abc\"") 0 = .ok (none, 0) :=
  ⟨(json_read_string_spec_eq (bytes "\"a\\b\" rest") 0 (by decide)).trans (by rfl),
    (json_read_string_spec_eq (bytes "\"abc") 0 (by decide)).trans (by rfl),
    (json_read_string_spec_eq (bytes "abc\"") 0 (by decide)).trans (by rfl)⟩

/-! ## Decoding the text of a value -/

theorem char_at_at (text pre rest : List Byte) (c : Byte) (i : Nat)
    (htext : text = pre ++ c :: rest) (hi : i = pre.length) :
    char_at text i = .ok c.val := by
  subst htext
  exact char_at_mid pre rest c i hi

theorem json_skip_spaces_at (text pre ws rest : List Byte) (i : Nat)
    (htext : text = pre ++ ws ++ rest) (hi : i = pre.length) (hws : is_ws ws)
    (hstop : ∀ c, rest.head? = some c → is_json_space c.val = false) :
    json_skip_spaces text i = .ok (i + ws.length) := by
  subst htext hi
  exact json_skip_spaces_run pre ws rest hws hstop

theorem json_read_string_at (text pre seg rest : List Byte) (i : Nat)
    (htext : text = pre ++ 0x22 :: seg ++ 0x22 :: rest) (hi : i = pre.length)
    (hseg : is_plain seg) :
    json_read_string text i = .ok (some seg, i + seg.length + 2) := by
  subst htext hi
  exact json_read_string_quoted pre seg rest hseg

theorem isdigit_not_space (c : Nat) (h : isdigit c = true) : is_json_space c = false := by
  simp only [isdigit, Bool.and_eq_true, decide_eq_true_eq] at h
  simp only [is_json_space, Bool.or_eq_false_iff, beq_eq_false_iff_ne]
  omega

theorem isdigit_not_isspace (c : Nat) (h : isdigit c = true) : isspace c = false := by
  simp only [isdigit, Bool.and_eq_true, decide_eq_true_eq] at h
  simp only [isspace, Bool.or_eq_false_iff, beq_eq_false_iff_ne, Bool.and_eq_false_iff,
    decide_eq_false_iff_not]
  omega

theorem toInt32_mod (n : Nat) : toInt32 ((Int.ofNat n) % 2 ^ 32).toNat = toInt32 n := by
  have h : ((Int.ofNat n) % 2 ^ 32).toNat = n % 2 ^ 32 := by
    have : (Int.ofNat n) % 2 ^ 32 = Int.ofNat (n % 2 ^ 32) := by
      simp [Int.ofNat_mod_ofNat]
    rw [this]
    rfl
  rw [h]
  unfold toInt32
  simp only [Nat.mod_mod]

/-- The function `json_read_integer` on a run of digits followed by a
character that is no digit. -/
theorem json_read_integer_at (text pre digits rest : List Byte) (i : Nat)
    (htext : text = pre ++ digits ++ rest) (hi : i = pre.length)
    (hne : digits ≠ []) (hd : ∀ c ∈ digits, isdigit c.val = true)
    (hstop : ∀ c, rest.head? = some c → isdigit c.val = false) :
    json_read_integer text i = .ok (decoded_integer digits, i + digits.length) := by
  subst htext hi
  obtain ⟨d, ds, rfl⟩ := List.exists_cons_of_ne_nil hne
  have hdd : isdigit d.val = true := hd d (List.mem_cons_self _ _)
  have hdv : 0x30 ≤ d.val ∧ d.val ≤ 0x39 := by
    simpa [isdigit] using hdd
  unfold json_read_integer strtol
  have h1 : scan_while isspace (pre ++ d :: ds ++ rest) ((pre ++ d :: ds ++ rest).length + 1)
      pre.length = .ok pre.length := by
    have := scan_while_run isspace (by decide) [] pre (d :: ds ++ rest)
      ((pre ++ d :: ds ++ rest).length + 1) (fun c hc => by cases hc)
      (by
        intro c hc
        simp at hc
        subst hc
        exact isdigit_not_isspace _ hdd)
      (by simp)
    simpa using this
  have h2 : char_at (pre ++ d :: ds ++ rest) pre.length = .ok d.val := by
    rw [show pre ++ d :: ds ++ rest = pre ++ d :: (ds ++ rest) by simp]
    exact char_at_mid _ _ _ _ rfl
  have h3 : scan_while isdigit (pre ++ d :: ds ++ rest) ((pre ++ d :: ds ++ rest).length + 1)
      pre.length = .ok (pre.length + (d :: ds).length) :=
    scan_while_run isdigit (by decide) (d :: ds) pre rest _ hd hstop
      (by simp only [List.length_append, List.length_cons]; omega)
  have hsign : ¬ (d.val = 0x2D ∨ d.val = 0x2B) := by omega
  have hminus : ¬ (d.val = 0x2D) := by omega
  have h4 : ((pre ++ d :: ds ++ rest).drop pre.length).take
      (pre.length + (d :: ds).length - pre.length) = d :: ds := by
    rw [List.append_assoc, List.drop_left' rfl]
    simp
  have hpos : ¬ (pre.length + (d :: ds).length = pre.length) := by
    simp only [List.length_cons]; omega
  have hplus : ¬ (d.val = 0x2B) := by omega
  simp only [h1, h2, hminus, hplus, or_self, if_false, h3, hpos, h4]
  rw [toInt32_mod]
  rfl

theorem JsonMembers.text_eq (ms : JsonMembers) :
    ms.text true = ms.lead ++ ms.body := by
  cases ms with
  | nil => rfl
  | cons wb key wk wc v wv rest => simp [JsonMembers.text, JsonMembers.lead, JsonMembers.body]

theorem JsonMembers.text_false_cons (wb key wk wc : List Byte) (v : JsonValue) (wv : List Byte)
    (rest : JsonMembers) :
    (JsonMembers.cons wb key wk wc v wv rest).text false
      = 0x2C :: wb ++ (JsonMembers.cons wb key wk wc v wv rest).body := by
  simp [JsonMembers.text, JsonMembers.body]

theorem JsonMembers.lead_ws (ms : JsonMembers) (h : ms.wf) : is_ws ms.lead := by
  cases ms with
  | nil => intro c hc; cases hc
  | cons wb key wk wc v wv rest =>
    simp only [JsonMembers.wf] at h
    exact h.1

/-- The text of the members from the first key on starts with a double quote
when there is a member. -/
theorem JsonMembers.body_head (ms : JsonMembers) (rest : List Byte) (c : Byte)
    (h : (ms.body ++ rest).head? = some c) :
    c = 0x22 ∨ (ms.body = [] ∧ rest.head? = some c) := by
  cases ms with
  | nil => right; exact ⟨rfl, by simpa [JsonMembers.body] using h⟩
  | cons wb key wk wc v wv r =>
    left
    simp [JsonMembers.body] at h
    exact h.symm

/-- The text of a value of the accepted form starts with a character that is
no space. -/
theorem JsonValue.text_head (v : JsonValue) (hv : v.wf) (rest : List Byte) (c : Byte)
    (h : (v.text ++ rest).head? = some c) : is_json_space c.val = false := by
  cases v with
  | number ds =>
    simp only [JsonValue.wf] at hv
    obtain ⟨d, ds', rfl⟩ := List.exists_cons_of_ne_nil hv.1
    simp [JsonValue.text] at h
    subst h
    exact isdigit_not_space _ (hv.2 d (List.mem_cons_self _ _))
  | str cs =>
    simp [JsonValue.text] at h
    subst h
    decide
  | object ws ms =>
    simp [JsonValue.text] at h
    subst h
    decide

theorem json_read_value_fuel_succ (text : List Byte) (fuel i : Nat) :
    json_read_value_fuel text (fuel + 1) i =
      match json_skip_spaces text i with
      | .error e => .error e
      | .ok i1 =>
        match char_at text i1 with
        | .error e => .error e
        | .ok c =>
          if c = 0x22 then
            match json_read_string text i1 with
            | .error e => .error e
            | .ok (none, i2) => .ok (none, i2)
            | .ok (some s, i2) => .ok (some (.string s), i2)
          else if isdigit c then
            match json_read_integer text i1 with
            | .error e => .error e
            | .ok (n, i2) => .ok (some (.integer n), i2)
          else if c = 0x7B then json_read_object_fuel text fuel i1
          else .ok (none, i1) := by
  rw [json_read_value_fuel]

theorem json_read_object_fuel_succ (text : List Byte) (fuel i : Nat) :
    json_read_object_fuel text (fuel + 1) i =
      match json_skip_spaces text (i + 1) with
      | .error e => .error e
      | .ok i1 => json_read_object_loop text fuel i1 [] := by
  rw [json_read_object_fuel]

theorem json_read_object_loop_succ (text : List Byte) (fuel i : Nat)
    (pairs : List (List Byte × JsonBejSet)) :
    json_read_object_loop text (fuel + 1) i pairs =
      match char_at text i with
      | .error e => .error e
      | .ok c =>
        if c ≠ 0x7D ∧ c ≠ 0 then
          match json_skip_spaces text i with
          | .error e => .error e
          | .ok i1 =>
            match json_read_string text i1 with
            | .error e => .error e
            | .ok (none, i2) => .ok (none, i2)
            | .ok (some key, i2) =>
              match json_skip_spaces text i2 with
              | .error e => .error e
              | .ok i3 =>
                match char_at text i3 with
                | .error e => .error e
                | .ok c3 =>
                  match json_skip_spaces text (if c3 = 0x3A then i3 + 1 else i3) with
                  | .error e => .error e
                  | .ok i5 =>
                    match json_read_value_fuel text fuel i5 with
                    | .error e => .error e
                    | .ok (none, i6) => .ok (none, i6)
                    | .ok (some value, i6) =>
                      if JSON_PAIR_BUFFER ≤ pairs.length then
                        .error (.pairs_overflow pairs.length)
                      else
                        match json_skip_spaces text i6 with
                        | .error e => .error e
                        | .ok i7 =>
                          match char_at text i7 with
                          | .error e => .error e
                          | .ok c7 =>
                            match (if c7 = 0x2C then json_skip_spaces text (i7 + 1)
                                else .ok i7) with
                            | .error e => .error e
                            | .ok i8 =>
                              json_read_object_loop text fuel i8 (pairs ++ [(key, value)])
        else .ok (some (.set pairs), if c = 0x7D then i + 1 else i) := by
  rw [json_read_object_loop]

/-- The member loop at the end of the members: it stops on a closing brace,
which it steps over, or on the end of the text. -/
theorem json_read_object_loop_close (text pre rest : List Byte) (fuel i : Nat)
    (pairs : List (List Byte × JsonBejSet)) (htext : text = pre ++ rest) (hi : i = pre.length)
    (hrest : rest = [] ∨ ∃ r, rest = 0x7D :: r) :
    json_read_object_loop text (fuel + 1) i pairs
      = .ok (some (.set pairs), i + (if rest = [] then 0 else 1)) := by
  rw [json_read_object_loop_succ]
  rcases hrest with rfl | ⟨r, rfl⟩
  · rw [char_at_end text i (by rw [htext, hi]; simp)]
    simp
  · rw [char_at_at text pre r 0x7D i htext hi]
    have hv : ((0x7D : Byte) : Nat) = 0x7D := rfl
    simp [hv]

mutual
/-- Decoding the text of a value of the accepted form, white space before it,
gives the tree it stands for and leaves the cursor right behind the text. -/
theorem json_read_value_fuel_text : ∀ (v : JsonValue) (text pre lead rest : List Byte)
    (fuel i : Nat), v.wf → is_ws lead → text = pre ++ lead ++ v.text ++ rest →
    i = pre.length →
    (∀ ds, v = .number ds → ∀ c, rest.head? = some c → isdigit c.val = false) →
    v.size ≤ fuel →
    json_read_value_fuel text fuel i = .ok (some v.decoded, i + lead.length + v.text.length)
  | .number ds, text, pre, lead, rest, fuel, i, hwf, hlead, htext, hi, hstop, hfuel => by
    obtain ⟨f, rfl⟩ : ∃ f, fuel = f + 1 := ⟨fuel - 1, by simp [JsonValue.size] at hfuel; omega⟩
    have hskip : json_skip_spaces text i = .ok (i + lead.length) :=
      json_skip_spaces_at text pre lead ((JsonValue.number ds).text ++ rest) i
        (by rw [htext]; simp) hi hlead
        (fun c hc => JsonValue.text_head (.number ds) hwf rest c hc)
    simp only [JsonValue.wf] at hwf
    obtain ⟨d, ds', hds⟩ := List.exists_cons_of_ne_nil hwf.1
    have hdd : isdigit d.val = true := hwf.2 d (by rw [hds]; exact List.mem_cons_self _ _)
    have hdv : 0x30 ≤ d.val ∧ d.val ≤ 0x39 := by simpa [isdigit] using hdd
    have hchar : char_at text (i + lead.length) = .ok d.val :=
      char_at_at text (pre ++ lead) (ds' ++ rest) d _
        (by rw [htext, hds]; simp [JsonValue.text]) (by simp [hi])
    have hint := json_read_integer_at text (pre ++ lead) ds rest (i + lead.length)
      (by rw [htext]; simp [JsonValue.text]) (by simp [hi]) hwf.1 hwf.2 (hstop ds rfl)
    have hq : ¬ (d.val = 0x22) := by omega
    rw [json_read_value_fuel_succ]
    simp only [hskip, hchar, hq, if_false, hdd, if_true, hint, JsonValue.decoded,
      JsonValue.text]
  | .str cs, text, pre, lead, rest, fuel, i, hwf, hlead, htext, hi, _, hfuel => by
    obtain ⟨f, rfl⟩ : ∃ f, fuel = f + 1 := ⟨fuel - 1, by simp [JsonValue.size] at hfuel; omega⟩
    have hskip : json_skip_spaces text i = .ok (i + lead.length) :=
      json_skip_spaces_at text pre lead ((JsonValue.str cs).text ++ rest) i
        (by rw [htext]; simp) hi hlead
        (fun c hc => JsonValue.text_head (.str cs) hwf rest c hc)
    simp only [JsonValue.wf] at hwf
    have hchar : char_at text (i + lead.length) = .ok (0x22 : Byte).val :=
      char_at_at text (pre ++ lead) (cs ++ 0x22 :: rest) 0x22 _
        (by rw [htext]; simp [JsonValue.text]) (by simp [hi])
    have hstr := json_read_string_at text (pre ++ lead) cs rest (i + lead.length)
      (by rw [htext]; simp [JsonValue.text]) (by simp [hi]) hwf
    have hv : ((0x22 : Byte) : Nat) = 0x22 := rfl
    rw [json_read_value_fuel_succ]
    simp only [hskip, hchar, hv, if_true, hstr, JsonValue.decoded, JsonValue.text]
    refine congrArg Except.ok (Prod.ext rfl ?_)
    simp only [List.length_append, List.length_cons, List.length_nil]
    omega
  | .object ws ms, text, pre, lead, rest, fuel, i, hwf, hlead, htext, hi, _, hfuel => by
    obtain ⟨f, rfl⟩ : ∃ f, fuel = f + 2 :=
      ⟨fuel - 2, by simp [JsonValue.size] at hfuel; omega⟩
    have hskip : json_skip_spaces text i = .ok (i + lead.length) :=
      json_skip_spaces_at text pre lead ((JsonValue.object ws ms).text ++ rest) i
        (by rw [htext]; simp) hi hlead
        (fun c hc => JsonValue.text_head (.object ws ms) hwf rest c hc)
    simp only [JsonValue.wf] at hwf
    obtain ⟨hws, hcount, hms⟩ := hwf
    have hchar : char_at text (i + lead.length) = .ok (0x7B : Byte).val :=
      char_at_at text (pre ++ lead) (ws ++ ms.text true ++ 0x7D :: rest) 0x7B _
        (by rw [htext]; simp [JsonValue.text]) (by simp [hi])
    have hskip2 : json_skip_spaces text (i + lead.length + 1)
        = .ok (i + lead.length + 1 + (ws ++ ms.lead).length) :=
      json_skip_spaces_at text (pre ++ lead ++ [0x7B]) (ws ++ ms.lead)
        (ms.body ++ 0x7D :: rest) _
        (by rw [htext]; simp [JsonValue.text, JsonMembers.text_eq]) (by simp [hi]; omega)
        (by
          intro c hc
          rcases List.mem_append.mp hc with h | h
          · exact hws c h
          · exact JsonMembers.lead_ws ms hms c h)
        (by
          intro c hc
          rcases JsonMembers.body_head ms _ c hc with rfl | ⟨_, h⟩
          · decide
          · simp at h
            subst h
            decide)
    have hloop := json_read_object_loop_text ms text (pre ++ lead ++ 0x7B :: ws ++ ms.lead)
      (0x7D :: rest) (f + 0) (i + lead.length + 1 + (ws ++ ms.lead).length) [] hms
      (by simpa using hcount)
      (by rw [htext]; simp [JsonValue.text, JsonMembers.text_eq])
      (by simp [hi]; omega) (Or.inr ⟨rest, rfl⟩) (by simp [JsonValue.size] at hfuel; omega)
    have hv : ((0x7B : Byte) : Nat) = 0x7B := rfl
    have hq : ¬ ((0x7B : Nat) = 0x22) := by decide
    have hd : isdigit 0x7B = false := by decide
    rw [json_read_value_fuel_succ]
    simp only [hskip, hchar, hv, hq, if_false, hd, Bool.false_eq_true, if_true]
    rw [json_read_object_fuel_succ]
    simp only [hskip2]
    rw [Nat.add_zero] at hloop
    rw [hloop]
    refine congrArg Except.ok (Prod.ext (by simp [JsonValue.decoded]) ?_)
    simp only [JsonValue.text, JsonMembers.text_eq, List.length_append, List.length_cons,
      List.length_nil]
    simp
    omega
/-- The member loop, entered on the opening quote of the first key of members
of the accepted form, stores their pairs in text order and ends behind the
closing brace, or on the end of the text when there is none. -/
theorem json_read_object_loop_text : ∀ (ms : JsonMembers) (text pre rest : List Byte)
    (fuel i : Nat) (pairs : List (List Byte × JsonBejSet)), ms.wf →
    pairs.length + ms.count ≤ JSON_PAIR_BUFFER → text = pre ++ ms.body ++ rest →
    i = pre.length → (rest = [] ∨ ∃ r, rest = 0x7D :: r) → ms.size ≤ fuel →
    json_read_object_loop text fuel i pairs
      = .ok (some (.set (pairs ++ ms.pairs)),
          i + ms.body.length + (if rest = [] then 0 else 1))
  | .nil, text, pre, rest, fuel, i, pairs, _, _, htext, hi, hrest, hfuel => by
    obtain ⟨f, rfl⟩ : ∃ f, fuel = f + 1 :=
      ⟨fuel - 1, by simp [JsonMembers.size] at hfuel; omega⟩
    rw [json_read_object_loop_close text pre rest f i pairs
      (by rw [htext]; simp [JsonMembers.body]) hi hrest]
    simp [JsonMembers.pairs, JsonMembers.body]
  | .cons wb key wk wc v wv r, text, pre, rest, fuel, i, pairs, hwf, hcap, htext, hi, hrest,
      hfuel => by
    obtain ⟨g, rfl⟩ : ∃ g, fuel = g + 1 :=
      ⟨fuel - 1, by simp [JsonMembers.size] at hfuel; omega⟩
    simp only [JsonMembers.size] at hfuel
    simp only [JsonMembers.wf] at hwf
    obtain ⟨_, hkey, hwk, hwc, hv, hwv, hr⟩ := hwf
    simp only [JsonMembers.count] at hcap
    have h20 : JSON_PAIR_BUFFER = 20 := rfl
    have hbody : (JsonMembers.cons wb key wk wc v wv r).body
        = 0x22 :: key ++ 0x22 :: wk ++ 0x3A :: wc ++ v.text ++ wv ++ r.text false := rfl
    rw [hbody] at htext
    -- the opening quote of the key
    have hc0 : char_at text i = .ok (0x22 : Byte).val :=
      char_at_at text pre (key ++ 0x22 :: wk ++ 0x3A :: wc ++ v.text ++ wv ++ r.text false ++ rest)
        0x22 i (by rw [htext]; simp) hi
    have hs0 : json_skip_spaces text i = .ok (i + ([] : List Byte).length) :=
      json_skip_spaces_at text pre []
        (0x22 :: key ++ 0x22 :: wk ++ 0x3A :: wc ++ v.text ++ wv ++ r.text false ++ rest) i
        (by rw [htext]; simp) hi (fun c hc => by cases hc)
        (by intro c hc; simp at hc; subst hc; decide)
    have hk : json_read_string text i = .ok (some key, i + key.length + 2) :=
      json_read_string_at text pre key
        (wk ++ 0x3A :: wc ++ v.text ++ wv ++ r.text false ++ rest) i
        (by rw [htext]; simp) hi hkey
    have hs1 : json_skip_spaces text (i + key.length + 2)
        = .ok (i + key.length + 2 + wk.length) :=
      json_skip_spaces_at text (pre ++ 0x22 :: key ++ [0x22]) wk
        (0x3A :: wc ++ v.text ++ wv ++ r.text false ++ rest) _
        (by rw [htext]; simp) (by simp [hi]; omega) hwk
        (by intro c hc; simp at hc; subst hc; decide)
    have hc3 : char_at text (i + key.length + 2 + wk.length) = .ok (0x3A : Byte).val :=
      char_at_at text (pre ++ 0x22 :: key ++ 0x22 :: wk)
        (wc ++ v.text ++ wv ++ r.text false ++ rest) 0x3A _
        (by rw [htext]; simp) (by simp [hi]; omega)
    have hs5 : json_skip_spaces text (i + key.length + 2 + wk.length + 1)
        = .ok (i + key.length + 2 + wk.length + 1 + wc.length) :=
      json_skip_spaces_at text (pre ++ 0x22 :: key ++ 0x22 :: wk ++ [0x3A]) wc
        (v.text ++ (wv ++ r.text false ++ rest)) _
        (by rw [htext]; simp) (by simp [hi]; omega) hwc
        (fun c hc => JsonValue.text_head v hv _ c hc)
    -- what follows the value is white space, a comma, a closing brace or nothing
    have htail : ∀ c, (r.text false ++ rest).head? = some c →
        c = 0x2C ∨ c = 0x7D := by
      intro c hc
      cases r with
      | nil =>
        simp only [JsonMembers.text, List.nil_append] at hc
        rcases hrest with rfl | ⟨r', rfl⟩
        · cases hc
        · simp at hc; exact Or.inr hc.symm
      | cons wb' key' wk' wc' v' wv' r' =>
        rw [JsonMembers.text_false_cons] at hc
        simp at hc
        exact Or.inl hc.symm
    have hvalue := json_read_value_fuel_text v text
      (pre ++ 0x22 :: key ++ 0x22 :: wk ++ 0x3A :: wc) [] (wv ++ r.text false ++ rest) g
      (i + key.length + 2 + wk.length + 1 + wc.length) hv (fun c hc => by cases hc)
      (by rw [htext]; simp) (by simp [hi]; omega)
      (by
        intro ds _ c hc
        cases wv with
        | nil =>
          simp only [List.nil_append] at hc
          rcases htail c hc with rfl | rfl <;> decide
        | cons w wv' =>
          simp at hc
          subst hc
          have hw := hwv w (List.mem_cons_self _ _)
          simp only [is_json_space, Bool.or_eq_true, beq_iff_eq] at hw
          simp only [isdigit, Bool.and_eq_false_iff, decide_eq_false_iff_not]
          omega)
      (by omega)
    simp only [List.length_nil, Nat.add_zero] at hvalue hs0
    have hs7 : json_skip_spaces text
        (i + key.length + 2 + wk.length + 1 + wc.length + v.text.length)
        = .ok (i + key.length + 2 + wk.length + 1 + wc.length + v.text.length + wv.length) :=
      json_skip_spaces_at text (pre ++ 0x22 :: key ++ 0x22 :: wk ++ 0x3A :: wc ++ v.text) wv
        (r.text false ++ rest) _
        (by rw [htext]; simp) (by simp [hi]; omega) hwv
        (by intro c hc; rcases htail c hc with rfl | rfl <;> decide)
    have hcapn : ¬ (JSON_PAIR_BUFFER ≤ pairs.length) := by omega
    have hv22 : ((0x22 : Byte) : Nat) = 0x22 := rfl
    have hv3A : ((0x3A : Byte) : Nat) = 0x3A := rfl
    have hne0 : (0x22 : Nat) ≠ 0x7D ∧ (0x22 : Nat) ≠ 0 := by decide
    rw [json_read_object_loop_succ]
    simp only [hc0, hv22, hne0, if_true, hs0, hk, hs1, hc3, hv3A, hs5, hvalue, hcapn,
      if_false, hs7]
    cases r with
    | nil =>
      have hc7 : ∃ c7, char_at text
          (i + key.length + 2 + wk.length + 1 + wc.length + v.text.length + wv.length)
          = .ok c7 ∧ c7 ≠ 0x2C := by
        rcases hrest with rfl | ⟨r', rfl⟩
        · exact ⟨0, char_at_end text _ (by rw [htext]; simp [JsonMembers.text, hi]; omega),
            by decide⟩
        · exact ⟨0x7D, char_at_at text
            (pre ++ 0x22 :: key ++ 0x22 :: wk ++ 0x3A :: wc ++ v.text ++ wv) r' 0x7D _
            (by rw [htext]; simp [JsonMembers.text]) (by simp [hi]; omega), by decide⟩
      obtain ⟨c7, hc7, hne7⟩ := hc7
      simp only [hc7, hne7, if_false]
      rw [json_read_object_loop_text .nil text
        (pre ++ 0x22 :: key ++ 0x22 :: wk ++ 0x3A :: wc ++ v.text ++ wv) rest g _ _ trivial
        (by simp [JsonMembers.count]; omega)
        (by rw [htext]; simp [JsonMembers.text, JsonMembers.body])
        (by simp [hi]; omega) hrest (by omega)]
      refine congrArg Except.ok (Prod.ext (by simp [JsonMembers.pairs]) ?_)
      simp only [JsonMembers.body, JsonMembers.text, List.length_append, List.length_cons,
        List.length_nil]
      omega
    | cons wb' key' wk' wc' v' wv' r' =>
      have hc7 : char_at text
          (i + key.length + 2 + wk.length + 1 + wc.length + v.text.length + wv.length)
          = .ok (0x2C : Byte).val :=
        char_at_at text (pre ++ 0x22 :: key ++ 0x22 :: wk ++ 0x3A :: wc ++ v.text ++ wv)
          (wb' ++ (JsonMembers.cons wb' key' wk' wc' v' wv' r').body ++ rest) 0x2C _
          (by rw [htext, JsonMembers.text_false_cons]; simp) (by simp [hi]; omega)
      have hwb' : is_ws wb' := by
        simp only [JsonMembers.wf] at hr
        exact hr.1
      have hs8 : json_skip_spaces text
          (i + key.length + 2 + wk.length + 1 + wc.length + v.text.length + wv.length + 1)
          = .ok (i + key.length + 2 + wk.length + 1 + wc.length + v.text.length + wv.length
              + 1 + wb'.length) :=
        json_skip_spaces_at text
          (pre ++ 0x22 :: key ++ 0x22 :: wk ++ 0x3A :: wc ++ v.text ++ wv ++ [0x2C]) wb'
          ((JsonMembers.cons wb' key' wk' wc' v' wv' r').body ++ rest) _
          (by rw [htext, JsonMembers.text_false_cons]; simp) (by simp [hi]; omega) hwb'
          (by intro c hc; simp [JsonMembers.body] at hc; subst hc; decide)
      have hv2C : ((0x2C : Byte) : Nat) = 0x2C := rfl
      simp only [hc7, hv2C, if_true, hs8]
      rw [json_read_object_loop_text (.cons wb' key' wk' wc' v' wv' r') text
        (pre ++ 0x22 :: key ++ 0x22 :: wk ++ 0x3A :: wc ++ v.text ++ wv ++ 0x2C :: wb') rest g
        _ _ hr (by simp [JsonMembers.count] at hcap ⊢; omega)
        (by rw [htext, JsonMembers.text_false_cons]; simp)
        (by simp [hi]; omega) hrest (by omega)]
      refine congrArg Except.ok (Prod.ext (by simp [JsonMembers.pairs]) ?_)
      rw [hbody]
      simp only [JsonMembers.text_false_cons, List.length_append, List.length_cons]
      omega
end

mutual
theorem JsonValue.size_le_text : ∀ v : JsonValue, v.size ≤ v.text.length + 1
  | .number _ => by simp [JsonValue.size]
  | .str _ => by simp [JsonValue.size]
  | .object ws ms => by
    have := JsonMembers.size_le_run ms true
    simp only [JsonValue.size, JsonValue.text, List.length_append, List.length_cons,
      List.length_nil]
    omega
theorem JsonMembers.size_le_run : ∀ (ms : JsonMembers) (first : Bool),
    ms.size ≤ (ms.text first).length + 1
  | .nil, _ => by simp [JsonMembers.size]
  | .cons wb key wk wc v wv r, first => by
    have h1 := JsonValue.size_le_text v
    have h2 := JsonMembers.size_le_run r false
    simp only [JsonMembers.size, JsonMembers.text, List.length_append, List.length_cons]
    omega
end

theorem JsonMembers.pairs_length : ∀ ms : JsonMembers, ms.pairs.length = ms.count
  | .nil => rfl
  | .cons _ _ _ _ _ _ r => by
    simp [JsonMembers.pairs, JsonMembers.count, JsonMembers.pairs_length r]

theorem JsonMembers.pairs_keys : ∀ ms : JsonMembers, ms.pairs.map (fun p => p.1) = ms.keys
  | .nil => rfl
  | .cons _ _ _ _ _ _ r => by
    simp [JsonMembers.pairs, JsonMembers.keys, JsonMembers.pairs_keys r]

/-! ## The text decoder on objects -/

/-- A run of digits that writes a number below `2 ^ 31` is decoded to that
number. -/
theorem decoded_integer_small (digits : List Byte) (h : decimal digits < 2 ^ 31) :
    decoded_integer digits = (decimal digits : Int) := by
  have hL : LONG_MAX = 2 ^ 63 - 1 := rfl
  have hmin : min (decimal digits) LONG_MAX = decimal digits := by
    apply Nat.min_eq_left
    omega
  have hmod : decimal digits % 2 ^ 32 = decimal digits := Nat.mod_eq_of_lt (by omega)
  unfold decoded_integer toInt32
  rw [hmin, hmod, if_pos h]

/-- Claim C15.  For every object text of the accepted form (`n ≤ 20` members
`"key": value` in every object, keys and string values free of double quotes,
values being non-negative decimal integers, strings or objects of the same
kind, commas between the members and any amount of space, tab and newline
around the tokens), with white space before it and anything behind it,
`json_read_value` returns the Set of the `n` pairs in text order, the keys
being the key texts and the values the decoded values, and leaves the cursor
right behind the closing brace.  A run of digits writing a number below
`2 ^ 31` is decoded to that number. -/
theorem json_read_value_object (pre lead rest ws : List Byte) (ms : JsonMembers)
    (hwf : (JsonValue.object ws ms).wf) (hlead : is_ws lead) :
    json_read_value (pre ++ lead ++ (JsonValue.object ws ms).text ++ rest) pre.length
      = .ok (some (.set ms.pairs),
          pre.length + lead.length + (JsonValue.object ws ms).text.length) ∧
    ms.pairs.length = ms.count ∧ ms.pairs.map (fun p => p.1) = ms.keys ∧
    (∀ digits : List Byte, decimal digits < 2 ^ 31 →
      (JsonValue.number digits).decoded = .integer (decimal digits : Int)) := by
  refine ⟨?_, JsonMembers.pairs_length ms, JsonMembers.pairs_keys ms,
    fun digits h => by rw [JsonValue.decoded, decoded_integer_small digits h]⟩
  unfold json_read_value
  have hsize := JsonValue.size_le_text (.object ws ms)
  exact json_read_value_fuel_text (.object ws ms) _ pre lead rest _ pre.length hwf hlead rfl rfl
    (fun ds h => by cases h)
    (by simp only [List.length_append]; omega)

/-- Claim C19 as amended.  For every text that holds an opening brace and
`k ≤ 20` (`PAIR_BUFFER` of json_parse.c) complete members of the accepted form
and then ends, no closing brace written, `json_read_object`, entered on the
opening brace, returns the Set of those `k` pairs and leaves the cursor on the
terminating NUL. -/
theorem json_read_object_unclosed (pre ws : List Byte) (ms : JsonMembers)
    (hws : is_ws ws) (hcount : ms.count ≤ JSON_PAIR_BUFFER) (hms : ms.wf) :
    json_read_object (pre ++ 0x7B :: ws ++ ms.text true) pre.length
      = .ok (some (.set ms.pairs), (pre ++ 0x7B :: ws ++ ms.text true).length) ∧
    ms.pairs.length = ms.count ∧
    char_at (pre ++ 0x7B :: ws ++ ms.text true) (pre ++ 0x7B :: ws ++ ms.text true).length
      = .ok 0 := by
  refine ⟨?_, JsonMembers.pairs_length ms, char_at_end _ _ rfl⟩
  unfold json_read_object
  have hsize := JsonMembers.size_le_run ms true
  rw [show 2 * (pre ++ 0x7B :: ws ++ ms.text true).length + 3
    = (2 * (pre ++ 0x7B :: ws ++ ms.text true).length + 2) + 1 by omega,
    json_read_object_fuel_succ]
  have hskip : json_skip_spaces (pre ++ 0x7B :: ws ++ ms.text true) (pre.length + 1)
      = .ok (pre.length + 1 + (ws ++ ms.lead).length) :=
    json_skip_spaces_at _ (pre ++ [0x7B]) (ws ++ ms.lead) (ms.body ++ []) _
      (by simp [JsonMembers.text_eq]) (by simp)
      (by
        intro c hc
        rcases List.mem_append.mp hc with h | h
        · exact hws c h
        · exact JsonMembers.lead_ws ms hms c h)
      (by
        intro c hc
        rcases JsonMembers.body_head ms _ c hc with rfl | ⟨_, h⟩
        · decide
        · cases h)
  simp only [hskip]
  rw [json_read_object_loop_text ms _ (pre ++ 0x7B :: ws ++ ms.lead) [] _ _ [] hms
    (by simpa using hcount) (by simp [JsonMembers.text_eq]) (by simp; omega) (Or.inl rfl)
    (by simp only [List.length_append, List.length_cons] at hsize ⊢; omega)]
  refine congrArg Except.ok (Prod.ext (by simp) ?_)
  simp [JsonMembers.text_eq]
  omega

/-- Claim C15 on the two documented texts: the object with the members `a`
and `b`, the second a nested object with the member `c`, and the empty
object. -/
theorem json_read_value_object_witness :
    json_read_value (bytes "\x7b\"a\": 1, \"b\": \x7b\"c\": \"x\"\x7d\x7d") 0
      = .ok (some (.set [(bytes "a", .integer 1),
          (bytes "b", .set [(bytes "c", .string (bytes "x"))])]), 25) ∧
    json_read_value (bytes "\x7b\x7d") 0 = .ok (some (.set []), 2) := by
  have h1 := (json_read_value_object [] [] [] []
    (.cons [] [0x61] [] [0x20] (.number [0x31]) []
      (.cons [0x20] [0x62] [] [0x20]
        (.object [] (.cons [] [0x63] [] [0x20] (.str [0x78]) [] .nil)) [] .nil))
    (by
      simp only [JsonValue.wf, JsonMembers.wf, JsonMembers.count, is_ws, is_plain]
      simp
      decide)
    (fun c hc => by cases hc)).1
  have h2 := (json_read_value_object [] [] [] [] .nil
    (by
      simp only [JsonValue.wf, JsonMembers.wf, JsonMembers.count, is_ws]
      simp)
    (fun c hc => by cases hc)).1
  exact ⟨h1.trans (by rfl), h2.trans (by rfl)⟩

/-- Claim C19 as amended, on the documented text, an opening brace and the member `a`
without a closing brace: a Set with 1 member, the cursor on the NUL at index
7. -/
theorem json_read_object_unclosed_witness :
    json_read_object (bytes "\x7b\"a\": 1") 0
      = .ok (some (.set [(bytes "a", .integer 1)]), 7) ∧
    char_at (bytes "\x7b\"a\": 1") 7 = .ok 0 := by
  have h := json_read_object_unclosed [] []
    (.cons [] [0x61] [] [0x20] (.number [0x31]) [] .nil)
    (fun c hc => by cases hc) (by decide)
    (by
      simp only [JsonValue.wf, JsonMembers.wf, is_ws, is_plain]
      simp
      decide)
  exact ⟨h.1.trans (by rfl), h.2.2⟩

/-! ## The fuel of the text decoder is enough -/

theorem char_at_ne_fuel (text : List Byte) (i : Nat) :
    char_at text i ≠ .error .out_of_fuel := by
  unfold char_at
  cases text[i]? with
  | none =>
    simp only
    by_cases hi : i = text.length <;> simp [hi]
  | some c => simp

theorem char_at_ok_le (text : List Byte) (i c : Nat) (h : char_at text i = .ok c) :
    i ≤ text.length ∧ (c ≠ 0 → i < text.length) := by
  unfold char_at at h
  cases hg : text[i]? with
  | none =>
    simp only [hg] at h
    split at h
    · rename_i heq
      simp only [Except.ok.injEq] at h
      exact ⟨by omega, fun hc => absurd h.symm hc⟩
    · cases h
  | some b =>
    have hlt : i < text.length := by
      by_contra hge
      rw [List.getElem?_eq_none (Nat.le_of_not_lt hge)] at hg
      cases hg
    exact ⟨by omega, fun _ => hlt⟩

theorem scan_while_ge (p : Nat → Bool) (text : List Byte) :
    ∀ (fuel i j : Nat), scan_while p text fuel i = .ok j → i ≤ j ∧ j ≤ text.length := by
  intro fuel
  induction fuel with
  | zero => intro i j h; simp [scan_while] at h
  | succ f ih =>
    intro i j h
    rw [scan_while] at h
    cases hc : char_at text i with
    | error e => simp [hc] at h
    | ok c =>
      simp only [hc] at h
      split at h
      · have := ih _ _ h
        omega
      · simp only [Except.ok.injEq] at h
        have := (char_at_ok_le text i c hc).1
        omega

theorem scan_while_ne_fuel (p : Nat → Bool) (hp0 : p 0 = false) (text : List Byte) :
    ∀ (fuel i : Nat), 1 ≤ fuel → (i ≤ text.length → text.length + 1 ≤ fuel + i) →
      scan_while p text fuel i ≠ .error .out_of_fuel := by
  intro fuel
  induction fuel with
  | zero => intro i h; omega
  | succ f ih =>
    intro i _ hf
    rw [scan_while]
    cases hc : char_at text i with
    | error e =>
      intro h
      simp only [Except.error.injEq] at h
      exact char_at_ne_fuel text i (by rw [hc, h])
    | ok c =>
      simp only
      split
      · rename_i hpc
        have hc0 : c ≠ 0 := by
          intro h0
          rw [h0, hp0] at hpc
          cases hpc
        have hlt := (char_at_ok_le text i c hc).2 hc0
        exact ih (i + 1) (by omega) (by omega)
      · simp

theorem json_skip_spaces_ne_fuel (text : List Byte) (i : Nat) :
    json_skip_spaces text i ≠ .error .out_of_fuel :=
  scan_while_ne_fuel is_json_space (by decide) text _ i (by omega) (by omega)

theorem json_skip_spaces_ge (text : List Byte) (i j : Nat)
    (h : json_skip_spaces text i = .ok j) : i ≤ j ∧ j ≤ text.length :=
  scan_while_ge is_json_space text _ i j h

theorem json_read_string_ne_fuel (text : List Byte) (i : Nat) :
    json_read_string text i ≠ .error .out_of_fuel := by
  unfold json_read_string
  cases hc : char_at text i with
  | error e =>
    intro h
    simp only [Except.error.injEq] at h
    exact char_at_ne_fuel text i (by rw [hc, h])
  | ok c =>
    simp only
    split
    · simp
    · cases hs : scan_while (fun c => c != 0x22 && c != 0) text (text.length + 1) (i + 1) with
      | error e =>
        intro h
        simp only [Except.error.injEq] at h
        exact scan_while_ne_fuel (fun c => c != 0x22 && c != 0) (by decide) text
          (text.length + 1) (i + 1) (by omega) (by omega) (by rw [hs, h])
      | ok j =>
        simp only
        cases hc' : char_at text j with
        | error e =>
          intro h
          simp only [Except.error.injEq] at h
          exact char_at_ne_fuel text j (by rw [hc', h])
        | ok c' =>
          simp only
          split <;> simp

/-- A string that was read takes at least its two quotes. -/
theorem json_read_string_some (text : List Byte) (i j : Nat) (key : List Byte)
    (h : json_read_string text i = .ok (some key, j)) : i + 2 ≤ j ∧ j ≤ text.length := by
  unfold json_read_string at h
  cases hc : char_at text i with
  | error e => simp [hc] at h
  | ok c =>
    simp only [hc] at h
    split at h
    · simp at h
    · cases hs : scan_while (fun c => c != 0x22 && c != 0) text (text.length + 1) (i + 1) with
      | error e => simp [hs] at h
      | ok k =>
        simp only [hs] at h
        cases hc' : char_at text k with
        | error e => simp [hc'] at h
        | ok c' =>
          simp only [hc'] at h
          split at h
          · simp at h
          · rename_i hq
            simp only [Except.ok.injEq, Prod.mk.injEq] at h
            have hk := scan_while_ge _ text _ _ _ hs
            have hlt := (char_at_ok_le text k c' hc').2
              (by intro h0; apply hq; rw [h0]; decide)
            omega

theorem json_read_string_ge (text : List Byte) (i j : Nat) (r : Option (List Byte))
    (h : json_read_string text i = .ok (r, j)) : i ≤ j := by
  unfold json_read_string at h
  cases hc : char_at text i with
  | error e => simp [hc] at h
  | ok c =>
    simp only [hc] at h
    split at h
    · simp only [Except.ok.injEq, Prod.mk.injEq] at h; omega
    · cases hs : scan_while (fun c => c != 0x22 && c != 0) text (text.length + 1) (i + 1) with
      | error e => simp [hs] at h
      | ok k =>
        simp only [hs] at h
        have hk := scan_while_ge _ text _ _ _ hs
        cases hc' : char_at text k with
        | error e => simp [hc'] at h
        | ok c' =>
          simp only [hc'] at h
          split at h <;> simp only [Except.ok.injEq, Prod.mk.injEq] at h <;> omega

theorem strtol_ne_fuel (text : List Byte) (i : Nat) :
    strtol text i ≠ .error .out_of_fuel := by
  unfold strtol
  cases hs : scan_while isspace text (text.length + 1) i with
  | error e =>
    intro h
    simp only [Except.error.injEq] at h
    exact scan_while_ne_fuel isspace (by decide) text (text.length + 1) i (by omega)
      (by omega) (by rw [hs, h])
  | ok i1 =>
    simp only
    cases hc : char_at text i1 with
    | error e =>
      intro h
      simp only [Except.error.injEq] at h
      exact char_at_ne_fuel text i1 (by rw [hc, h])
    | ok c =>
      simp only
      generalize (if c = 0x2D ∨ c = 0x2B then i1 + 1 else i1) = i2
      cases hd : scan_while isdigit text (text.length + 1) i2 with
      | error e =>
        intro h
        simp only [Except.error.injEq] at h
        exact scan_while_ne_fuel isdigit (by decide) text (text.length + 1) _ (by omega)
          (by omega) (by rw [hd, h])
      | ok i3 =>
        simp only
        by_cases h32 : i3 = i2
        · simp [h32]
        · by_cases hm : c = 0x2D <;> simp [h32, hm]

theorem strtol_ge (text : List Byte) (i j : Nat) (n : Int) (h : strtol text i = .ok (n, j)) :
    i ≤ j := by
  unfold strtol at h
  cases hs : scan_while isspace text (text.length + 1) i with
  | error e => simp [hs] at h
  | ok i1 =>
    simp only [hs] at h
    have h1 := scan_while_ge _ text _ _ _ hs
    cases hc : char_at text i1 with
    | error e => simp [hc] at h
    | ok c =>
      simp only [hc] at h
      have h2 : i1 ≤ (if c = 0x2D ∨ c = 0x2B then i1 + 1 else i1) := by
        split <;> omega
      generalize (if c = 0x2D ∨ c = 0x2B then i1 + 1 else i1) = i2 at h h2
      cases hd : scan_while isdigit text (text.length + 1) i2 with
      | error e => simp [hd] at h
      | ok i3 =>
        simp only [hd] at h
        have h3 := scan_while_ge _ text _ _ _ hd
        by_cases h32 : i3 = i2
        · simp only [h32, if_true, Except.ok.injEq, Prod.mk.injEq] at h
          omega
        · by_cases hm : c = 0x2D
          · simp only [h32, if_false, hm, if_true, Except.ok.injEq, Prod.mk.injEq] at h
            omega
          · simp only [h32, if_false, hm, Except.ok.injEq, Prod.mk.injEq] at h
            omega

theorem json_read_integer_ne_fuel (text : List Byte) (i : Nat) :
    json_read_integer text i ≠ .error .out_of_fuel := by
  unfold json_read_integer
  cases hs : strtol text i with
  | error e =>
    intro h
    simp only [Except.error.injEq] at h
    exact strtol_ne_fuel text i (by rw [hs, h])
  | ok p =>
    obtain ⟨n, j⟩ := p
    simp only
    split <;> simp

theorem json_read_integer_ge (text : List Byte) (i j : Nat) (n : Int)
    (h : json_read_integer text i = .ok (n, j)) : i ≤ j := by
  unfold json_read_integer at h
  cases hs : strtol text i with
  | error e => simp [hs] at h
  | ok p =>
    obtain ⟨m, k⟩ := p
    simp only [hs] at h
    have := strtol_ge text i k m hs
    split at h <;> simp only [Except.ok.injEq, Prod.mk.injEq] at h <;> omega

/-- The text decoder never runs out of fuel when the fuel covers twice the
characters left from the cursor on, and a cursor it returns is never before
the one it was entered with. -/
theorem json_fuel_enough (text : List Byte) : ∀ fuel : Nat,
    (∀ i : Nat,
      (2 * (text.length + 1 - i) + 1 ≤ fuel →
        json_read_value_fuel text fuel i ≠ .error .out_of_fuel) ∧
      (∀ r j, json_read_value_fuel text fuel i = .ok (r, j) → i ≤ j)) ∧
    (∀ i : Nat,
      (2 * (text.length + 1 - i) ≤ fuel → 1 ≤ fuel →
        json_read_object_fuel text fuel i ≠ .error .out_of_fuel) ∧
      (∀ r j, json_read_object_fuel text fuel i = .ok (r, j) → i ≤ j)) ∧
    (∀ (i : Nat) (pairs : List (List Byte × JsonBejSet)),
      (2 * (text.length + 1 - i) + 1 ≤ fuel →
        json_read_object_loop text fuel i pairs ≠ .error .out_of_fuel) ∧
      (∀ r j, json_read_object_loop text fuel i pairs = .ok (r, j) → i ≤ j)) := by
  intro fuel
  induction fuel with
  | zero =>
    refine ⟨fun i => ⟨fun h => by omega, fun r j h => ?_⟩,
      fun i => ⟨fun _ h => by omega, fun r j h => ?_⟩,
      fun i pairs => ⟨fun h => by omega, fun r j h => ?_⟩⟩
    · simp [json_read_value_fuel] at h
    · simp [json_read_object_fuel] at h
    · simp [json_read_object_loop] at h
  | succ fuel ih =>
    obtain ⟨ihv, iho, ihl⟩ := ih
    refine ⟨fun i => ?_, fun i => ?_, fun i pairs => ?_⟩
    · rw [json_read_value_fuel_succ]
      split
      · next e he =>
        exact ⟨fun _ h => json_skip_spaces_ne_fuel text i (by cases h; exact he),
          fun r j h => by cases h⟩
      · next i1 h1 =>
        have g1 := json_skip_spaces_ge text i i1 h1
        split
        · next e he =>
          exact ⟨fun _ h => char_at_ne_fuel text i1 (by cases h; exact he), fun r j h => by cases h⟩
        · next c hc =>
          have gc := char_at_ok_le text i1 c hc
          split
          · split
            · next e he =>
              exact ⟨fun _ h => json_read_string_ne_fuel text i1 (by cases h; exact he),
                fun r j h => by cases h⟩
            · next i2 h2 =>
              have g2 := json_read_string_ge text i1 i2 none h2
              exact ⟨fun _ h => (by cases h), fun r j h => by cases h; omega⟩
            · next s i2 h2 =>
              have g2 := json_read_string_ge text i1 i2 (some s) h2
              exact ⟨fun _ h => (by cases h), fun r j h => by cases h; omega⟩
          · split
            · split
              · next e he =>
                exact ⟨fun _ h => json_read_integer_ne_fuel text i1 (by cases h; exact he),
                  fun r j h => by cases h⟩
              · next n i2 h2 =>
                have g2 := json_read_integer_ge text i1 i2 n h2
                exact ⟨fun _ h => (by cases h), fun r j h => by cases h; omega⟩
            · split
              · next hb =>
                have hlt : i1 < text.length := gc.2 (by omega)
                refine ⟨fun hf => (iho i1).1 (by omega) (by omega), fun r j h => ?_⟩
                have := (iho i1).2 r j h
                omega
              · exact ⟨fun _ h => (by cases h), fun r j h => by cases h; omega⟩
    · rw [json_read_object_fuel_succ]
      split
      · next e he =>
        exact ⟨fun _ _ h => json_skip_spaces_ne_fuel text (i + 1) (by cases h; exact he),
          fun r j h => by cases h⟩
      · next i1 h1 =>
        have g1 := json_skip_spaces_ge text (i + 1) i1 h1
        refine ⟨fun hf _ => (ihl i1 []).1 (by omega), fun r j h => ?_⟩
        have := (ihl i1 []).2 r j h
        omega
    · rw [json_read_object_loop_succ]
      split
      · next e he =>
        exact ⟨fun _ h => char_at_ne_fuel text i (by cases h; exact he), fun r j h => by cases h⟩
      · next c hc =>
        have gc := char_at_ok_le text i c hc
        split
        · next hcond =>
          have hlt : i < text.length := gc.2 hcond.2
          split
          · next e he =>
            exact ⟨fun _ h => json_skip_spaces_ne_fuel text i (by cases h; exact he),
              fun r j h => by cases h⟩
          · next i1 h1 =>
            have g1 := json_skip_spaces_ge text i i1 h1
            split
            · next e he =>
              exact ⟨fun _ h => json_read_string_ne_fuel text i1 (by cases h; exact he),
                fun r j h => by cases h⟩
            · next i2 h2 =>
              have g2 := json_read_string_ge text i1 i2 none h2
              exact ⟨fun _ h => (by cases h), fun r j h => by cases h; omega⟩
            · next key i2 h2 =>
              have g2 := json_read_string_some text i1 i2 key h2
              split
              · next e he =>
                exact ⟨fun _ h => json_skip_spaces_ne_fuel text i2 (by cases h; exact he),
                  fun r j h => by cases h⟩
              · next i3 h3 =>
                have g3 := json_skip_spaces_ge text i2 i3 h3
                split
                · next e he =>
                  exact ⟨fun _ h => char_at_ne_fuel text i3 (by cases h; exact he),
                    fun r j h => by cases h⟩
                · next c3 hc3 =>
                  split
                  · next e he =>
                    exact ⟨fun _ h => json_skip_spaces_ne_fuel text _ (by cases h; exact he),
                      fun r j h => by cases h⟩
                  · next i5 h5 =>
                    have g5 := json_skip_spaces_ge text _ i5 h5
                    have g5' : i3 ≤ i5 := by
                      have : i3 ≤ (if c3 = 0x3A then i3 + 1 else i3) := by split <;> omega
                      omega
                    split
                    · next e he =>
                      exact ⟨fun hf h => (ihv i5).1 (by omega) (by cases h; exact he),
                        fun r j h => by cases h⟩
                    · next i6 h6 =>
                      have g6 := (ihv i5).2 none i6 h6
                      exact ⟨fun _ h => (by cases h), fun r j h => by cases h; omega⟩
                    · next value i6 h6 =>
                      have g6 := (ihv i5).2 (some value) i6 h6
                      split
                      · exact ⟨fun _ h => (by cases h), fun r j h => by cases h⟩
                      · split
                        · next e he =>
                          exact ⟨fun _ h => json_skip_spaces_ne_fuel text i6 (by cases h; exact he),
                            fun r j h => by cases h⟩
                        · next i7 h7 =>
                          have g7 := json_skip_spaces_ge text i6 i7 h7
                          split
                          · next e he =>
                            exact ⟨fun _ h => char_at_ne_fuel text i7 (by cases h; exact he),
                              fun r j h => by cases h⟩
                          · next c7 hc7 =>
                            split
                            · next e he =>
                              refine ⟨fun _ h => ?_, fun r j h => by cases h⟩
                              cases h
                              split at he
                              · exact json_skip_spaces_ne_fuel text _ he
                              · cases he
                            · next i8 h8 =>
                              have g8 : i7 ≤ i8 := by
                                split at h8
                                · have := json_skip_spaces_ge text _ i8 h8
                                  omega
                                · cases h8
                                  omega
                              refine ⟨fun hf => (ihl i8 _).1 (by omega), fun r j h => ?_⟩
                              have := (ihl i8 _).2 r j h
                              omega
        · exact ⟨fun _ h => (by cases h), fun r j h => by cases h; split <;> omega⟩

/-- The default fuel of `json_read_value` and `json_read_object` is enough on
every text and from every cursor: neither ever reports that the fuel ran
out. -/
theorem json_read_value_fuel_total (text : List Byte) (i : Nat) :
    json_read_value text i ≠ .error .out_of_fuel ∧
    json_read_object text i ≠ .error .out_of_fuel := by
  obtain ⟨hv, ho, _⟩ := json_fuel_enough text (2 * text.length + 3)
  exact ⟨(hv i).1 (by omega), (ho i).1 (by omega) (by omega)⟩

/-! ## A text that starts no value -/

/-- The function `json_skip_spaces` on any text: the cursor moves over the
spaces, tabs and newlines that stand in a row and stops on the first character
that is none of them. -/
theorem json_skip_spaces_eq (text : List Byte) (i : Nat) (hi : i ≤ text.length) :
    json_skip_spaces text i = .ok (i + leading_space text i) ∧
    char_at text (i + leading_space text i) = .ok (first_char_after_space text i) := by
  have htext : text = text.take i ++
      (text.drop i).takeWhile (fun b => is_json_space b.val) ++
      (text.drop i).dropWhile (fun b => is_json_space b.val) := by
    rw [List.append_assoc, List.takeWhile_append_dropWhile, List.take_append_drop]
  have hplen : (text.take i).length = i := by
    rw [List.length_take]; omega
  have hws : is_ws ((text.drop i).takeWhile (fun b => is_json_space b.val)) := by
    intro c hc
    have hp := List.mem_takeWhile_imp hc
    exact hp
  have hstop : ∀ c, ((text.drop i).dropWhile (fun b => is_json_space b.val)).head? = some c →
      is_json_space c.val = false := by
    intro c hc
    have := List.head?_dropWhile_not (fun b : Byte => is_json_space b.val) (text.drop i)
    rw [hc] at this
    simpa using this
  refine ⟨json_skip_spaces_at text _ _ _ i htext hplen.symm hws hstop, ?_⟩
  unfold first_char_after_space leading_space
  cases hrest : (text.drop i).dropWhile (fun b => is_json_space b.val) with
  | nil =>
    rw [hrest, List.append_nil] at htext
    simp only
    apply char_at_end
    conv_rhs => rw [htext]
    rw [List.length_append, hplen]
  | cons c r =>
    rw [hrest] at htext
    simp only
    exact char_at_at text _ r c _ htext (by rw [List.length_append, hplen])

/-- Claim C22.  For every NUL-terminated text and every cursor in it, when
the first character after the spaces, tabs and newlines that stand at the
cursor (the terminating NUL when the text ends there) is not a double quote,
not a decimal digit and not an opening brace, `json_read_value` returns `NULL`,
no node, and leaves the cursor on that character. -/
theorem json_read_value_rejects (text : List Byte) (i : Nat) (hi : i ≤ text.length)
    (hq : first_char_after_space text i ≠ 0x22)
    (hd : isdigit (first_char_after_space text i) = false)
    (hb : first_char_after_space text i ≠ 0x7B) :
    json_read_value text i = .ok (none, i + leading_space text i) := by
  obtain ⟨hskip, hchar⟩ := json_skip_spaces_eq text i hi
  unfold json_read_value
  rw [show 2 * text.length + 3 = (2 * text.length + 2) + 1 by omega,
    json_read_value_fuel_succ]
  simp only [hskip, hchar, hq, hd, hb, if_false, Bool.false_eq_true]

/-- Claim C22 on the documented texts: a negative integer written with a
minus sign, the empty text and a text that starts with a carriage return are
refused with the cursor unmoved; after two spaces and a newline the minus sign
is refused at index 3.  On its own `json_read_integer` reads the text `-5` as
the number -5. -/
theorem json_read_value_rejects_witness :
    json_read_value (bytes "-5") 0 = .ok (none, 0) ∧
    json_read_value (bytes "") 0 = .ok (none, 0) ∧
    json_read_value (bytes "\r1") 0 = .ok (none, 0) ∧
    json_read_value (bytes "  \n-5") 0 = .ok (none, 3) ∧
    json_read_integer (bytes "-5") 0 = .ok (-5, 2) :=
  ⟨json_read_value_rejects (bytes "-5") 0 (by decide) (by decide) (by decide) (by decide),
    json_read_value_rejects (bytes "") 0 (by decide) (by decide) (by decide) (by decide),
    json_read_value_rejects (bytes "\r1") 0 (by decide) (by decide) (by decide) (by decide),
    json_read_value_rejects (bytes "  \n-5") 0 (by decide) (by decide) (by decide) (by decide),
    by rfl⟩

/-! ## The static `last_read_field_length` between two runs -/

/-- An Integer or String triplet is decoded the same whatever
`last_read_field_length` holds on entry: both readers overwrite it before any
use. -/
theorem bej_read_value_fuel_scalar_static (buf : List Byte) (fuel d l l' type : Nat)
    (dict : List BejDictionary) (h : read buf (d + 1) = .ok type)
    (ht : type = BEJ_INTEGER ∨ type = BEJ_STRING) :
    bej_read_value_fuel buf fuel ⟨d, l⟩ dict = bej_read_value_fuel buf fuel ⟨d, l'⟩ dict := by
  cases fuel with
  | zero => rfl
  | succ fuel =>
    rw [bej_read_value_fuel_succ, bej_read_value_fuel_succ]
    simp only [h]
    rcases ht with rfl | rfl
    · simp [bej_read_integer]
    · simp [bej_read_string, bej_read_integer, BEJ_STRING, BEJ_INTEGER]

/-- A Set whose declared byte-length is not 0 and whose first member is an
Integer or a String is decoded the same whatever `last_read_field_length`
holds on entry: the first member overwrites it before the loop subtracts
it. -/
theorem bej_read_value_fuel_set_static (buf : List Byte) (fuel d l l' bytes_len type : Nat)
    (dict : List BejDictionary) (h1 : read buf (d + 1) = .ok BEJ_SET)
    (h2 : read buf (d + 2) = .ok bytes_len) (hlen : 0 < bytes_len)
    (h4 : read buf (d + 4) = .ok type) (ht : type = BEJ_INTEGER ∨ type = BEJ_STRING) :
    bej_read_value_fuel buf fuel ⟨d, l⟩ dict = bej_read_value_fuel buf fuel ⟨d, l'⟩ dict := by
  cases fuel with
  | zero => rfl
  | succ fuel =>
    rw [bej_read_value_fuel_succ, bej_read_value_fuel_succ]
    simp only [h1]
    cases hid : read buf d with
    | error e => rfl
    | ok id =>
      simp only [BEJ_SET, BEJ_INTEGER, BEJ_STRING]
      simp only [show ¬ (0 : Nat) = 3 by decide, show ¬ (0 : Nat) = 5 by decide, if_false,
        if_true]
      cases fuel with
      | zero => rfl
      | succ fuel =>
        rw [bej_read_object_fuel_succ, bej_read_object_fuel_succ]
        simp only [h2]
        cases fuel with
        | zero => rfl
        | succ fuel =>
          rw [bej_read_object_loop_succ, bej_read_object_loop_succ]
          simp only [hlen, if_true]
          rw [bej_read_value_fuel_scalar_static buf fuel (d + 1 + 2) l l' type _ h4 ht]

/-- What does hold of two runs: a buffer that starts with an Integer or String
triplet, or with a Set of declared byte-length other than 0 whose first member
is an Integer or a String, is decoded by `bej_read_value` to the same tree,
cursor and final `last_read_field_length` whatever the variable holds on
entry. -/
theorem bej_read_value_static_unused (buf : List Byte) (d l l' : Nat)
    (dict : List BejDictionary)
    (h : (∃ type, read buf (d + 1) = .ok type ∧ (type = BEJ_INTEGER ∨ type = BEJ_STRING)) ∨
      (∃ bytes_len type, read buf (d + 1) = .ok BEJ_SET ∧ read buf (d + 2) = .ok bytes_len ∧
        0 < bytes_len ∧ read buf (d + 4) = .ok type ∧
        (type = BEJ_INTEGER ∨ type = BEJ_STRING))) :
    bej_read_value buf ⟨d, l⟩ dict = bej_read_value buf ⟨d, l'⟩ dict := by
  unfold bej_read_value
  rcases h with ⟨type, h1, ht⟩ | ⟨bytes_len, type, h1, h2, hlen, h4, ht⟩
  · exact bej_read_value_fuel_scalar_static buf _ d l l' type dict h1 ht
  · exact bej_read_value_fuel_set_static buf _ d l l' bytes_len type dict h1 h2 hlen h4 ht

/-- Claim C21, evaluated on the code.  The buffer `00 00 01 | 04 00 00 | EE |
01 03 01 07` is a Set of declared byte-length 1 whose first member is a nested
Set of declared byte-length 0.  The nested Set writes nothing to
`last_read_field_length`, and the loop of the enclosing Set subtracts what the
variable held before the run.  Entered with 0 (a fresh process) the loop goes
on and a second member, the Integer 7, is decoded, the cursor ending on index
11; entered with 1 (what decoding `01 03 01 07` before leaves) the loop stops
and the Set has the one member, the cursor ending on index 7.  On the six bytes
`00 00 01 | 04 00 00` the run entered with 1 returns the Set and the run
entered with 0 reads index 7, outside the buffer. -/
theorem stale_field_length_changes_result :
    bej_read_value [0x00, 0x00, 0x01, 0x04, 0x00, 0x00, 0xEE, 0x01, 0x03, 0x01, 0x07] ⟨0, 0⟩
        main_dictionary
      = .ok (some (.set [(1, .set []), (2, .integer 7)]), ⟨11, 1⟩) ∧
    bej_read_value [0x00, 0x00, 0x01, 0x04, 0x00, 0x00, 0xEE, 0x01, 0x03, 0x01, 0x07] ⟨0, 1⟩
        main_dictionary
      = .ok (some (.set [(1, .set [])]), ⟨7, 1⟩) ∧
    bej_read_value [0x01, 0x03, 0x01, 0x07] ⟨0, 0⟩ main_dictionary
      = .ok (some (.integer 7), ⟨3, 1⟩) ∧
    bej_read_value [0x00, 0x00, 0x01, 0x04, 0x00, 0x00] ⟨0, 1⟩ main_dictionary
      = .ok (some (.set [(1, .set [])]), ⟨7, 1⟩) ∧
    bej_read_value [0x00, 0x00, 0x01, 0x04, 0x00, 0x00] ⟨0, 0⟩ main_dictionary
      = .error (.out_of_bounds 7) := by
  refine ⟨?_, ?_, ?_, ?_, ?_⟩ <;> rfl

/-! ## More members than the array of pairs holds -/

/-- The member loop of `json_read_object` on members of the accepted form that
are more than the array of pairs has room for: the pair that does not fit is
stored at index 20, outside the array. -/
theorem json_read_object_loop_overflow : ∀ (ms : JsonMembers) (text pre rest : List Byte)
    (fuel i : Nat) (pairs : List (List Byte × JsonBejSet)), ms.wf →
    pairs.length ≤ JSON_PAIR_BUFFER → JSON_PAIR_BUFFER < pairs.length + ms.count →
    text = pre ++ ms.body ++ rest → i = pre.length → (rest = [] ∨ ∃ r, rest = 0x7D :: r) →
    ms.size ≤ fuel →
    json_read_object_loop text fuel i pairs = .error (.pairs_overflow JSON_PAIR_BUFFER)
  | .nil, _, _, _, _, _, pairs, _, hle, hcap, _, _, _, _ => by
    simp only [JsonMembers.count] at hcap
    omega
  | .cons wb key wk wc v wv r, text, pre, rest, fuel, i, pairs, hwf, hle, hcap, htext, hi,
      hrest, hfuel => by
    obtain ⟨g, rfl⟩ : ∃ g, fuel = g + 1 :=
      ⟨fuel - 1, by simp [JsonMembers.size] at hfuel; omega⟩
    simp only [JsonMembers.size] at hfuel
    simp only [JsonMembers.wf] at hwf
    obtain ⟨_, hkey, hwk, hwc, hv, hwv, hr⟩ := hwf
    simp only [JsonMembers.count] at hcap
    have h20 : JSON_PAIR_BUFFER = 20 := rfl
    have hbody : (JsonMembers.cons wb key wk wc v wv r).body
        = 0x22 :: key ++ 0x22 :: wk ++ 0x3A :: wc ++ v.text ++ wv ++ r.text false := rfl
    rw [hbody] at htext
    -- the opening quote of the key
    have hc0 : char_at text i = .ok (0x22 : Byte).val :=
      char_at_at text pre (key ++ 0x22 :: wk ++ 0x3A :: wc ++ v.text ++ wv ++ r.text false ++ rest)
        0x22 i (by rw [htext]; simp) hi
    have hs0 : json_skip_spaces text i = .ok (i + ([] : List Byte).length) :=
      json_skip_spaces_at text pre []
        (0x22 :: key ++ 0x22 :: wk ++ 0x3A :: wc ++ v.text ++ wv ++ r.text false ++ rest) i
        (by rw [htext]; simp) hi (fun c hc => by cases hc)
        (by intro c hc; simp at hc; subst hc; decide)
    have hk : json_read_string text i = .ok (some key, i + key.length + 2) :=
      json_read_string_at text pre key
        (wk ++ 0x3A :: wc ++ v.text ++ wv ++ r.text false ++ rest) i
        (by rw [htext]; simp) hi hkey
    have hs1 : json_skip_spaces text (i + key.length + 2)
        = .ok (i + key.length + 2 + wk.length) :=
      json_skip_spaces_at text (pre ++ 0x22 :: key ++ [0x22]) wk
        (0x3A :: wc ++ v.text ++ wv ++ r.text false ++ rest) _
        (by rw [htext]; simp) (by simp [hi]; omega) hwk
        (by intro c hc; simp at hc; subst hc; decide)
    have hc3 : char_at text (i + key.length + 2 + wk.length) = .ok (0x3A : Byte).val :=
      char_at_at text (pre ++ 0x22 :: key ++ 0x22 :: wk)
        (wc ++ v.text ++ wv ++ r.text false ++ rest) 0x3A _
        (by rw [htext]; simp) (by simp [hi]; omega)
    have hs5 : json_skip_spaces text (i + key.length + 2 + wk.length + 1)
        = .ok (i + key.length + 2 + wk.length + 1 + wc.length) :=
      json_skip_spaces_at text (pre ++ 0x22 :: key ++ 0x22 :: wk ++ [0x3A]) wc
        (v.text ++ (wv ++ r.text false ++ rest)) _
        (by rw [htext]; simp) (by simp [hi]; omega) hwc
        (fun c hc => JsonValue.text_head v hv _ c hc)
    -- what follows the value is white space, a comma, a closing brace or nothing
    have htail : ∀ c, (r.text false ++ rest).head? = some c →
        c = 0x2C ∨ c = 0x7D := by
      intro c hc
      cases r with
      | nil =>
        simp only [JsonMembers.text, List.nil_append] at hc
        rcases hrest with rfl | ⟨r', rfl⟩
        · cases hc
        · simp at hc; exact Or.inr hc.symm
      | cons wb' key' wk' wc' v' wv' r' =>
        rw [JsonMembers.text_false_cons] at hc
        simp at hc
        exact Or.inl hc.symm
    have hvalue := json_read_value_fuel_text v text
      (pre ++ 0x22 :: key ++ 0x22 :: wk ++ 0x3A :: wc) [] (wv ++ r.text false ++ rest) g
      (i + key.length + 2 + wk.length + 1 + wc.length) hv (fun c hc => by cases hc)
      (by rw [htext]; simp) (by simp [hi]; omega)
      (by
        intro ds _ c hc
        cases wv with
        | nil =>
          simp only [List.nil_append] at hc
          rcases htail c hc with rfl | rfl <;> decide
        | cons w wv' =>
          simp at hc
          subst hc
          have hw := hwv w (List.mem_cons_self _ _)
          simp only [is_json_space, Bool.or_eq_true, beq_iff_eq] at hw
          simp only [isdigit, Bool.and_eq_false_iff, decide_eq_false_iff_not]
          omega)
      (by omega)
    simp only [List.length_nil, Nat.add_zero] at hvalue hs0
    have hs7 : json_skip_spaces text
        (i + key.length + 2 + wk.length + 1 + wc.length + v.text.length)
        = .ok (i + key.length + 2 + wk.length + 1 + wc.length + v.text.length + wv.length) :=
      json_skip_spaces_at text (pre ++ 0x22 :: key ++ 0x22 :: wk ++ 0x3A :: wc ++ v.text) wv
        (r.text false ++ rest) _
        (by rw [htext]; simp) (by simp [hi]; omega) hwv
        (by intro c hc; rcases htail c hc with rfl | rfl <;> decide)
    have hv22 : ((0x22 : Byte) : Nat) = 0x22 := rfl
    have hv3A : ((0x3A : Byte) : Nat) = 0x3A := rfl
    have hne0 : (0x22 : Nat) ≠ 0x7D ∧ (0x22 : Nat) ≠ 0 := by decide
    rw [json_read_object_loop_succ]
    simp only [hc0, hv22, hs0, hk, hs1, hc3, hv3A, if_true, hs5, hvalue]
    rw [if_pos hne0]
    by_cases hfull : JSON_PAIR_BUFFER ≤ pairs.length
    · have hfull' : pairs.length = JSON_PAIR_BUFFER := by omega
      rw [if_pos hfull, hfull']
    · rw [if_neg hfull]
      simp only [hs7]
      cases r with
      | nil =>
        simp only [JsonMembers.count] at hcap
        omega
      | cons wb' key' wk' wc' v' wv' r' =>
        have hc7 : char_at text
            (i + key.length + 2 + wk.length + 1 + wc.length + v.text.length + wv.length)
            = .ok (0x2C : Byte).val :=
          char_at_at text (pre ++ 0x22 :: key ++ 0x22 :: wk ++ 0x3A :: wc ++ v.text ++ wv)
            (wb' ++ (JsonMembers.cons wb' key' wk' wc' v' wv' r').body ++ rest) 0x2C _
            (by rw [htext, JsonMembers.text_false_cons]; simp) (by simp [hi]; omega)
        have hwb' : is_ws wb' := by
          simp only [JsonMembers.wf] at hr
          exact hr.1
        have hs8 : json_skip_spaces text
            (i + key.length + 2 + wk.length + 1 + wc.length + v.text.length + wv.length + 1)
            = .ok (i + key.length + 2 + wk.length + 1 + wc.length + v.text.length + wv.length
                + 1 + wb'.length) :=
          json_skip_spaces_at text
            (pre ++ 0x22 :: key ++ 0x22 :: wk ++ 0x3A :: wc ++ v.text ++ wv ++ [0x2C]) wb'
            ((JsonMembers.cons wb' key' wk' wc' v' wv' r').body ++ rest) _
            (by rw [htext, JsonMembers.text_false_cons]; simp) (by simp [hi]; omega) hwb'
            (by intro c hc; simp [JsonMembers.body] at hc; subst hc; decide)
        have hv2C : ((0x2C : Byte) : Nat) = 0x2C := rfl
        simp only [hc7, hv2C, if_true, hs8]
        exact json_read_object_loop_overflow (.cons wb' key' wk' wc' v' wv' r') text
          (pre ++ 0x22 :: key ++ 0x22 :: wk ++ 0x3A :: wc ++ v.text ++ wv ++ 0x2C :: wb') rest g
          _ _ hr (by simp; omega) (by simp [JsonMembers.count] at hcap ⊢; omega)
          (by rw [htext, JsonMembers.text_false_cons]; simp)
          (by simp [hi]; omega) hrest (by omega)

/-- The function `json_read_object` on an opening brace followed by more than
20 complete members of the accepted form and the end of the text: the 21st
pair is stored outside the array of pairs. -/
theorem json_read_object_overflow (pre ws : List Byte) (ms : JsonMembers)
    (hws : is_ws ws) (hcount : JSON_PAIR_BUFFER < ms.count) (hms : ms.wf) :
    json_read_object (pre ++ 0x7B :: ws ++ ms.text true) pre.length
      = .error (.pairs_overflow JSON_PAIR_BUFFER) := by
  unfold json_read_object
  have hsize := JsonMembers.size_le_run ms true
  rw [show 2 * (pre ++ 0x7B :: ws ++ ms.text true).length + 3
    = (2 * (pre ++ 0x7B :: ws ++ ms.text true).length + 2) + 1 by omega,
    json_read_object_fuel_succ]
  have hskip : json_skip_spaces (pre ++ 0x7B :: ws ++ ms.text true) (pre.length + 1)
      = .ok (pre.length + 1 + (ws ++ ms.lead).length) :=
    json_skip_spaces_at _ (pre ++ [0x7B]) (ws ++ ms.lead) (ms.body ++ []) _
      (by simp [JsonMembers.text_eq]) (by simp)
      (by
        intro c hc
        rcases List.mem_append.mp hc with h | h
        · exact hws c h
        · exact JsonMembers.lead_ws ms hms c h)
      (by
        intro c hc
        rcases JsonMembers.body_head ms _ c hc with rfl | ⟨_, h⟩
        · decide
        · cases h)
  simp only [hskip]
  exact json_read_object_loop_overflow ms _ (pre ++ 0x7B :: ws ++ ms.lead) [] _ _ [] hms
    (by simp) (by simpa using hcount) (by simp [JsonMembers.text_eq]) (by simp; omega)
    (Or.inl rfl)
    (by simp only [List.length_append, List.length_cons] at hsize ⊢; omega)

theorem members_a_wf : ∀ n : Nat, (members_a n).wf
  | 0 => trivial
  | n + 1 => by
    simp only [members_a, JsonMembers.wf, JsonValue.wf, is_ws, is_plain]
    refine ⟨by simp, by simp; decide, by simp, by simp, ⟨by simp, by simp; decide⟩, by simp,
      members_a_wf n⟩

theorem members_a_count : ∀ n : Nat, (members_a n).count = n
  | 0 => rfl
  | n + 1 => by simp [members_a, JsonMembers.count, members_a_count n]

/-- Claim C19 fails as stated.  The array of pairs holds 20 entries
(`PAIR_BUFFER` of json_parse.c) and `json_read_object` checks no bound: on an
opening brace followed by 21 complete members `"a":1` separated by commas and
the end of the text, the 21st pair is stored at index 20, outside the array,
and no Set is returned. -/
theorem unclosed_object_overflows_pairs :
    json_read_object
        (0x7B :: List.intercalate [0x2C] (List.replicate 21 (bytes "\"a\":1"))) 0
      = .error (.pairs_overflow 20) := by
  have htext : 0x7B :: List.intercalate [0x2C] (List.replicate 21 (bytes "\"a\":1"))
      = [] ++ 0x7B :: [] ++ (members_a 21).text true := by rfl
  rw [htext]
  exact json_read_object_overflow [] [] (members_a 21) (fun c hc => by cases hc)
    (by rw [members_a_count]; decide) (members_a_wf 21)

/-- Claim C20 fails as stated.  In the Set `00 00 05 | 01 03 05 01 02 03 04
05` the one member is an Integer with a payload of 5 bytes and the declared
byte-length is that payload length, so the conditions of the claim hold.
`bej_read_integer` shifts the fifth byte by 32 bits, which C leaves undefined
for a `uint32_t`: the member has no decoded value and no Set is returned.
With a payload of 4 bytes the member is decoded. -/
theorem wide_integer_member_is_undefined :
    bej_read_object [0x00, 0x00, 0x05, 0x01, 0x03, 0x05, 0x01, 0x02, 0x03, 0x04, 0x05] ⟨1, 0⟩ 0
        main_dictionary
      = .error (.shift_too_wide 32) ∧
    bej_read_object [0x00, 0x00, 0x04, 0x01, 0x03, 0x04, 0x01, 0x02, 0x03, 0x04] ⟨1, 0⟩ 0
        main_dictionary
      = .ok (some (.set [(1, .integer 0x04030201)]), ⟨10, 4⟩) := by
  constructor <;> rfl

/-! ## The pairs of a Set and the members on the wire -/

theorem numbered_length : ∀ (values : List BejSet) (k : Nat),
    (numbered k values).length = values.length
  | [], _ => rfl
  | _ :: rest, k => by simp [numbered, numbered_length rest (k + 1)]

/-- A run of member decodes from a given state is determined: the values and
the final state are unique. -/
theorem member_run_unique (buf : List Byte) (child : List BejDictionary) (s : State)
    (bytes_len : Nat) (values values' : List BejSet) (s' s'' : State)
    (h : member_run buf child s bytes_len values s')
    (h' : member_run buf child s bytes_len values' s'') : values = values' ∧ s' = s'' := by
  induction h generalizing values' s'' with
  | done s =>
    cases h' with
    | done => exact ⟨rfl, rfl⟩
    | null _ _ _ hpos _ => omega
    | step _ _ _ _ _ _ hpos _ _ => omega
  | null s s1 bl hpos hv =>
    cases h' with
    | done => omega
    | null _ s1' _ _ hv' =>
      rw [hv] at hv'
      cases hv'
      exact ⟨rfl, rfl⟩
    | step _ s1' _ _ v' vs' _ hv' _ =>
      rw [hv] at hv'
      cases hv'
  | step s s1 s' bl v vs hpos hv _ ih =>
    cases h' with
    | done => omega
    | null _ s1' _ _ hv' =>
      rw [hv] at hv'
      cases hv'
    | step _ s1' _ _ v' vs' _ hv' hrun' =>
      rw [hv] at hv'
      cases hv'
      obtain ⟨h1, h2⟩ := ih vs' s'' hrun'
      exact ⟨by rw [h1], h2⟩

/-- The loop of `bej_read_object` stores one pair for each member decoded
successfully, in wire order, under the next key. -/
theorem bej_read_object_loop_run (buf : List Byte) : ∀ (fuel : Nat) (s : State)
    (child : List BejDictionary) (bytes_len oid : Nat) (pairs : List (Nat × BejSet))
    (r : Option BejSet) (s' : State),
    bej_read_object_loop buf fuel s child bytes_len oid pairs = .ok (r, s') →
    pairs.length ≤ PAIR_BUFFER → oid = pairs.length + 1 →
    ∃ values, member_run buf child s bytes_len values s' ∧
      r = some (.set (pairs ++ numbered oid values)) := by
  intro fuel
  induction fuel with
  | zero => intro s child bl oid pairs r s' h; simp [bej_read_object_loop] at h
  | succ f ih =>
    intro s child bl oid pairs r s' h hlen hoid
    have h32 : PAIR_BUFFER = 32 := rfl
    rw [bej_read_object_loop_succ] at h
    split at h
    · next hpos =>
      cases hv : bej_read_value_fuel buf f s child with
      | error e => simp [hv] at h
      | ok p =>
        obtain ⟨value, s1⟩ := p
        have hv' := bej_read_value_of_fuel buf f s child _ hv
        simp only [hv] at h
        cases value with
        | none =>
          simp only [Except.ok.injEq, Prod.mk.injEq] at h
          obtain ⟨rfl, rfl⟩ := h
          exact ⟨[], member_run.null s s1 bl hpos hv', by simp [numbered]⟩
        | some v =>
          simp only at h
          split at h
          · cases h
          · next hcap =>
            obtain ⟨values, hrun, hr⟩ := ih _ _ _ _ _ _ _ h (by simp; omega)
              (by simp only [List.length_append, List.length_singleton]; omega)
            refine ⟨v :: values, member_run.step s s1 s' bl v values hpos hv' hrun, ?_⟩
            rw [hr]
            have h1 : oid % 256 = oid := Nat.mod_eq_of_lt (by omega)
            have h2 : (oid + 1) % 65536 = oid + 1 := Nat.mod_eq_of_lt (by omega)
            simp [numbered, h1, h2]
    · next hzero =>
      simp only [Except.ok.injEq, Prod.mk.injEq] at h
      obtain ⟨rfl, rfl⟩ := h
      have hbl : bl = 0 := by omega
      subst hbl
      exact ⟨[], member_run.done s, by simp [numbered]⟩

/-! ## Keys -/

/-- Claim C9.  Every Set that `bej_read_object` returns has at most 32
members (`PAIR_BUFFER`; a 33rd store is outside the array), and the member at
1-based position `i` has key `i`, whatever identifier bytes the buffer holds;
the same is true of every Set nested in it.  The pairs stored are the members
decoded successfully, in wire order: the successive calls of `bej_read_value`
that the loop makes from the byte behind the length byte (`member_run`) return
the nodes `values` and end in the state that `bej_read_object` returns, the
pairs are those nodes under the keys 1, 2, 3, ..., and the member count is
their number. -/
theorem bej_read_object_keys_sequential (buf : List Byte) (s : State) (parent_id : Nat)
    (dict : List BejDictionary) (v : BejSet) (s' : State)
    (h : bej_read_object buf s parent_id dict = .ok (some v, s')) :
    ∃ pairs, v = .set pairs ∧ pairs.length ≤ PAIR_BUFFER ∧
      (∀ (i : Nat) (hi : i < pairs.length), (pairs.get ⟨i, hi⟩).1 = i + 1) ∧
      v.keys_sequential = true ∧
      ∃ bytes_len values, read buf (s.data + 1) = .ok bytes_len ∧
        member_run buf (bej_get_child_dictionary parent_id)
          ⟨s.data + 2, s.last_read_field_length⟩ bytes_len values s' ∧
        pairs = numbered 1 values ∧ pairs.length = values.length := by
  obtain ⟨⟨pairs, hr, hlen, _, hkey⟩, _⟩ := (decode_invariant buf _).2.1 _ _ _ _ _ h
  cases hr
  refine ⟨pairs, rfl, hlen, ?_, ?_, ?_⟩
  · intro i hi
    rw [keys_from_get pairs 1 hkey i hi, Nat.add_comm]
  · simpa [BejSet.keys_sequential] using hkey
  · unfold bej_read_object at h
    rw [show 3 * buf.length + 3 = (3 * buf.length + 2) + 1 by omega,
      bej_read_object_fuel_succ] at h
    cases hb : read buf (s.data + 1) with
    | error e => simp [hb] at h
    | ok bytes_len =>
      simp only [hb] at h
      obtain ⟨values, hrun, hr⟩ := bej_read_object_loop_run buf _ _ _ _ _ _ _ _ h
        (by simp) (by simp)
      simp only [List.nil_append, Option.some.injEq, BejSet.set.injEq] at hr
      exact ⟨bytes_len, values, rfl, hrun, hr, by rw [hr, numbered_length]⟩

/-- Claim C9 on the Set `00 00 06 | 09 03 01 40 | 07 05 05 NoECC`: the two
members carry the identifiers 9 and 7; `bej_read_object` returns them under the
keys 1 and 2, and they are the two nodes that the run of member decodes
returns, the Integer 64 and the String `NoECC`. -/
theorem bej_read_object_keys_sequential_witness :
    bej_read_object
        [0x00, 0x00, 0x06, 0x09, 0x03, 0x01, 0x40, 0x07, 0x05, 0x05, 0x4E, 0x6F, 0x45, 0x43, 0x43]
        ⟨1, 0⟩ 0 main_dictionary
      = .ok (some (.set [(1, .integer 64), (2, .string [0x4E, 0x6F, 0x45, 0x43, 0x43])]),
          ⟨15, 5⟩) ∧
    member_run
      [0x00, 0x00, 0x06, 0x09, 0x03, 0x01, 0x40, 0x07, 0x05, 0x05, 0x4E, 0x6F, 0x45, 0x43, 0x43]
      (bej_get_child_dictionary 0) ⟨3, 0⟩ 6
      [.integer 64, .string [0x4E, 0x6F, 0x45, 0x43, 0x43]] ⟨15, 5⟩ ∧
    ∃ pairs, BejSet.set [(1, .integer 64), (2, .string [0x4E, 0x6F, 0x45, 0x43, 0x43])]
        = .set pairs ∧ pairs.length ≤ PAIR_BUFFER ∧
      (∀ (i : Nat) (hi : i < pairs.length), (pairs.get ⟨i, hi⟩).1 = i + 1) ∧
      (BejSet.set [(1, .integer 64), (2, .string [0x4E, 0x6F, 0x45, 0x43, 0x43])]).keys_sequential
        = true ∧
      ∃ bytes_len values,
        read [0x00, 0x00, 0x06, 0x09, 0x03, 0x01, 0x40, 0x07, 0x05, 0x05, 0x4E, 0x6F, 0x45,
          0x43, 0x43] (1 + 1) = .ok bytes_len ∧
        member_run
          [0x00, 0x00, 0x06, 0x09, 0x03, 0x01, 0x40, 0x07, 0x05, 0x05, 0x4E, 0x6F, 0x45, 0x43,
            0x43]
          (bej_get_child_dictionary 0) ⟨1 + 2, 0⟩ bytes_len values ⟨15, 5⟩ ∧
        pairs = numbered 1 values ∧ pairs.length = values.length :=
  ⟨by rfl,
    member_run.step ⟨3, 0⟩ ⟨6, 1⟩ ⟨15, 5⟩ 6 _ _ (by decide) (by rfl)
      (member_run.step ⟨7, 1⟩ ⟨14, 5⟩ ⟨15, 5⟩ 5 _ _ (by decide) (by rfl)
        (member_run.done ⟨15, 5⟩)),
    bej_read_object_keys_sequential
      [0x00, 0x00, 0x06, 0x09, 0x03, 0x01, 0x40, 0x07, 0x05, 0x05, 0x4E, 0x6F, 0x45, 0x43, 0x43]
      ⟨1, 0⟩ 0 main_dictionary _ ⟨15, 5⟩ (by rfl)⟩

end BEJ
